import Mathlib

/-!
# A linked-list string queue (`queue.c`)

Shallow embedding of the queue of `queue.c` and proofs about it.

* A pointer is `Option Nat` (`none` is `NULL`); the heap maps an address to the
  list element stored there, `none` for an address that is not allocated.
* A `char *` string is the list of its bytes before the terminator.
* Every function returns an `Option`: `none` stands for a run that has no
  defined result (a dereference of `NULL` or of a freed address, or a loop that
  used up its fuel).
* `int` arithmetic is reduced with `toInt32`: on the `size` field, and on the
  variables `s_len` and `t_len` that receive `strlen(s) + 1`; an `int` passed
  as a `size_t` is reduced with `toSizeT`. A queue that is represented (`Rep`)
  has at most `INT_MAX` elements.
* `malloc` is a parameter of the insertions: the address it returns for the new
  element (`none` when it fails) and whether it gave storage for the string.
  The theorems assume what `malloc` guarantees, an address not allocated.
* The strings and the queue record are not objects of the heap: the calls of
  `free` that `q_free` makes on them are entries of the trace it returns.
-/

namespace QueueC

/-! ## Data model -/

/-- A pointer to a list element: an address, or `none` for `NULL`. -/
abbrev Ptr := Option Nat

/-- The struct `list_ele_t`: the owned string and the link to the next element. -/
structure list_ele_t where
  value : List Nat
  next : Ptr
deriving DecidableEq, Repr

/-- The heap of list elements. -/
abbrev Heap := Nat → Option list_ele_t

/-- The struct `queue_t`, with the three fields `queue.c` uses. -/
structure queue_t where
  head : Ptr
  tail : Ptr
  size : Int
deriving DecidableEq, Repr

/-- The value of a C `int` expression: reduction to the 32-bit signed range. -/
def toInt32 (x : Int) : Int := (x + 2147483648) % 4294967296 - 2147483648

/-- The largest `int`. -/
def INT_MAX : Int := 2147483647

/-- The value of an `int` passed where a `size_t` is expected: reduction
modulo `2 ^ 64`. -/
def toSizeT (x : Int) : Nat := (x % 18446744073709551616).toNat

/-- The heap with nothing allocated. -/
def emptyHeap : Heap := fun _ => none

/-- Store an element at an address. -/
def store (h : Heap) (a : Nat) (n : list_ele_t) : Heap :=
  fun x => if x = a then some n else h x

/-- The C call `free(p)` on an element: the address is no longer allocated. -/
def release (h : Heap) (a : Nat) : Heap :=
  fun x => if x = a then none else h x

/-- Read `p->next`. -/
def getNext (h : Heap) (p : Ptr) : Option Ptr :=
  match p with
  | none => none
  | some a =>
    match h a with
    | none => none
    | some n => some n.next

/-- Read `p->value`. -/
def getValue (h : Heap) (p : Ptr) : Option (List Nat) :=
  match p with
  | none => none
  | some a =>
    match h a with
    | none => none
    | some n => some n.value

/-- Write `p->next = nx`. -/
def setNext (h : Heap) (p : Ptr) (nx : Ptr) : Option Heap :=
  match p with
  | none => none
  | some a =>
    match h a with
    | none => none
    | some n => some (store h a { n with next := nx })

/-! ## String functions of the C library -/

/-- The C function `strcmp` on two strings, compared byte by byte; the empty
string is below every string that has a first byte. -/
def strcmp : List Nat → List Nat → Int
  | [], [] => 0
  | [], _ :: _ => -1
  | _ :: _, [] => 1
  | a :: as, b :: bs => if a = b then strcmp as bs else (a : Int) - (b : Int)

/-- The macro `strlcpy(dst, src, sz)`, which is `snprintf(dst, sz, "%s", src)`:
the string left in `dst` is the first `sz - 1` bytes of `src`; with `sz = 0`
nothing is written. -/
def strlcpy (dst src : List Nat) (sz : Nat) : List Nat :=
  if sz = 0 then dst else src.take (sz - 1)

/-- The C function `strncpy(dst, src, n)`: the bytes of `src`, at most `n`.
When `n` is not above the length of `src` no terminator is written; the `n`
bytes copied are then what the model keeps as the string of `dst`. -/
def strncpy (src : List Nat) (n : Nat) : List Nat := src.take n

/-! ## The queue operations -/

/-- The function `q_new`; `mallocOk` says whether `malloc` gave storage. -/
def q_new (mallocOk : Bool) : Option queue_t :=
  if !mallocOk then none
  else some { head := none, tail := none, size := 0 }

/-- One call of `free` in `q_free`: on the string of the element at an
address (`free(tmp->value)`), on the element at an address (`free(tmp)`), or on
the queue record (`free(q)`). -/
inductive Freed where
  | value (a : Nat)
  | element (a : Nat)
  | queue
deriving DecidableEq, Repr

/-- The loop of `q_free`, run `n` times: the heap, `q->head` and the calls of
`free` made so far, oldest first. One iteration takes `tmp = q->head`, moves
`q->head` to `q->head->next`, reads `tmp->value` and frees it, and frees
`tmp`. -/
def freeLoop : Nat → Heap → Ptr → List Freed → Option (Heap × Ptr × List Freed)
  | 0, h, head, freed => some (h, head, freed)
  | n + 1, h, head, freed =>
    match head with
    | none => none
    | some a =>
      match getNext h head with
      | none => none
      | some nx =>
        match getValue h (some a) with
        | none => none
        | some _ => freeLoop n (release h a) nx (freed ++ [Freed.value a, Freed.element a])

/-- The function `q_free`: the heap after it and the calls of `free` it made,
in order. The loop runs for `i = 0, ..., q->size - 1`; `free(q)` is the final
call. On an absent queue `free` is not called. -/
def q_free (h : Heap) (q : Option queue_t) : Option (Heap × List Freed) :=
  match q with
  | none => some (h, [])
  | some q =>
    match freeLoop q.size.toNat h q.head [] with
    | none => none
    | some (h1, _, freed) => some (h1, freed ++ [Freed.queue])

/-- The function `q_insert_head`. `newh` is what `malloc` returns for the
element and `valOk` says whether the `malloc` for the string gave storage.
The result is the heap, the queue and the returned `bool`. The `int` `s_len`
is `strlen(s) + 1` reduced to 32 bits, and is the size given to `strlcpy`. -/
def q_insert_head (h : Heap) (q : Option queue_t) (s : List Nat) (newh : Ptr)
    (valOk : Bool) : Option (Heap × Option queue_t × Bool) :=
  match q with
  | none => some (h, none, false)
  | some q =>
    match newh with
    | none => some (h, some q, false)
    | some a =>
      let s_len : Int := toInt32 ((s.length : Int) + 1)
      if !valOk then some (h, some q, false)
      else
        let h1 := store h a { value := strlcpy [] s (toSizeT s_len), next := q.head }
        let tail := if q.size = 0 then some a else q.tail
        some (h1, some { head := some a, tail := tail, size := toInt32 (q.size + 1) }, true)

/-- The function `q_insert_tail`, with the same two `malloc` results. The
`int` `t_len` is `strlen(s) + 1` reduced to 32 bits, and is the count given to
`strncpy`. -/
def q_insert_tail (h : Heap) (q : Option queue_t) (s : List Nat) (newt : Ptr)
    (valOk : Bool) : Option (Heap × Option queue_t × Bool) :=
  match q with
  | none => some (h, none, false)
  | some q =>
    match newt with
    | none => some (h, some q, false)
    | some a =>
      let t_len : Int := toInt32 ((s.length : Int) + 1)
      if !valOk then some (h, some q, false)
      else
        let h1 := store h a { value := strncpy s (toSizeT t_len), next := none }
        if q.size = 0 then
          some (h1, some { head := some a, tail := some a, size := toInt32 (q.size + 1) }, true)
        else
          match setNext h1 q.tail (some a) with
          | none => none
          | some h2 =>
            some (h2, some { head := q.head, tail := some a, size := toInt32 (q.size + 1) }, true)

/-- The function `q_remove_head`. `sp` is the string held by the caller's
buffer (`none` when `sp` is `NULL`). The result is the heap, the queue, the
buffer and the returned `bool`. -/
def q_remove_head (h : Heap) (q : Option queue_t) (sp : Option (List Nat))
    (bufsize : Nat) : Option (Heap × Option queue_t × Option (List Nat) × Bool) :=
  match q with
  | none => some (h, none, sp, false)
  | some q =>
    match q.head with
    | none => some (h, some q, sp, false)
    | some a =>
      if q.size = 0 then some (h, some q, sp, false)
      else
        match h a with
        | none => none
        | some n =>
          let sp1 := sp.map (fun buf => strlcpy buf n.value bufsize)
          let tail := if some a = q.tail then none else q.tail
          some (release h a,
            some { head := n.next, tail := tail, size := toInt32 (q.size - 1) }, sp1, true)

/-- The function `q_size`. -/
def q_size (q : Option queue_t) : Int :=
  match q with
  | none => 0
  | some q => if q.head = none then 0 else q.size

/-- The loop of `q_reverse`: the heap and `prev` when `curr` becomes `NULL`. -/
def reverseLoop : Nat → Heap → Ptr → Ptr → Option (Heap × Ptr)
  | 0, _, _, _ => none
  | fuel + 1, h, prev, curr =>
    match curr with
    | none => some (h, prev)
    | some _ =>
      match getNext h curr with
      | none => none
      | some next =>
        match setNext h curr prev with
        | none => none
        | some h1 => reverseLoop fuel h1 curr next

/-- The function `q_reverse`. -/
def q_reverse (fuel : Nat) (h : Heap) (q : Option queue_t) : Option (Heap × Option queue_t) :=
  match q with
  | none => some (h, none)
  | some q =>
    if q.size < 2 then some (h, some q)
    else
      match reverseLoop fuel h none q.head with
      | none => none
      | some (h1, prev) => some (h1, some { head := prev, tail := q.head, size := q.size })

/-- The loop of `merge` and the two `if`s after it: `tmp` is the last element
of the output so far. -/
def mergeLoop : Nat → Heap → Ptr → Ptr → Ptr → Option Heap
  | 0, _, _, _, _ => none
  | fuel + 1, h, tmp, left, right =>
    match left, right with
    | some _, some _ =>
      match getValue h left, getValue h right with
      | some lv, some rv =>
        if strcmp lv rv < 0 then
          match setNext h tmp left with
          | none => none
          | some h1 =>
            match getNext h1 tmp with
            | none => none
            | some tmp1 =>
              match getNext h1 left with
              | none => none
              | some left1 => mergeLoop fuel h1 tmp1 left1 right
        else
          match setNext h tmp right with
          | none => none
          | some h1 =>
            match getNext h1 tmp with
            | none => none
            | some tmp1 =>
              match getNext h1 right with
              | none => none
              | some right1 => mergeLoop fuel h1 tmp1 left right1
      | _, _ => none
    | some _, none => setNext h tmp left
    | none, some _ => setNext h tmp right
    | none, none => some h

/-- The function `merge`. -/
def merge (fuel : Nat) (h : Heap) (left right : Ptr) : Option (Heap × Ptr) :=
  match getValue h left, getValue h right with
  | some lv, some rv =>
    if strcmp lv rv < 0 then
      match getNext h left with
      | none => none
      | some left1 =>
        match mergeLoop fuel h left left1 right with
        | none => none
        | some h1 => some (h1, left)
    else
      match getNext h right with
      | none => none
      | some right1 =>
        match mergeLoop fuel h right left right1 with
        | none => none
        | some h1 => some (h1, right)
  | _, _ => none

/-- The fast/slow loop of `mergeSortList`: the value of `slow` at its end. -/
def splitLoop : Nat → Heap → Ptr → Ptr → Option Ptr
  | 0, _, _, _ => none
  | fuel + 1, h, fast, slow =>
    match fast with
    | none => some slow
    | some _ =>
      match getNext h fast with
      | none => none
      | some none => some slow
      | some (some fn) =>
        match getNext h slow with
        | none => none
        | some slow1 =>
          match getNext h (some fn) with
          | none => none
          | some fast1 => splitLoop fuel h fast1 slow1

/-- The function `mergeSortList`: the heap and the head of the sorted chain. -/
def mergeSortList : Nat → Heap → Ptr → Option (Heap × Ptr)
  | 0, _, _ => none
  | fuel + 1, h, head =>
    match head with
    | none => some (h, head)
    | some _ =>
      match getNext h head with
      | none => none
      | some none => some (h, head)
      | some (some hn) =>
        match splitLoop fuel h (some hn) head with
        | none => none
        | some slow =>
          match getNext h slow with
          | none => none
          | some fast =>
            match setNext h slow none with
            | none => none
            | some h1 =>
              match mergeSortList fuel h1 head with
              | none => none
              | some (h2, left) =>
                match mergeSortList fuel h2 fast with
                | none => none
                | some (h3, right) => merge fuel h3 left right

/-- The loop at the end of `q_sort`: move `q->tail` to the end of the chain. -/
def tailLoop : Nat → Heap → Ptr → Option Ptr
  | 0, _, _ => none
  | fuel + 1, h, tail =>
    match getNext h tail with
    | none => none
    | some none => some tail
    | some (some nx) => tailLoop fuel h (some nx)

/-- The function `q_sort`. -/
def q_sort (fuel : Nat) (h : Heap) (q : Option queue_t) : Option (Heap × Option queue_t) :=
  match q with
  | none => some (h, none)
  | some q =>
    if q.size < 2 then some (h, some q)
    else
      match mergeSortList fuel h q.head with
      | none => none
      | some (h1, hd) =>
        match tailLoop fuel h1 q.tail with
        | none => none
        | some tl => some (h1, some { head := hd, tail := tl, size := q.size })

/-! ## Reading a queue -/

/-- The addresses of the chain that starts at `p`, walking at most `fuel` links. -/
def chainOf : Nat → Heap → Ptr → Option (List Nat)
  | _, _, none => some []
  | 0, _, some _ => none
  | fuel + 1, h, some a =>
    match h a with
    | none => none
    | some n => (chainOf fuel h n.next).map (fun l => a :: l)

/-- The string stored at an address (empty when nothing is allocated there). -/
def valOf (h : Heap) (a : Nat) : List Nat :=
  match h a with
  | none => []
  | some n => n.value

/-- The strings of a chain, front to back. -/
def valuesOf (fuel : Nat) (h : Heap) (p : Ptr) : Option (List (List Nat)) :=
  (chainOf fuel h p).map (fun l => l.map (valOf h))

/-- The strings of a queue, front to back; an absent queue has none. -/
def queueValues (fuel : Nat) (h : Heap) (q : Option queue_t) : Option (List (List Nat)) :=
  match q with
  | none => some []
  | some q => valuesOf fuel h q.head

/-- The bytes of an ASCII string literal. -/
def bytes (s : String) : List Nat := s.toList.map Char.toNat

/-! ## Chains and well-formed queues -/

/-- The elements at the addresses `l`, in this order, link `p` to `q`: `p`
points to the first, each one's `next` points to the one after it, and the
`next` of the final one is `q` (with `l` empty, `p` is `q`). -/
def IsSeg (h : Heap) : Ptr → List Nat → Ptr → Prop
  | p, [], q => p = q
  | p, a :: l, q =>
    p = some a ∧
      match h a with
      | none => False
      | some n => IsSeg h n.next l q

/-- Deciding `IsSeg` by walking the heap. -/
def decIsSeg (h : Heap) : (p : Ptr) → (l : List Nat) → (q : Ptr) → Decidable (IsSeg h p l q)
  | p, [], q => inferInstanceAs (Decidable (p = q))
  | p, a :: l, q =>
    @instDecidableAnd (p = some a) _ inferInstance
      (match h a with
        | none => isFalse (fun x => x)
        | some n => decIsSeg h n.next l q)

instance (h : Heap) (p : Ptr) (l : List Nat) (q : Ptr) : Decidable (IsSeg h p l q) :=
  decIsSeg h p l q

/-- The chain that starts at `p` is `l` and ends with a `NULL` link. -/
def IsChain (h : Heap) (p : Ptr) (l : List Nat) : Prop := IsSeg h p l none

instance (h : Heap) (p : Ptr) (l : List Nat) : Decidable (IsChain h p l) :=
  decIsSeg h p l none

/-- The queue `q` holds the elements at the addresses `l`, front to back:
`head` starts the chain `l`, `tail` is its final element and `size`, an `int`,
is its length. -/
def Rep (h : Heap) (q : queue_t) (l : List Nat) : Prop :=
  IsChain h q.head l ∧ q.tail = l.getLast? ∧ q.size = (l.length : Int) ∧
    (l.length : Int) ≤ INT_MAX

instance (h : Heap) (q : queue_t) (l : List Nat) : Decidable (Rep h q l) :=
  inferInstanceAs (Decidable (_ ∧ _ ∧ _ ∧ _))

/-- The heap `h1` is `h` but for the `next` links of the elements at the
addresses `S`: the same addresses are allocated and hold the same strings. -/
def Frame (S : List Nat) (h h1 : Heap) : Prop :=
  ∀ a, (a ∉ S → h1 a = h a) ∧
    (h1 a).map (fun n => n.value) = (h a).map (fun n => n.value)

/-- The order of `strcmp`: `a` is not above `b`. -/
def SLe (a b : List Nat) : Prop := strcmp a b ≤ 0

instance (a b : List Nat) : Decidable (SLe a b) := inferInstanceAs (Decidable (_ ≤ _))

/-- What `merge` does to the two chains, as lists of addresses: the left
element goes first only when its string is strictly below the right one. -/
def mergeP (v : Nat → List Nat) : List Nat → List Nat → List Nat
  | [], l2 => l2
  | a :: l1, [] => a :: l1
  | a :: l1, b :: l2 =>
    if strcmp (v a) (v b) < 0 then a :: mergeP v l1 (b :: l2)
    else b :: mergeP v (a :: l1) l2
termination_by l1 l2 => l1.length + l2.length

/-- What `mergeSortList` does to a chain, as a list of addresses, with the
same fuel: the first half has the first `(n + 1) / 2` elements. -/
def msortP (v : Nat → List Nat) : Nat → List Nat → List Nat
  | 0, l => l
  | fuel + 1, l =>
    if l.length < 2 then l
    else
      mergeP v (msortP v fuel (l.take ((l.length + 1) / 2)))
        (msortP v fuel (l.drop ((l.length + 1) / 2)))

/-- The invariant of the queue: `size`, an `int`, is the number of elements
reachable from `head`; `size` is 0 exactly when `head` is `NULL`, exactly when
`tail` is `NULL`; with one element or more, `tail` is the final element of the
chain from `head`, the one whose `next` is `NULL`. -/
def WellFormed (h : Heap) (q : queue_t) : Prop :=
  ∃ l : List Nat, IsChain h q.head l ∧ q.size = (l.length : Int) ∧ q.size ≤ INT_MAX ∧
    (q.size = 0 ↔ q.head = none) ∧ (q.head = none ↔ q.tail = none) ∧
    (1 ≤ q.size → q.tail = l.getLast? ∧ getNext h q.tail = some none)

/-! ## Sequences of calls -/

/-- Calls of `q_insert_tail`, one for each string, in order; each string comes
with the address `malloc` returns for its element. The result has the returned
`bool`s. -/
def insertTailList : Heap → Option queue_t → List (List Nat × Nat) →
    Option (Heap × Option queue_t × List Bool)
  | h, q, [] => some (h, q, [])
  | h, q, x :: xs =>
    match q_insert_tail h q x.1 (some x.2) true with
    | none => none
    | some (h1, q1, b) =>
      match insertTailList h1 q1 xs with
      | none => none
      | some (h2, q2, bs) => some (h2, q2, b :: bs)

/-- Calls of `q_insert_head`, one for each string, in order. -/
def insertHeadList : Heap → Option queue_t → List (List Nat × Nat) →
    Option (Heap × Option queue_t × List Bool)
  | h, q, [] => some (h, q, [])
  | h, q, x :: xs =>
    match q_insert_head h q x.1 (some x.2) true with
    | none => none
    | some (h1, q1, b) =>
      match insertHeadList h1 q1 xs with
      | none => none
      | some (h2, q2, bs) => some (h2, q2, b :: bs)

/-- The call `q_remove_head(q, sp, bufsize)` made `n` times, each with a buffer
of `bufsize` bytes: the result has, for each call, the string left in the
buffer and the returned `bool`. -/
def removeHeadN : Nat → Heap → Option queue_t → Nat →
    Option (Heap × Option queue_t × List (Option (List Nat) × Bool))
  | 0, h, q, _ => some (h, q, [])
  | n + 1, h, q, bufsize =>
    match q_remove_head h q (some []) bufsize with
    | none => none
    | some (h1, q1, sp1, b) =>
      match removeHeadN n h1 q1 bufsize with
      | none => none
      | some (h2, q2, rs) => some (h2, q2, (sp1, b) :: rs)

/-- One call of an insertion or of the removal, with its arguments and, for an
insertion, the two results of `malloc`. -/
inductive Op where
  | insertHead (s : List Nat) (newh : Ptr) (valOk : Bool)
  | insertTail (s : List Nat) (newt : Ptr) (valOk : Bool)
  | removeHead (sp : Option (List Nat)) (bufsize : Nat)
deriving DecidableEq, Repr

/-- Run one call: the heap, the queue and the returned `bool`. -/
def step (h : Heap) (q : Option queue_t) : Op → Option (Heap × Option queue_t × Bool)
  | Op.insertHead s newh valOk => q_insert_head h q s newh valOk
  | Op.insertTail s newt valOk => q_insert_tail h q s newt valOk
  | Op.removeHead sp bufsize =>
    match q_remove_head h q sp bufsize with
    | none => none
    | some (h1, q1, _, b) => some (h1, q1, b)

/-- Run a sequence of calls: the final heap and queue and the returned `bool`s. -/
def run : Heap → Option queue_t → List Op → Option (Heap × Option queue_t × List Bool)
  | h, q, [] => some (h, q, [])
  | h, q, op :: ops =>
    match step h q op with
    | none => none
    | some (h1, q1, b) =>
      match run h1 q1 ops with
      | none => none
      | some (h2, q2, bs) => some (h2, q2, b :: bs)

/-- What `malloc` guarantees for one call: the address it returns for the
element is not allocated. -/
def FreshOp (h : Heap) : Op → Prop
  | Op.insertHead _ (some a) _ => h a = none
  | Op.insertTail _ (some a) _ => h a = none
  | _ => True

/-- What `malloc` guarantees along a sequence of calls. -/
def FreshRun : Heap → Option queue_t → List Op → Prop
  | _, _, [] => True
  | h, q, op :: ops =>
    FreshOp h op ∧
      match step h q op with
      | none => True
      | some (h1, q1, _) => FreshRun h1 q1 ops

/-- Deciding `FreshOp`. -/
def decFreshOp (h : Heap) : (op : Op) → Decidable (FreshOp h op)
  | Op.insertHead _ (some a) _ => inferInstanceAs (Decidable (h a = none))
  | Op.insertHead _ none _ => isTrue trivial
  | Op.insertTail _ (some a) _ => inferInstanceAs (Decidable (h a = none))
  | Op.insertTail _ none _ => isTrue trivial
  | Op.removeHead _ _ => isTrue trivial

/-- Deciding `FreshRun` by running the calls. -/
def decFreshRun : (h : Heap) → (q : Option queue_t) → (ops : List Op) →
    Decidable (FreshRun h q ops)
  | _, _, [] => isTrue trivial
  | h, q, op :: ops =>
    @instDecidableAnd (FreshOp h op) _ (decFreshOp h op)
      (match step h q op with
        | none => isTrue trivial
        | some (h1, q1, _) => decFreshRun h1 q1 ops)

instance (h : Heap) (q : Option queue_t) (ops : List Op) : Decidable (FreshRun h q ops) :=
  decFreshRun h q ops

/-- The `int` `size` can take one more element at this call: an insertion
whose two calls of `malloc` succeed finds `size` below `INT_MAX`, so that
`q->size += 1` does not overflow. -/
def RoomOp : Option queue_t → Op → Prop
  | some q, Op.insertHead _ (some _) true => q.size < INT_MAX
  | some q, Op.insertTail _ (some _) true => q.size < INT_MAX
  | _, _ => True

/-- Along a sequence of calls, `size` never overflows. -/
def RoomRun : Heap → Option queue_t → List Op → Prop
  | _, _, [] => True
  | h, q, op :: ops =>
    RoomOp q op ∧
      match step h q op with
      | none => True
      | some (h1, q1, _) => RoomRun h1 q1 ops

/-- Deciding `RoomOp`. -/
def decRoomOp : (q : Option queue_t) → (op : Op) → Decidable (RoomOp q op)
  | some q, Op.insertHead _ (some _) true => inferInstanceAs (Decidable (q.size < INT_MAX))
  | some _, Op.insertHead _ (some _) false => isTrue trivial
  | some _, Op.insertHead _ none _ => isTrue trivial
  | some q, Op.insertTail _ (some _) true => inferInstanceAs (Decidable (q.size < INT_MAX))
  | some _, Op.insertTail _ (some _) false => isTrue trivial
  | some _, Op.insertTail _ none _ => isTrue trivial
  | some _, Op.removeHead _ _ => isTrue trivial
  | none, Op.insertHead _ _ _ => isTrue trivial
  | none, Op.insertTail _ _ _ => isTrue trivial
  | none, Op.removeHead _ _ => isTrue trivial

/-- Deciding `RoomRun` by running the calls. -/
def decRoomRun : (h : Heap) → (q : Option queue_t) → (ops : List Op) →
    Decidable (RoomRun h q ops)
  | _, _, [] => isTrue trivial
  | h, q, op :: ops =>
    @instDecidableAnd (RoomOp q op) _ (decRoomOp q op)
      (match step h q op with
        | none => isTrue trivial
        | some (h1, q1, _) => decRoomRun h1 q1 ops)

instance (h : Heap) (q : Option queue_t) (ops : List Op) : Decidable (RoomRun h q ops) :=
  decRoomRun h q ops

/-- The number of insertions of a run that returned `true`. -/
def insertsOk : List Op → List Bool → Nat
  | Op.insertHead _ _ _ :: ops, true :: bs => insertsOk ops bs + 1
  | Op.insertTail _ _ _ :: ops, true :: bs => insertsOk ops bs + 1
  | _ :: ops, _ :: bs => insertsOk ops bs
  | _, _ => 0

/-- The number of removals of a run that returned `true`. -/
def removesOk : List Op → List Bool → Nat
  | Op.removeHead _ _ :: ops, true :: bs => removesOk ops bs + 1
  | _ :: ops, _ :: bs => removesOk ops bs
  | _, _ => 0

/-- The heap and the queue a sequence of calls ends with (the empty heap and
queue when the run has no defined result or the queue is absent). -/
def stateOf {α : Type} (r : Option (Heap × Option queue_t × α)) : Heap × queue_t :=
  match r with
  | some (h, some q, _) => (h, q)
  | _ => (emptyHeap, { head := none, tail := none, size := 0 })

/-- The queue after `insert_back` of "banana", "apple" and "cherry", their
elements at the addresses 1, 2 and 3. -/
def fruitQueue : Heap × queue_t :=
  stateOf (insertTailList emptyHeap (q_new true)
    [(bytes "banana", 1), (bytes "apple", 2), (bytes "cherry", 3)])

/-- A run of eight calls: three insertions that succeed, one whose `malloc`
fails, three removals that succeed and one on the queue then empty. -/
def eightCalls : List Op :=
  [Op.insertHead (bytes "a") (some 1) true, Op.insertTail (bytes "b") (some 2) true,
   Op.insertTail (bytes "c") none true, Op.removeHead (some []) 8,
   Op.insertHead (bytes "d") (some 1) true, Op.removeHead none 0, Op.removeHead (some []) 1,
   Op.removeHead (some []) 8]

/-- The queue after `insert_front` of "a" and then of "b", their elements at
the addresses 1 and 2. -/
def abQueue : Heap × queue_t :=
  stateOf (insertHeadList emptyHeap (q_new true) [(bytes "a", 1), (bytes "b", 2)])

/-! ## Parts of the functions, for the claims about them -/

/-- The condition under which `q_remove_head` returns `false`: the queue is
absent, its `head` is `NULL` or its `size` is 0. -/
def RemoveFails : Option queue_t → Prop
  | none => True
  | some q => q.head = none ∨ q.size = 0

instance (q : Option queue_t) : Decidable (RemoveFails q) :=
  match q with
  | none => isTrue trivial
  | some q => inferInstanceAs (Decidable (q.head = none ∨ q.size = 0))

/-- The condition under which an insertion returns `false`: the queue is
absent, or `malloc` fails for the element, or it fails for the string. -/
def InsertFails (q : Option queue_t) (newp : Ptr) (valOk : Bool) : Prop :=
  q = none ∨ newp = none ∨ valOk = false

instance (q : Option queue_t) (newp : Ptr) (valOk : Bool) :
    Decidable (InsertFails q newp valOk) :=
  inferInstanceAs (Decidable (_ ∨ _ ∨ _))

/-- The string `q_insert_head` leaves in the new element for `s`: what
`strlcpy` copies with the `int` `s_len` as its size. -/
def headCopy (s : List Nat) : List Nat :=
  strlcpy [] s (toSizeT (toInt32 ((s.length : Int) + 1)))

/-- The string `q_insert_tail` leaves in the new element for `s`: what
`strncpy` copies with the `int` `t_len` as its count. -/
def tailCopy (s : List Nat) : List Nat :=
  strncpy s (toSizeT (toInt32 ((s.length : Int) + 1)))

/-- The bytes that `snprintf(dst, sz, "%s", src)`, the body of the macro
`strlcpy`, stores in `dst`: at most `sz - 1` bytes of `src` and then the
terminator; nothing when `sz = 0`. -/
def snprintfBytes (src : List Nat) (sz : Nat) : List Nat :=
  if sz = 0 then [] else src.take (sz - 1) ++ [0]

/-- The split of `mergeSortList`, from `fast = head->next` to
`slow->next = NULL`: the heap after the cut and `fast`, the head of the second
sub-chain; the first one still starts at `head`. -/
def splitStep (fuel : Nat) (h : Heap) (head : Ptr) : Option (Heap × Ptr) :=
  match getNext h head with
  | none => none
  | some hn =>
    match splitLoop fuel h hn head with
    | none => none
    | some slow =>
      match getNext h slow with
      | none => none
      | some fast =>
        match setNext h slow none with
        | none => none
        | some h1 => some (h1, fast)

/-- The calls of `free` that the loop of `q_free` makes on a chain: for each
address, front to back, on the string of the element and then on the element. -/
def freesOf : List Nat → List Freed
  | [] => []
  | a :: l => Freed.value a :: Freed.element a :: freesOf l

/-- A heap with `INT_MAX` elements, at the addresses `0` to `INT_MAX - 1`, each
one with the empty string and linked to the next address. -/
def fullHeap : Heap :=
  fun a =>
    if a < 2147483647 then
      some { value := [], next := if a + 1 < 2147483647 then some (a + 1) else none }
    else none

/-- The queue of the `INT_MAX` elements of `fullHeap`. -/
def fullQueue : queue_t := { head := some 0, tail := some 2147483646, size := 2147483647 }

/-- A string of `2 ^ 32 + 3` bytes, each one the letter x. -/
def longString : List Nat := List.replicate 4294967299 120

/-- The empty string `n` times, with the addresses `0` to `n - 1` for the
elements. -/
def emptyStrings (n : Nat) : List (List Nat × Nat) :=
  (List.range' 0 n).map (fun i => ([], i))

/-- The calls of `q_insert_head` for a list of strings, both calls of `malloc`
succeeding each time. -/
def insertHeadOps (xs : List (List Nat × Nat)) : List Op :=
  xs.map (fun x => Op.insertHead x.1 (some x.2) true)

/-- The addresses of the chain of a queue, front to back; an absent queue has
none. -/
def queueChain (fuel : Nat) (h : Heap) (q : Option queue_t) : Option (List Nat) :=
  match q with
  | none => some []
  | some q => chainOf fuel h q.head

/-- The queue after `insert_back` of "a" twice, the two elements at the
addresses 1 and 2. -/
def tieQueue : Heap × queue_t :=
  stateOf (insertTailList emptyHeap (q_new true) [(bytes "a", 1), (bytes "a", 2)])

/-- The queue after `insert_back` of "b", "a", "b", "a", "a", the elements at
the addresses 1 to 5. -/
def babaaQueue : Heap × queue_t :=
  stateOf (insertTailList emptyHeap (q_new true)
    [(bytes "b", 1), (bytes "a", 2), (bytes "b", 3), (bytes "a", 4), (bytes "a", 5)])

/-- In the list `l`, an occurrence of `x` comes before an occurrence of `y`.
In a chain, whose addresses are distinct, that is: the element at `x` precedes
the element at `y`. -/
def Before (l : List Nat) (x y : Nat) : Prop := List.Sublist [x, y] l

instance (l : List Nat) (x y : Nat) : Decidable (Before l x y) :=
  inferInstanceAs (Decidable (List.Sublist [x, y] l))

/-! ## Chains: basic facts -/

theorem isSeg_nil (h : Heap) (p q : Ptr) : IsSeg h p [] q ↔ p = q := Iff.rfl

theorem isSeg_cons (h : Heap) (p q : Ptr) (a : Nat) (l : List Nat) :
    IsSeg h p (a :: l) q ↔ p = some a ∧ ∃ n, h a = some n ∧ IsSeg h n.next l q := by
  show (p = some a ∧ _) ↔ _
  cases hh : h a with
  | none => simp
  | some n => simp

theorem isChain_nil (h : Heap) (p : Ptr) : IsChain h p [] ↔ p = none := Iff.rfl

theorem isChain_cons (h : Heap) (p : Ptr) (a : Nat) (l : List Nat) :
    IsChain h p (a :: l) ↔ p = some a ∧ ∃ n, h a = some n ∧ IsChain h n.next l :=
  isSeg_cons h p none a l

theorem isSeg_frame {h h1 : Heap} {p q : Ptr} {l : List Nat}
    (hf : ∀ a ∈ l, h1 a = h a) (hs : IsSeg h p l q) : IsSeg h1 p l q := by
  induction l generalizing p with
  | nil => exact hs
  | cons a l ih =>
    rw [isSeg_cons] at hs ⊢
    obtain ⟨hp, n, hn, hrest⟩ := hs
    refine ⟨hp, n, ?_, ih (fun b hb => hf b (List.mem_cons_of_mem _ hb)) hrest⟩
    rw [hf a (List.mem_cons_self _ _)]; exact hn

theorem isSeg_append {h : Heap} {p m q : Ptr} {l1 l2 : List Nat}
    (h1 : IsSeg h p l1 m) (h2 : IsSeg h m l2 q) : IsSeg h p (l1 ++ l2) q := by
  induction l1 generalizing p with
  | nil => rw [isSeg_nil] at h1; subst h1; exact h2
  | cons a l ih =>
    rw [List.cons_append, isSeg_cons]
    rw [isSeg_cons] at h1
    obtain ⟨hp, n, hn, hrest⟩ := h1
    exact ⟨hp, n, hn, ih hrest⟩

theorem isSeg_split {h : Heap} {p q : Ptr} {l1 l2 : List Nat}
    (hs : IsSeg h p (l1 ++ l2) q) : ∃ m, IsSeg h p l1 m ∧ IsSeg h m l2 q := by
  induction l1 generalizing p with
  | nil => exact ⟨p, rfl, hs⟩
  | cons a l ih =>
    rw [List.cons_append, isSeg_cons] at hs
    obtain ⟨hp, n, hn, hrest⟩ := hs
    obtain ⟨m, hm1, hm2⟩ := ih hrest
    exact ⟨m, (isSeg_cons h p m a l).2 ⟨hp, n, hn, hm1⟩, hm2⟩

theorem isSeg_start {h : Heap} {p q : Ptr} {l : List Nat} (hs : IsSeg h p l q)
    (hne : l ≠ []) : p = l.head? := by
  cases l with
  | nil => exact absurd rfl hne
  | cons a l => exact ((isSeg_cons h p q a l).1 hs).1

theorem isChain_start {h : Heap} {p : Ptr} {l : List Nat} (hc : IsChain h p l) :
    p = l.head? := by
  cases l with
  | nil => exact hc
  | cons a l => exact ((isChain_cons h p a l).1 hc).1

theorem isChain_unique {h : Heap} {p : Ptr} {l1 l2 : List Nat}
    (h1 : IsChain h p l1) (h2 : IsChain h p l2) : l1 = l2 := by
  induction l1 generalizing p l2 with
  | nil =>
    rw [isChain_nil] at h1; subst h1
    cases l2 with
    | nil => rfl
    | cons b l2 => exact absurd ((isChain_cons h none b l2).1 h2).1 (by simp)
  | cons a l ih =>
    rw [isChain_cons] at h1
    obtain ⟨hp, n, hn, hrest⟩ := h1
    cases l2 with
    | nil => rw [isChain_nil] at h2; rw [h2] at hp; exact absurd hp (by simp)
    | cons b l2 =>
      rw [isChain_cons] at h2
      obtain ⟨hp2, n2, hn2, hrest2⟩ := h2
      have hab : a = b := by rw [hp] at hp2; exact Option.some.inj hp2
      subst hab
      rw [hn] at hn2
      have hnn : n = n2 := Option.some.inj hn2
      subst hnn
      rw [ih hrest hrest2]

theorem isChain_nodup {h : Heap} {p : Ptr} {l : List Nat} (hc : IsChain h p l) :
    l.Nodup := by
  induction l generalizing p with
  | nil => exact List.nodup_nil
  | cons a l ih =>
    have hc0 := hc
    rw [isChain_cons] at hc
    obtain ⟨hp, n, hn, hrest⟩ := hc
    refine List.nodup_cons.2 ⟨?_, ih hrest⟩
    intro hmem
    obtain ⟨l1, l2, hl⟩ := List.append_of_mem hmem
    have hrest2 : IsSeg h n.next (l1 ++ a :: l2) none := by rw [← hl]; exact hrest
    obtain ⟨m, _, hm2⟩ := isSeg_split hrest2
    have hm : m = some a := ((isSeg_cons h m none a l2).1 hm2).1
    rw [hm, ← hp] at hm2
    have := isChain_unique hc0 hm2
    have hlen := congrArg List.length this
    rw [hl] at hlen
    simp at hlen
    omega

/-! ## The order of `strcmp` -/

theorem strcmp_self (a : List Nat) : strcmp a a = 0 := by
  induction a with
  | nil => rfl
  | cons x xs ih => simp [strcmp, ih]

theorem strcmp_eq_zero {a b : List Nat} (h : strcmp a b = 0) : a = b := by
  induction a generalizing b with
  | nil =>
    cases b with
    | nil => rfl
    | cons y ys => simp [strcmp] at h
  | cons x xs ih =>
    cases b with
    | nil => simp [strcmp] at h
    | cons y ys =>
      simp only [strcmp] at h
      split_ifs at h with hxy
      · rw [hxy, ih h]
      · omega

theorem strcmp_flip (a b : List Nat) : (strcmp a b < 0 ↔ 0 < strcmp b a) ∧
    (strcmp a b = 0 ↔ strcmp b a = 0) := by
  induction a generalizing b with
  | nil =>
    cases b with
    | nil => simp [strcmp]
    | cons y ys => simp [strcmp]
  | cons x xs ih =>
    cases b with
    | nil => simp [strcmp]
    | cons y ys =>
      simp only [strcmp]
      by_cases hxy : x = y
      · subst hxy; simpa using ih ys
      · have hyx : ¬ y = x := fun e => hxy e.symm
        rw [if_neg hxy, if_neg hyx]
        constructor <;> constructor <;> intro hh <;> omega

theorem sle_refl (a : List Nat) : SLe a a := by
  unfold SLe; rw [strcmp_self]

theorem sle_of_not_lt {a b : List Nat} (h : ¬ strcmp a b < 0) : SLe b a := by
  unfold SLe
  have h1 := (strcmp_flip b a).1
  have h2 := (strcmp_flip a b).1
  by_contra hc
  have : 0 < strcmp b a := by omega
  exact h (h2.2 this)

theorem sle_of_lt {a b : List Nat} (h : strcmp a b < 0) : SLe a b := by
  unfold SLe; omega

theorem sle_total (a b : List Nat) : SLe a b ∨ SLe b a := by
  by_cases h : strcmp a b < 0
  · exact Or.inl (sle_of_lt h)
  · exact Or.inr (sle_of_not_lt h)

theorem sle_antisymm {a b : List Nat} (h1 : SLe a b) (h2 : SLe b a) : a = b := by
  unfold SLe at h1 h2
  have hf := (strcmp_flip b a).1
  apply strcmp_eq_zero
  by_contra hne
  have hlt : strcmp a b < 0 := by omega
  have : 0 < strcmp b a := (strcmp_flip a b).1.1 hlt
  omega

theorem sle_trans {a b c : List Nat} (h1 : SLe a b) (h2 : SLe b c) : SLe a c := by
  unfold SLe at *
  induction a generalizing b c with
  | nil =>
    cases c with
    | nil => simp [strcmp]
    | cons z zs => simp [strcmp]
  | cons x xs ih =>
    cases b with
    | nil => simp [strcmp] at h1
    | cons y ys =>
      cases c with
      | nil => simp [strcmp] at h2
      | cons z zs =>
        simp only [strcmp] at h1 h2 ⊢
        split_ifs at h1 h2 ⊢ with hxy hyz hxz hxz hyz hxz
        all_goals first
          | exact ih h1 h2
          | omega

instance : IsTrans (List Nat) SLe := ⟨fun _ _ _ => sle_trans⟩
instance : IsTotal (List Nat) SLe := ⟨sle_total⟩
instance : IsAntisymm (List Nat) SLe := ⟨fun _ _ => sle_antisymm⟩

/-! ## The merge and the sort on lists of addresses -/

theorem mergeP_nil_left (v : Nat → List Nat) (l : List Nat) : mergeP v [] l = l := by
  rw [mergeP]

theorem mergeP_nil_right (v : Nat → List Nat) (l : List Nat) : mergeP v l [] = l := by
  cases l with
  | nil => rw [mergeP]
  | cons a l => rw [mergeP]

theorem mergeP_cons_cons (v : Nat → List Nat) (a b : Nat) (l1 l2 : List Nat) :
    mergeP v (a :: l1) (b :: l2) =
      if strcmp (v a) (v b) < 0 then a :: mergeP v l1 (b :: l2)
      else b :: mergeP v (a :: l1) l2 := by
  rw [mergeP]

theorem mergeP_perm (v : Nat → List Nat) (l1 l2 : List Nat) :
    (mergeP v l1 l2).Perm (l1 ++ l2) := by
  induction l1 generalizing l2 with
  | nil => rw [mergeP_nil_left]; exact List.Perm.refl _
  | cons a l1 ih1 =>
    induction l2 with
    | nil => rw [mergeP_nil_right]; simp
    | cons b l2 ih2 =>
      rw [mergeP_cons_cons]
      split_ifs with hlt
      · exact (ih1 (b :: l2)).cons a
      · refine (ih2.cons b).trans ?_
        exact (@List.perm_middle _ b (a :: l1) l2).symm

theorem mergeP_sorted (v : Nat → List Nat) (l1 l2 : List Nat)
    (h1 : l1.Pairwise (fun x y => SLe (v x) (v y)))
    (h2 : l2.Pairwise (fun x y => SLe (v x) (v y))) :
    (mergeP v l1 l2).Pairwise (fun x y => SLe (v x) (v y)) := by
  induction l1 generalizing l2 with
  | nil => rw [mergeP_nil_left]; exact h2
  | cons a l1 ih1 =>
    induction l2 with
    | nil => rw [mergeP_nil_right]; exact h1
    | cons b l2 ih2 =>
      rw [mergeP_cons_cons]
      have ha := List.pairwise_cons.1 h1
      have hb := List.pairwise_cons.1 h2
      split_ifs with hlt
      · refine List.pairwise_cons.2 ⟨?_, ih1 (b :: l2) ha.2 h2⟩
        intro x hx
        have hx2 := (mergeP_perm v l1 (b :: l2)).subset hx
        rcases List.mem_append.1 hx2 with hx3 | hx3
        · exact ha.1 x hx3
        · rcases List.mem_cons.1 hx3 with hx4 | hx4
          · rw [hx4]; exact sle_of_lt hlt
          · exact sle_trans (sle_of_lt hlt) (hb.1 x hx4)
      · refine List.pairwise_cons.2 ⟨?_, ih2 hb.2⟩
        intro x hx
        have hx2 := (mergeP_perm v (a :: l1) l2).subset hx
        rcases List.mem_append.1 hx2 with hx3 | hx3
        · rcases List.mem_cons.1 hx3 with hx4 | hx4
          · rw [hx4]; exact sle_of_not_lt hlt
          · exact sle_trans (sle_of_not_lt hlt) (ha.1 x hx4)
        · exact hb.1 x hx3

theorem msortP_perm (v : Nat → List Nat) (fuel : Nat) (l : List Nat) :
    (msortP v fuel l).Perm l := by
  induction fuel generalizing l with
  | zero => exact List.Perm.refl _
  | succ f ih =>
    rw [msortP]
    split_ifs with hlt
    · exact List.Perm.refl _
    · refine (mergeP_perm v _ _).trans ?_
      refine ((ih _).append (ih _)).trans ?_
      rw [List.take_append_drop]

theorem msortP_sorted (v : Nat → List Nat) (fuel : Nat) (l : List Nat)
    (hf : l.length ≤ fuel) : (msortP v fuel l).Pairwise (fun x y => SLe (v x) (v y)) := by
  induction fuel generalizing l with
  | zero =>
    have : l = [] := List.length_eq_zero.1 (Nat.le_zero.1 hf)
    subst this
    exact List.Pairwise.nil
  | succ f ih =>
    rw [msortP]
    split_ifs with hlt
    · match l, hlt with
      | [], _ => exact List.Pairwise.nil
      | [a], _ => exact List.pairwise_singleton _ _
      | _ :: _ :: _, hlt => exact absurd hlt (by simp)
    · apply mergeP_sorted
      · apply ih
        rw [List.length_take]
        omega
      · apply ih
        rw [List.length_drop]
        omega

/-! ## Heap accesses and frames -/

theorem store_same (h : Heap) (a : Nat) (n : list_ele_t) : store h a n a = some n := by
  simp [store]

theorem store_other (h : Heap) {a x : Nat} (n : list_ele_t) (hx : x ≠ a) :
    store h a n x = h x := by
  simp [store, hx]

theorem getNext_some {h : Heap} {a : Nat} {n : list_ele_t} (hn : h a = some n) :
    getNext h (some a) = some n.next := by
  simp [getNext, hn]

theorem getValue_some {h : Heap} {a : Nat} {n : list_ele_t} (hn : h a = some n) :
    getValue h (some a) = some n.value := by
  simp [getValue, hn]

theorem setNext_some {h : Heap} {a : Nat} {n : list_ele_t} (hn : h a = some n) (nx : Ptr) :
    setNext h (some a) nx = some (store h a { n with next := nx }) := by
  simp [setNext, hn]

theorem valOf_some {h : Heap} {a : Nat} {n : list_ele_t} (hn : h a = some n) :
    valOf h a = n.value := by
  simp [valOf, hn]

theorem frame_refl (S : List Nat) (h : Heap) : Frame S h h :=
  fun _ => ⟨fun _ => rfl, rfl⟩

theorem frame_trans {S1 S2 S : List Nat} {h h1 h2 : Heap} (f1 : Frame S1 h h1)
    (f2 : Frame S2 h1 h2) (hs1 : ∀ a ∈ S1, a ∈ S) (hs2 : ∀ a ∈ S2, a ∈ S) :
    Frame S h h2 := by
  intro a
  refine ⟨fun ha => ?_, ((f2 a).2).trans (f1 a).2⟩
  rw [(f2 a).1 (fun hm => ha (hs2 a hm)), (f1 a).1 (fun hm => ha (hs1 a hm))]

theorem frame_mono {S1 S : List Nat} {h h1 : Heap} (f1 : Frame S1 h h1)
    (hs1 : ∀ a ∈ S1, a ∈ S) : Frame S h h1 :=
  fun a => ⟨fun ha => (f1 a).1 (fun hm => ha (hs1 a hm)), (f1 a).2⟩

theorem frame_store_next {h : Heap} {a : Nat} {n : list_ele_t} (hn : h a = some n)
    (nx : Ptr) : Frame [a] h (store h a { n with next := nx }) := by
  intro x
  by_cases hx : x = a
  · subst hx
    refine ⟨fun hm => absurd (List.mem_singleton_self x) hm, ?_⟩
    rw [store_same, hn]; rfl
  · rw [store_other h _ hx]
    exact ⟨fun _ => rfl, rfl⟩

theorem frame_valOf {S : List Nat} {h h1 : Heap} (f : Frame S h h1) (a : Nat) :
    valOf h1 a = valOf h a := by
  have := (f a).2
  unfold valOf
  cases h1a : h1 a <;> cases ha : h a <;> simp [h1a, ha] at this ⊢
  exact this

theorem frame_seg {S : List Nat} {h h1 : Heap} {p q : Ptr} {l : List Nat}
    (f : Frame S h h1) (hd : ∀ a ∈ l, a ∉ S) (hs : IsSeg h p l q) : IsSeg h1 p l q :=
  isSeg_frame (fun a ha => (f a).1 (hd a ha)) hs

/-! ## The loops, on well-formed chains -/

theorem reverseLoop_spec (l : List Nat) : ∀ (fuel : Nat) (h : Heap) (prev curr : Ptr)
    (r : List Nat), IsChain h curr l → IsChain h prev r → (l ++ r).Nodup →
    l.length < fuel →
    ∃ h1 p, reverseLoop fuel h prev curr = some (h1, p) ∧
      IsChain h1 p (l.reverse ++ r) ∧ Frame l h h1 := by
  induction l with
  | nil =>
    intro fuel h prev curr r hc hp _ hf
    obtain ⟨f, rfl⟩ : ∃ f, fuel = f + 1 := ⟨fuel - 1, by omega⟩
    rw [isChain_nil] at hc
    subst hc
    exact ⟨h, prev, rfl, by simpa using hp, frame_refl _ _⟩
  | cons a l ih =>
    intro fuel h prev curr r hc hp hnd hf
    obtain ⟨f, rfl⟩ : ∃ f, fuel = f + 1 := ⟨fuel - 1, by omega⟩
    rw [isChain_cons] at hc
    obtain ⟨hcurr, n, hn, hrest⟩ := hc
    subst hcurr
    have hnd2 : a ∉ l ++ r ∧ (l ++ r).Nodup := List.nodup_cons.1 hnd
    have hal : a ∉ l := fun hm => hnd2.1 (List.mem_append_left _ hm)
    have har : a ∉ r := fun hm => hnd2.1 (List.mem_append_right _ hm)
    have hfr := frame_store_next hn prev
    have hc1 : IsChain (store h a { n with next := prev }) n.next l :=
      frame_seg hfr (fun b hb hm => hal (by rw [List.mem_singleton.1 hm] at hb; exact hb)) hrest
    have hp1 : IsChain (store h a { n with next := prev }) (some a) (a :: r) := by
      rw [isChain_cons]
      refine ⟨rfl, _, store_same _ _ _, ?_⟩
      exact frame_seg hfr (fun b hb hm => har (by rw [List.mem_singleton.1 hm] at hb; exact hb)) hp
    have hnd3 : (l ++ a :: r).Nodup := by
      refine (List.perm_middle.nodup_iff).2 hnd
    have hlen : l.length < f := by simp at hf; omega
    obtain ⟨h2, p, hrun, hch, hfr2⟩ := ih f _ (some a) n.next (a :: r) hc1 hp1 hnd3 hlen
    refine ⟨h2, p, ?_, ?_, ?_⟩
    · simp only [reverseLoop, getNext_some hn, setNext_some hn]
      exact hrun
    · simpa using hch
    · exact frame_trans hfr hfr2 (fun b hb => by rw [List.mem_singleton.1 hb]; simp)
        (fun b hb => List.mem_cons_of_mem _ hb)

theorem splitLoop_spec (h : Heap) : ∀ (fuel : Nat) (lf m : List Nat) (fast slow : Ptr),
    IsChain h fast lf → IsChain h slow m → lf.length / 2 < m.length →
    lf.length / 2 < fuel →
    ∃ p, splitLoop fuel h fast slow = some p ∧ IsChain h p (m.drop (lf.length / 2)) := by
  intro fuel
  induction fuel with
  | zero => intro lf m fast slow _ _ _ hf; omega
  | succ f ih =>
    intro lf m fast slow hfast hslow hm hf
    match lf, hfast with
    | [], hfast =>
      rw [isChain_nil] at hfast
      subst hfast
      exact ⟨slow, rfl, by simpa using hslow⟩
    | [x], hfast =>
      rw [isChain_cons] at hfast
      obtain ⟨hx, n, hn, hrest⟩ := hfast
      rw [isChain_nil] at hrest
      subst hx
      refine ⟨slow, ?_, by simpa using hslow⟩
      simp only [splitLoop, getNext_some hn, hrest]
    | x :: y :: lf1, hfast =>
      rw [isChain_cons] at hfast
      obtain ⟨hx, n, hn, hrest⟩ := hfast
      rw [isChain_cons] at hrest
      obtain ⟨hy, ny, hny, hrest2⟩ := hrest
      subst hx
      have hl2 : (x :: y :: lf1).length / 2 = lf1.length / 2 + 1 := by
        simp only [List.length_cons]; omega
      rw [hl2] at hm hf ⊢
      match m, hslow with
      | [], _ => simp at hm
      | s :: m1, hslow =>
        rw [isChain_cons] at hslow
        obtain ⟨hs, ns, hns, hrest3⟩ := hslow
        subst hs
        obtain ⟨p, hrun, hch⟩ := ih lf1 m1 ny.next ns.next hrest2 hrest3
          (by simp at hm; omega) (by omega)
        refine ⟨p, ?_, by simpa using hch⟩
        simp only [splitLoop, getNext_some hn, hy, getNext_some hns, getNext_some hny]
        exact hrun

theorem tailLoop_spec (h : Heap) (l : List Nat) : ∀ (fuel : Nat) (p : Ptr),
    IsChain h p l → l ≠ [] → l.length ≤ fuel → tailLoop fuel h p = some l.getLast? := by
  induction l with
  | nil => intro _ _ _ hne; exact absurd rfl hne
  | cons a l ih =>
    intro fuel p hc _ hf
    obtain ⟨f, rfl⟩ : ∃ f, fuel = f + 1 := ⟨fuel - 1, by simp at hf; omega⟩
    rw [isChain_cons] at hc
    obtain ⟨hp, n, hn, hrest⟩ := hc
    subst hp
    cases l with
    | nil =>
      rw [isChain_nil] at hrest
      simp only [tailLoop, getNext_some hn, hrest]
      rfl
    | cons b l =>
      have hb : n.next = some b := ((isChain_cons h _ b l).1 hrest).1
      have := ih f n.next hrest (by simp) (by simp at hf ⊢; omega)
      simp only [tailLoop, getNext_some hn, hb]
      rw [hb] at this
      rw [this]
      simp [List.getLast?_cons_cons]

theorem mergeLoop_spec (v : Nat → List Nat) : ∀ (fuel : Nat) (l1 l2 : List Nat) (h : Heap)
    (tmp : Nat) (left right : Ptr) (nt : list_ele_t), h tmp = some nt →
    IsChain h left l1 → IsChain h right l2 → (tmp :: (l1 ++ l2)).Nodup →
    (∀ a, valOf h a = v a) → l1 ++ l2 ≠ [] → l1.length + l2.length < fuel →
    ∃ h1, mergeLoop fuel h (some tmp) left right = some h1 ∧
      IsChain h1 (some tmp) (tmp :: mergeP v l1 l2) ∧ Frame (tmp :: (l1 ++ l2)) h h1 := by
  intro fuel
  induction fuel with
  | zero => intro l1 l2 h tmp left right nt _ _ _ _ _ _ hf; omega
  | succ f ih =>
    intro l1 l2 h tmp left right nt htmp hl hr hnd hv hne hf
    have hfr := fun (nx : Ptr) => frame_store_next htmp nx
    have hnd2 : tmp ∉ l1 ++ l2 ∧ (l1 ++ l2).Nodup := List.nodup_cons.1 hnd
    have hnotS : ∀ (l : List Nat), (∀ b ∈ l, b ∈ l1 ++ l2) → ∀ b ∈ l, b ∉ [tmp] := by
      intro l hsub b hb hm
      rw [List.mem_singleton.1 hm] at hb
      exact hnd2.1 (hsub tmp hb)
    match l1, l2, hl, hr with
    | [], [], _, _ => exact absurd rfl hne
    | a :: l1, [], hl, hr =>
      rw [isChain_nil] at hr
      have hla : left = some a := ((isChain_cons h left a l1).1 hl).1
      subst hr
      refine ⟨store h tmp { nt with next := left }, ?_, ?_, ?_⟩
      · rw [hla]; simp only [mergeLoop]; rw [setNext_some htmp]
      · rw [mergeP_nil_right, isChain_cons]
        refine ⟨rfl, _, store_same _ _ _, ?_⟩
        exact frame_seg (hfr left) (hnotS _ (fun b hb => by simpa using hb)) hl
      · exact frame_mono (hfr left) (fun b hb => by rw [List.mem_singleton.1 hb]; simp)
    | [], b :: l2, hl, hr =>
      rw [isChain_nil] at hl
      have hrb : right = some b := ((isChain_cons h right b l2).1 hr).1
      subst hl
      refine ⟨store h tmp { nt with next := right }, ?_, ?_, ?_⟩
      · rw [hrb]; simp only [mergeLoop]; rw [setNext_some htmp]
      · rw [mergeP_nil_left, isChain_cons]
        refine ⟨rfl, _, store_same _ _ _, ?_⟩
        exact frame_seg (hfr right) (hnotS _ (fun b hb => by simpa using hb)) hr
      · exact frame_mono (hfr right) (fun b hb => by rw [List.mem_singleton.1 hb]; simp)
    | a :: l1, b :: l2, hl, hr =>
      have hl0 := hl
      have hr0 := hr
      rw [isChain_cons] at hl hr
      obtain ⟨hla, na, hna, hlrest⟩ := hl
      obtain ⟨hrb, nb, hnb, hrrest⟩ := hr
      subst hla hrb
      have hva : na.value = v a := by rw [← hv a, valOf_some hna]
      have hvb : nb.value = v b := by rw [← hv b, valOf_some hnb]
      have hat : a ≠ tmp := fun e => hnd2.1 (by rw [← e]; simp)
      have hbt : b ≠ tmp := fun e => hnd2.1 (by rw [← e]; simp)
      have hnd3 : (a :: (l1 ++ b :: l2)).Nodup := hnd2.2
      have hnd4 : (b :: (a :: l1 ++ l2)).Nodup := by
        refine (List.perm_middle.nodup_iff).1 ?_
        simpa using hnd2.2
      rw [mergeP_cons_cons]
      by_cases hlt : strcmp (v a) (v b) < 0
      · rw [if_pos hlt]
        have hh1a : store h tmp { nt with next := some a } a = some na := by
          rw [store_other h _ hat]; exact hna
        obtain ⟨h2, hrun, hch, hfr2⟩ := ih l1 (b :: l2) _ a na.next (some b) na hh1a
          (frame_seg (hfr (some a)) (hnotS _ (fun x hx => by simp at hx ⊢; tauto)) hlrest)
          (frame_seg (hfr (some a)) (hnotS _ (fun x hx => by simp at hx ⊢; tauto)) hr0)
          hnd3 (fun x => by rw [frame_valOf (hfr (some a))]; exact hv x) (by simp)
          (by simp at hf ⊢; omega)
        refine ⟨h2, ?_, ?_, ?_⟩
        · simp only [mergeLoop, getValue_some hna, getValue_some hnb, hva, hvb, if_pos hlt,
            setNext_some htmp, getNext_some (store_same h tmp _), getNext_some hh1a]
          exact hrun
        · rw [isChain_cons]
          refine ⟨rfl, { nt with next := some a }, ?_, hch⟩
          rw [(hfr2 tmp).1 (fun hm => hnd2.1 (by simpa using hm)), store_same]
        · exact frame_trans (hfr (some a)) hfr2 (fun x hx => by rw [List.mem_singleton.1 hx]; simp)
            (fun x hx => List.mem_cons_of_mem _ (by simpa using hx))
      · rw [if_neg hlt]
        have hh1b : store h tmp { nt with next := some b } b = some nb := by
          rw [store_other h _ hbt]; exact hnb
        obtain ⟨h2, hrun, hch, hfr2⟩ := ih (a :: l1) l2 _ b (some a) nb.next nb hh1b
          (frame_seg (hfr (some b)) (hnotS _ (fun x hx => by simp at hx ⊢; tauto)) hl0)
          (frame_seg (hfr (some b)) (hnotS _ (fun x hx => by simp at hx ⊢; tauto)) hrrest)
          hnd4 (fun x => by rw [frame_valOf (hfr (some b))]; exact hv x) (by simp)
          (by simp at hf ⊢; omega)
        refine ⟨h2, ?_, ?_, ?_⟩
        · simp only [mergeLoop, getValue_some hna, getValue_some hnb, hva, hvb, if_neg hlt,
            setNext_some htmp, getNext_some (store_same h tmp _), getNext_some hh1b]
          exact hrun
        · rw [isChain_cons]
          refine ⟨rfl, { nt with next := some b }, ?_, hch⟩
          rw [(hfr2 tmp).1 (fun hm => hnd2.1 (by simp at hm ⊢; tauto)), store_same]
        · exact frame_trans (hfr (some b)) hfr2 (fun x hx => by rw [List.mem_singleton.1 hx]; simp)
            (fun x hx => List.mem_cons_of_mem _ (by simp at hx ⊢; tauto))

theorem merge_spec (v : Nat → List Nat) (fuel : Nat) (a b : Nat) (l1 l2 : List Nat)
    (h : Heap) (left right : Ptr) (hl : IsChain h left (a :: l1))
    (hr : IsChain h right (b :: l2)) (hnd : ((a :: l1) ++ (b :: l2)).Nodup)
    (hv : ∀ x, valOf h x = v x) (hf : (a :: l1).length + (b :: l2).length ≤ fuel) :
    ∃ h1 p, merge fuel h left right = some (h1, p) ∧
      IsChain h1 p (mergeP v (a :: l1) (b :: l2)) ∧ Frame ((a :: l1) ++ (b :: l2)) h h1 := by
  have hl0 := hl
  have hr0 := hr
  rw [isChain_cons] at hl hr
  obtain ⟨hla, na, hna, hlrest⟩ := hl
  obtain ⟨hrb, nb, hnb, hrrest⟩ := hr
  subst hla hrb
  have hva : na.value = v a := by rw [← hv a, valOf_some hna]
  have hvb : nb.value = v b := by rw [← hv b, valOf_some hnb]
  rw [mergeP_cons_cons]
  by_cases hlt : strcmp (v a) (v b) < 0
  · rw [if_pos hlt]
    obtain ⟨h1, hrun, hch, hfr⟩ := mergeLoop_spec v fuel l1 (b :: l2) h a na.next (some b) na
      hna hlrest hr0 hnd hv (by simp) (by simp at hf ⊢; omega)
    refine ⟨h1, some a, ?_, hch, hfr⟩
    simp only [merge, getValue_some hna, getValue_some hnb, hva, hvb, if_pos hlt,
      getNext_some hna, hrun]
  · rw [if_neg hlt]
    have hnd4 : (b :: (a :: l1 ++ l2)).Nodup := by
      refine (List.perm_middle.nodup_iff).1 ?_
      simpa using hnd
    obtain ⟨h1, hrun, hch, hfr⟩ := mergeLoop_spec v fuel (a :: l1) l2 h b (some a) nb.next nb
      hnb hl0 hrrest hnd4 hv (by simp) (by simp at hf ⊢; omega)
    refine ⟨h1, some b, ?_, hch, frame_mono hfr (fun x hx => by simp at hx ⊢; tauto)⟩
    simp only [merge, getValue_some hna, getValue_some hnb, hva, hvb, if_neg hlt,
      getNext_some hnb, hrun]

theorem take_drop_split : ∀ (l : List Nat) (j : Nat), j < l.length →
    ∃ s, l.take (j + 1) = l.take j ++ [s] ∧ l.drop j = s :: l.drop (j + 1) := by
  intro l
  induction l with
  | nil => intro j hj; simp at hj
  | cons a l ih =>
    intro j hj
    cases j with
    | zero => exact ⟨a, by simp, by simp⟩
    | succ j =>
      obtain ⟨s, h1, h2⟩ := ih j (by simp at hj; omega)
      exact ⟨s, by simp [h1], by simpa using h2⟩

theorem mergeSortList_spec (v : Nat → List Nat) : ∀ (fuel : Nat) (l : List Nat) (h : Heap)
    (head : Ptr), IsChain h head l → (∀ x, valOf h x = v x) → 2 * l.length < fuel →
    ∃ h1 p, mergeSortList fuel h head = some (h1, p) ∧
      IsChain h1 p (msortP v fuel l) ∧ Frame l h h1 := by
  intro fuel
  induction fuel with
  | zero => intro l h head _ _ hf; omega
  | succ f ih =>
    intro l h head hc hv hf
    match l, hc with
    | [], hc =>
      rw [isChain_nil] at hc
      subst hc
      exact ⟨h, none, rfl, by rw [msortP]; simp [isChain_nil], frame_refl _ _⟩
    | [a], hc =>
      have hc0 := hc
      rw [isChain_cons] at hc
      obtain ⟨hp, n, hn, hrest⟩ := hc
      rw [isChain_nil] at hrest
      subst hp
      refine ⟨h, some a, ?_, by rw [msortP]; simpa using hc0, frame_refl _ _⟩
      simp only [mergeSortList, getNext_some hn, hrest]
    | a :: b :: l2, hc =>
      have hnd := isChain_nodup hc
      have hc0 := hc
      rw [isChain_cons] at hc
      obtain ⟨hp, n, hn, hrest⟩ := hc
      have hnb : n.next = some b := ((isChain_cons h _ b l2).1 hrest).1
      subst hp
      generalize hL : a :: b :: l2 = l at hc0 hnd hf ⊢
      have hlen : l.length = l2.length + 2 := by rw [← hL]; simp
      have hk : (l.length + 1) / 2 = (b :: l2).length / 2 + 1 := by
        rw [hlen]; simp only [List.length_cons]; omega
      -- the fast/slow walk
      obtain ⟨slow, hsplit, hslow⟩ := splitLoop_spec h f (b :: l2) l n.next (some a)
        hrest hc0 (by rw [hlen]; simp only [List.length_cons]; omega)
        (by rw [hlen] at hf; simp only [List.length_cons]; omega)
      obtain ⟨s, htake, hdrop⟩ := take_drop_split l ((b :: l2).length / 2)
        (by rw [hlen]; simp only [List.length_cons]; omega)
      rw [← hk] at htake hdrop
      rw [hdrop, isChain_cons] at hslow
      obtain ⟨hs, ns, hns, hsrest⟩ := hslow
      subst hs
      -- the list around the cut
      have hlsplit : l = l.take ((b :: l2).length / 2) ++ s :: l.drop ((l.length + 1) / 2) := by
        rw [← hdrop, List.take_append_drop]
      have hnd2 : (l.take ((b :: l2).length / 2) ++ s :: l.drop ((l.length + 1) / 2)).Nodup := by
        rw [← hlsplit]; exact hnd
      have hnd3 := List.nodup_append.1 hnd2
      have hs1 : s ∉ l.take ((b :: l2).length / 2) := fun hm => hnd3.2.2 hm (List.mem_cons_self _ _)
      have hs2 : s ∉ l.drop ((l.length + 1) / 2) := (List.nodup_cons.1 hnd3.2.1).1
      have hndtd : (l.take ((l.length + 1) / 2) ++ l.drop ((l.length + 1) / 2)).Nodup := by
        rw [List.take_append_drop]; exact hnd
      have hdisj := (List.nodup_append.1 hndtd).2.2
      -- the cut
      have hfr1 := frame_store_next hns none
      have hseg : IsSeg h (some a) (l.take ((b :: l2).length / 2) ++ s :: l.drop ((l.length + 1) / 2))
          none := by rw [← hlsplit]; exact hc0
      obtain ⟨m, hm1, hm2⟩ := isSeg_split hseg
      have hms : m = some s := ((isSeg_cons h m none s _).1 hm2).1
      subst hms
      have hleft1 : IsChain (store h s { ns with next := none }) (some a)
          (l.take ((l.length + 1) / 2)) := by
        rw [htake]
        refine isSeg_append (frame_seg hfr1 (fun x hx hm => hs1 ?_) hm1) ?_
        · rw [List.mem_singleton.1 hm] at hx; exact hx
        · rw [isSeg_cons]; exact ⟨rfl, _, store_same _ _ _, rfl⟩
      have hright1 : IsChain (store h s { ns with next := none }) ns.next
          (l.drop ((l.length + 1) / 2)) :=
        frame_seg hfr1 (fun x hx hm => hs2 (by rw [List.mem_singleton.1 hm] at hx; exact hx)) hsrest
      -- the two recursive calls
      have hlt1 : (l.take ((l.length + 1) / 2)).length ≤ l.length - 1 := by
        rw [List.length_take, hlen]; omega
      have hlt2 : (l.drop ((l.length + 1) / 2)).length ≤ l.length - 1 := by
        rw [List.length_drop, hlen]; omega
      obtain ⟨h2, left, hrun2, hch2, hfr2⟩ := ih _ _ (some a) hleft1
        (fun x => by rw [frame_valOf hfr1]; exact hv x) (by omega)
      have hright2 : IsChain h2 ns.next (l.drop ((l.length + 1) / 2)) :=
        frame_seg hfr2 (fun x hx hm => hdisj hm hx) hright1
      obtain ⟨h3, right, hrun3, hch3, hfr3⟩ := ih _ _ ns.next hright2
        (fun x => by rw [frame_valOf hfr2, frame_valOf hfr1]; exact hv x) (by omega)
      have hp1 := msortP_perm v f (l.take ((l.length + 1) / 2))
      have hp2 := msortP_perm v f (l.drop ((l.length + 1) / 2))
      have hch2b : IsChain h3 left (msortP v f (l.take ((l.length + 1) / 2))) :=
        frame_seg hfr3 (fun x hx hm => hdisj (hp1.subset hx) hm) hch2
      -- the merge
      have hne1 : msortP v f (l.take ((l.length + 1) / 2)) ≠ [] := by
        intro he
        have := hp1.length_eq
        rw [he, List.length_take, hlen] at this
        simp at this
        omega
      have hne2 : msortP v f (l.drop ((l.length + 1) / 2)) ≠ [] := by
        intro he
        have := hp2.length_eq
        rw [he, List.length_drop, hlen] at this
        simp at this
        omega
      obtain ⟨a1, t1, ht1⟩ := List.exists_cons_of_ne_nil hne1
      obtain ⟨b1, t2, ht2⟩ := List.exists_cons_of_ne_nil hne2
      have hpall : (msortP v f (l.take ((l.length + 1) / 2)) ++
          msortP v f (l.drop ((l.length + 1) / 2))).Perm l := by
        have := hp1.append hp2
        rwa [List.take_append_drop] at this
      have hv3 : ∀ x, valOf h3 x = v x := fun x => by
        rw [frame_valOf hfr3, frame_valOf hfr2, frame_valOf hfr1]; exact hv x
      rw [ht1] at hch2b
      rw [ht2] at hch3
      obtain ⟨h4, p, hrun4, hch4, hfr4⟩ := merge_spec v f a1 b1 t1 t2 h3 left right hch2b hch3
        (by rw [← ht1, ← ht2]; exact hpall.nodup_iff.2 hnd) hv3
        (by rw [← ht1, ← ht2, ← List.length_append, hpall.length_eq]; omega)
      refine ⟨h4, p, ?_, ?_, ?_⟩
      · rw [hnb] at hsplit
        simp only [mergeSortList, getNext_some hn, hnb, hsplit, getNext_some hns,
          setNext_some hns, hrun2, hrun3]
        exact hrun4
      · rw [msortP, if_neg (by rw [hlen]; omega), ht1, ht2]
        exact hch4
      · have hsl : s ∈ l := by rw [hlsplit]; simp
        have g1 : Frame l h (store h s { ns with next := none }) :=
          frame_mono hfr1 (fun x hx => by rw [List.mem_singleton.1 hx]; exact hsl)
        have g2 : Frame l (store h s { ns with next := none }) h2 :=
          frame_mono hfr2 (fun x hx => List.mem_of_mem_take hx)
        have g3 : Frame l h2 h3 := frame_mono hfr3 (fun x hx => List.mem_of_mem_drop hx)
        have g4 : Frame l h3 h4 :=
          frame_mono hfr4 (fun x hx => by rw [← ht1, ← ht2] at hx; exact hpall.subset hx)
        have hid : ∀ x ∈ l, x ∈ l := fun x hx => hx
        exact frame_trans (frame_trans (frame_trans g1 g2 hid hid) g3 hid hid) g4 hid hid

/-! ## The operations on a well-formed queue -/

theorem toInt32_id {x : Int} (h1 : -2147483648 ≤ x) (h2 : x ≤ INT_MAX) : toInt32 x = x := by
  unfold toInt32
  unfold INT_MAX at h2
  omega

theorem strncpy_full (s : List Nat) : strncpy s (s.length + 1) = s :=
  List.take_of_length_le (Nat.le_succ _)

theorem toSizeT_len (s : List Nat) (hs : (s.length : Int) < INT_MAX) :
    toSizeT (toInt32 ((s.length : Int) + 1)) = s.length + 1 := by
  rw [toInt32_id (by omega) (by omega)]
  unfold toSizeT
  unfold INT_MAX at hs
  omega

theorem strlcpy_full (dst s : List Nat) (sz : Nat) (hs : s.length < sz) :
    strlcpy dst s sz = s := by
  unfold strlcpy
  rw [if_neg (by omega)]
  exact List.take_of_length_le (by omega)

theorem headCopy_eq (s : List Nat) (hs : (s.length : Int) < INT_MAX) : headCopy s = s := by
  unfold headCopy
  rw [toSizeT_len s hs]
  exact strlcpy_full _ _ _ (Nat.lt_succ_self _)

theorem tailCopy_eq (s : List Nat) (hs : (s.length : Int) < INT_MAX) : tailCopy s = s := by
  unfold tailCopy
  rw [toSizeT_len s hs]
  exact strncpy_full s

theorem isSeg_alloc {h : Heap} {p q : Ptr} {l : List Nat} (hs : IsSeg h p l q) :
    ∀ x ∈ l, ∃ n, h x = some n := by
  induction l generalizing p with
  | nil => intro x hx; simp at hx
  | cons a l ih =>
    rw [isSeg_cons] at hs
    obtain ⟨_, n, hn, hrest⟩ := hs
    intro x hx
    rcases List.mem_cons.1 hx with hx1 | hx1
    · exact ⟨n, by rw [hx1]; exact hn⟩
    · exact ih hrest x hx1

theorem rep_empty_iff {h : Heap} {q : queue_t} {l : List Nat} (hr : Rep h q l) :
    (q.size = 0 ↔ l = []) ∧ (q.head = none ↔ l = []) ∧ (q.tail = none ↔ l = []) := by
  obtain ⟨hc, ht, hs, _⟩ := hr
  have hstart := isChain_start hc
  cases l with
  | nil => simp [hs, ht, hstart]
  | cons a l =>
    have : (a :: l).getLast? ≠ none := by
      rw [Ne, List.getLast?_eq_none_iff]; simp
    refine ⟨?_, ?_, ?_⟩
    · rw [hs]; simp; omega
    · rw [hstart]; simp
    · rw [ht]; simp [this]

theorem rep_unique {h : Heap} {q : queue_t} {l1 l2 : List Nat} (h1 : Rep h q l1)
    (h2 : Rep h q l2) : l1 = l2 :=
  isChain_unique h1.1 h2.1

theorem q_insert_head_spec (h : Heap) (q : queue_t) (l : List Nat) (s : List Nat) (a : Nat)
    (hr : Rep h q l) (ha : h a = none) (hroom : (l.length : Int) < INT_MAX) :
    ∃ q1, q_insert_head h (some q) s (some a) true =
        some (store h a { value := headCopy s, next := q.head }, some q1, true) ∧
      Rep (store h a { value := headCopy s, next := q.head }) q1 (a :: l) := by
  obtain ⟨hc, ht, hs, hmax⟩ := hr
  have hal : a ∉ l := fun hm => by
    obtain ⟨n, hn⟩ := isSeg_alloc hc a hm
    rw [ha] at hn; exact absurd hn (by simp)
  refine ⟨{ head := some a, tail := if q.size = 0 then some a else q.tail,
            size := toInt32 (q.size + 1) }, ?_, ?_, ?_, ?_, ?_⟩
  · simp [q_insert_head, headCopy]
  · rw [isChain_cons]
    refine ⟨rfl, _, store_same _ _ _, ?_⟩
    exact isSeg_frame (fun x hx => store_other h _ (fun e => hal (e ▸ hx))) hc
  · cases l with
    | nil => simp [hs]
    | cons b l =>
      have : q.size ≠ 0 := by rw [hs]; simp; omega
      simp [this, ht]
  · show toInt32 (q.size + 1) = _
    rw [hs, toInt32_id (by omega) (by omega)]
    simp
  · simp only [List.length_cons]; push_cast; omega

theorem q_insert_tail_spec (h : Heap) (q : queue_t) (l : List Nat) (s : List Nat) (a : Nat)
    (hr : Rep h q l) (ha : h a = none) (hroom : (l.length : Int) < INT_MAX) :
    ∃ h1 q1, q_insert_tail h (some q) s (some a) true = some (h1, some q1, true) ∧
      Rep h1 q1 (l ++ [a]) ∧ h1 a = some { value := tailCopy s, next := none } ∧
      (∀ x, x ≠ a → (h1 x).map (fun n => n.value) = (h x).map (fun n => n.value)) ∧
      (∀ x, x ≠ a → some x ≠ q.tail → h1 x = h x) ∧
      q1.head = (if l = [] then some a else q.head) := by
  have hemp := rep_empty_iff hr
  obtain ⟨hc, ht, hs, hmax⟩ := hr
  have hal : a ∉ l := fun hm => by
    obtain ⟨n, hn⟩ := isSeg_alloc hc a hm
    rw [ha] at hn; exact absurd hn (by simp)
  have hsz : toInt32 (q.size + 1) = ((l ++ [a]).length : Int) := by
    rw [hs, toInt32_id (by omega) (by omega)]; simp
  have hmax1 : (((l ++ [a]).length : Nat) : Int) ≤ INT_MAX := by
    simp only [List.length_append, List.length_singleton]; push_cast; omega
  rcases List.eq_nil_or_concat l with hl | ⟨l0, t, hl⟩
  · subst hl
    have hq0 : q.size = 0 := hemp.1.2 rfl
    refine ⟨store h a { value := tailCopy s, next := none },
      { head := some a, tail := some a, size := toInt32 (q.size + 1) }, ?_, ?_, ?_, ?_, ?_, ?_⟩
    · simp [q_insert_tail, tailCopy, hq0]
    · refine ⟨?_, rfl, hsz, hmax1⟩
      show IsChain _ (some a) [a]
      rw [isChain_cons]
      exact ⟨rfl, _, store_same _ _ _, rfl⟩
    · exact store_same _ _ _
    · intro x hx; rw [store_other h _ hx]
    · intro x hx _; rw [store_other h _ hx]
    · simp
  · rw [List.concat_eq_append] at hl
    subst hl
    have hq0 : q.size ≠ 0 := fun e => by
      have := hemp.1.1 e; simp at this
    have htl : q.tail = some t := by rw [ht]; simp
    obtain ⟨m, hm1, hm2⟩ := isSeg_split (show IsSeg h q.head (l0 ++ [t]) none from hc)
    rw [isSeg_cons] at hm2
    obtain ⟨hmt, nt, hnt, hnil⟩ := hm2
    rw [isSeg_nil] at hnil
    subst hmt
    have hta : t ≠ a := fun e => by rw [e, ha] at hnt; exact absurd hnt (by simp)
    have hnd := isChain_nodup hc
    have htl0 : t ∉ l0 := fun hm => by
      have := List.nodup_append.1 hnd
      exact this.2.2 hm (List.mem_singleton_self t)
    have hh1t : store h a { value := tailCopy s, next := none } t = some nt := by
      rw [store_other h _ hta]; exact hnt
    refine ⟨store (store h a { value := tailCopy s, next := none }) t { nt with next := some a },
      { head := q.head, tail := some a, size := toInt32 (q.size + 1) }, ?_, ?_, ?_, ?_, ?_, ?_⟩
    · have hh1u := hh1t
      unfold tailCopy at hh1u
      simp [q_insert_tail, tailCopy, hq0, htl, setNext_some hh1u]
    · refine ⟨?_, by simp, hsz, hmax1⟩
      show IsChain _ q.head (l0 ++ [t] ++ [a])
      rw [List.append_assoc]
      refine isSeg_append (m := some t) (isSeg_frame (fun x hx => ?_) hm1) ?_
      · have hxt : x ≠ t := fun e => htl0 (e ▸ hx)
        have hxa : x ≠ a := fun e => hal (by rw [← e]; exact List.mem_append_left _ hx)
        rw [store_other _ _ hxt, store_other _ _ hxa]
      · show IsSeg _ (some t) (t :: [a]) none
        rw [isSeg_cons]
        refine ⟨rfl, _, store_same _ _ _, ?_⟩
        rw [isSeg_cons]
        refine ⟨rfl, { value := tailCopy s, next := none }, ?_, rfl⟩
        rw [store_other _ _ (fun e => hta e.symm), store_same]
    · rw [store_other _ _ (fun e => hta e.symm), store_same]
    · intro x hx
      by_cases hxt : x = t
      · subst hxt; rw [store_same, hnt]; rfl
      · rw [store_other _ _ hxt, store_other _ _ hx]
    · intro x hx hxt
      rw [htl] at hxt
      rw [store_other _ _ (fun e => hxt (by rw [e])), store_other _ _ hx]
    · simp

theorem q_remove_head_spec (h : Heap) (q : queue_t) (a : Nat) (l : List Nat)
    (sp : Option (List Nat)) (bufsize : Nat) (hr : Rep h q (a :: l)) :
    ∃ n q1, h a = some n ∧
      q_remove_head h (some q) sp bufsize =
        some (release h a, some q1, sp.map (fun buf => strlcpy buf n.value bufsize), true) ∧
      Rep (release h a) q1 l ∧ q1.head = n.next ∧
      q1.tail = (if l = [] then none else q.tail) := by
  have hemp := rep_empty_iff hr
  obtain ⟨hc, ht, hs, hmax⟩ := hr
  have hnd := isChain_nodup hc
  rw [isChain_cons] at hc
  obtain ⟨hhead, n, hn, hrest⟩ := hc
  have hal : a ∉ l := (List.nodup_cons.1 hnd).1
  have hq0 : q.size ≠ 0 := fun e => by
    have := hemp.1.1 e; simp at this
  have htail : (if some a = q.tail then none else q.tail) = l.getLast? := by
    rw [ht]
    cases l with
    | nil => simp
    | cons b l =>
      rw [List.getLast?_cons_cons]
      have hlast : (b :: l).getLast? ≠ some a := fun e => hal (List.mem_of_getLast?_eq_some e)
      rw [if_neg (fun e => hlast e.symm)]
  have hsz : toInt32 (q.size - 1) = (l.length : Int) := by
    rw [hs]
    simp only [List.length_cons] at hmax ⊢
    push_cast at hmax ⊢
    rw [toInt32_id (by omega) (by omega)]
    omega
  refine ⟨n, { head := n.next, tail := if some a = q.tail then none else q.tail,
               size := toInt32 (q.size - 1) }, hn, ?_, ⟨?_, htail, hsz, ?_⟩, rfl, ?_⟩
  · simp [q_remove_head, hhead, hq0, hn]
  · exact isSeg_frame (fun x hx => by
      show (if x = a then none else h x) = h x
      rw [if_neg (fun (e : x = a) => hal (e ▸ hx))]) hrest
  · simp only [List.length_cons] at hmax; push_cast at hmax; omega
  · show (if some a = q.tail then none else q.tail) = _
    rw [htail]
    cases l with
    | nil => simp
    | cons b l => simp [ht]

theorem msortP_short (v : Nat → List Nat) (fuel : Nat) (l : List Nat) (hl : l.length < 2) :
    msortP v fuel l = l := by
  cases fuel with
  | zero => rfl
  | succ f => rw [msortP, if_pos hl]

theorem q_reverse_spec (fuel : Nat) (h : Heap) (q : queue_t) (l : List Nat) (hr : Rep h q l)
    (h2 : 2 ≤ l.length) (hf : l.length < fuel) :
    ∃ h1, q_reverse fuel h (some q) =
        some (h1, some { head := q.tail, tail := q.head, size := q.size }) ∧
      Rep h1 { head := q.tail, tail := q.head, size := q.size } l.reverse ∧ Frame l h h1 := by
  obtain ⟨hc, ht, hs, hmax⟩ := hr
  have hnd := isChain_nodup hc
  obtain ⟨h1, p, hrun, hch, hfr⟩ := reverseLoop_spec l fuel h none q.head [] hc rfl
    (by simpa using hnd) hf
  rw [List.append_nil] at hch
  have hp : p = q.tail := by
    rw [isChain_start hch, List.head?_reverse, ht]
  subst hp
  have hsz : ¬ q.size < 2 := by rw [hs]; omega
  refine ⟨h1, ?_, ⟨hch, ?_, ?_, ?_⟩, hfr⟩
  · simp only [q_reverse, if_neg hsz, hrun]
  · show q.head = _
    rw [List.getLast?_reverse]; exact isChain_start hc
  · show q.size = _
    rw [hs, List.length_reverse]
  · rw [List.length_reverse]; exact hmax

theorem q_sort_spec (fuel : Nat) (h : Heap) (q : queue_t) (l : List Nat) (hr : Rep h q l)
    (hf : 2 * l.length < fuel) :
    ∃ h1 q1, q_sort fuel h (some q) = some (h1, some q1) ∧
      Rep h1 q1 (msortP (valOf h) fuel l) ∧ Frame l h h1 ∧ q1.size = q.size := by
  by_cases hlen : l.length < 2
  · have hsz : q.size < 2 := by rw [hr.2.2.1]; omega
    refine ⟨h, q, ?_, ?_, frame_refl _ _, rfl⟩
    · simp only [q_sort, if_pos hsz]
    · rw [msortP_short _ _ _ hlen]; exact hr
  · obtain ⟨hc, ht, hs, hmax⟩ := hr
    have hsz : ¬ q.size < 2 := by rw [hs]; omega
    obtain ⟨h1, p, hrun, hch, hfr⟩ := mergeSortList_spec (valOf h) fuel l h q.head hc
      (fun _ => rfl) hf
    have hperm := msortP_perm (valOf h) fuel l
    have hne : l ≠ [] := fun e => hlen (by rw [e]; simp)
    obtain ⟨t, htl⟩ : ∃ t, l.getLast? = some t := by
      cases hg : l.getLast? with
      | none => exact absurd (List.getLast?_eq_none_iff.1 hg) hne
      | some t => exact ⟨t, rfl⟩
    have htmem : t ∈ msortP (valOf h) fuel l :=
      hperm.symm.subset (List.mem_of_getLast?_eq_some htl)
    obtain ⟨l1, l2, hl12⟩ := List.append_of_mem htmem
    have hch2 : IsSeg h1 p (l1 ++ t :: l2) none := by rw [← hl12]; exact hch
    obtain ⟨m, _, hm2⟩ := isSeg_split hch2
    have hmt : m = some t := ((isSeg_cons h1 m none t l2).1 hm2).1
    subst hmt
    have htail := tailLoop_spec h1 (t :: l2) fuel (some t) hm2 (by simp)
      (by
        have := hperm.length_eq
        rw [hl12] at this
        simp at this ⊢
        omega)
    refine ⟨h1, { head := p, tail := (t :: l2).getLast?, size := q.size }, ?_,
      ⟨hch, ?_, ?_, ?_⟩, hfr, rfl⟩
    · simp only [q_sort, if_neg hsz, hrun, ht, htl, htail]
    · show (t :: l2).getLast? = _
      rw [hl12, List.getLast?_append_cons]
    · show q.size = _
      rw [hs, hperm.length_eq]
    · rw [hperm.length_eq]; exact hmax

theorem chain_frame_eq {h h1 : Heap} {p : Ptr} {l : List Nat} (hc : IsChain h p l)
    (hc1 : IsChain h1 p l) (hfr : Frame l h h1) : h1 = h := by
  funext x
  by_cases hx : x ∈ l
  · obtain ⟨l1, l2, hl⟩ := List.append_of_mem hx
    subst hl
    obtain ⟨m, _, hm⟩ := isSeg_split hc
    obtain ⟨m1, _, hm1⟩ := isSeg_split hc1
    rw [isSeg_cons] at hm hm1
    obtain ⟨_, n, hn, hrest⟩ := hm
    obtain ⟨_, n1, hn1, hrest1⟩ := hm1
    have hv := (hfr x).2
    rw [hn, hn1] at hv
    have hnx : n1.next = n.next := by
      rw [isChain_start hrest, isChain_start hrest1]
    rw [hn, hn1]
    cases n; cases n1
    simp at hv hnx ⊢
    exact ⟨hv, hnx⟩
  · exact (hfr x).1 hx

theorem chainOf_spec {h : Heap} : ∀ (l : List Nat) (p : Ptr) (fuel : Nat), IsChain h p l →
    l.length ≤ fuel → chainOf fuel h p = some l := by
  intro l
  induction l with
  | nil =>
    intro p fuel hc _
    rw [isChain_nil] at hc
    subst hc
    cases fuel <;> rfl
  | cons a l ih =>
    intro p fuel hc hf
    obtain ⟨f, rfl⟩ : ∃ f, fuel = f + 1 := ⟨fuel - 1, by simp at hf; omega⟩
    rw [isChain_cons] at hc
    obtain ⟨hp, n, hn, hrest⟩ := hc
    subst hp
    simp only [chainOf, hn, ih n.next f hrest (by simp at hf; omega)]
    rfl

theorem frame_map_valOf {S : List Nat} {h h1 : Heap} (f : Frame S h h1) (l : List Nat) :
    l.map (valOf h1) = l.map (valOf h) :=
  List.map_congr_left (fun a _ => frame_valOf f a)

/-! ## The sort -/

/-- Claim C1: after `q_sort` on a well-formed queue of any length, with fuel
for its loops, the queue is well formed and the strings of its chain, front to
back, are in ascending order of `strcmp`: every adjacent pair `(a, b)` has
`strcmp a b ≤ 0`. -/
theorem q_sort_ascending (fuel : Nat) (h : Heap) (q : queue_t) (l : List Nat)
    (hr : Rep h q l) (hf : 2 * l.length < fuel) :
    ∃ h1 q1 l1, q_sort fuel h (some q) = some (h1, some q1) ∧ Rep h1 q1 l1 ∧
      valuesOf fuel h1 q1.head = some (l1.map (valOf h1)) ∧
      List.Chain' (fun a b => strcmp a b ≤ 0) (l1.map (valOf h1)) := by
  obtain ⟨h1, q1, hrun, hrep, hfr, _⟩ := q_sort_spec fuel h q l hr hf
  have hperm := msortP_perm (valOf h) fuel l
  refine ⟨h1, q1, _, hrun, hrep, ?_, ?_⟩
  · unfold valuesOf
    rw [chainOf_spec _ _ _ hrep.1 (by rw [hperm.length_eq]; omega)]
    rfl
  · apply List.Pairwise.chain'
    rw [List.pairwise_map]
    have hs := msortP_sorted (valOf h) fuel l (by omega)
    refine hs.imp ?_
    intro a b hab
    rw [frame_valOf hfr a, frame_valOf hfr b]
    exact hab

/-- The scenario of claim C1: `insert_back` of "banana", "apple", "cherry" and
then `q_sort` give "apple", "banana", "cherry", and the size is 3. -/
theorem q_sort_ascending_witness :
    Rep fruitQueue.1 fruitQueue.2 [1, 2, 3] ∧
    (∃ h1 q1 l1, q_sort 7 fruitQueue.1 (some fruitQueue.2) = some (h1, some q1) ∧
      Rep h1 q1 l1 ∧ valuesOf 7 h1 q1.head = some (l1.map (valOf h1)) ∧
      List.Chain' (fun a b => strcmp a b ≤ 0) (l1.map (valOf h1))) ∧
    (q_sort 7 fruitQueue.1 (some fruitQueue.2)).map
        (fun r => (queueValues 7 r.1 r.2, q_size r.2)) =
      some (some [bytes "apple", bytes "banana", bytes "cherry"], 3) :=
  ⟨by decide, q_sort_ascending 7 fruitQueue.1 fruitQueue.2 [1, 2, 3] (by decide) (by decide),
    by decide⟩

/-- Claim C2: `q_sort` on a well-formed queue only rearranges the elements: the
chain after it is a permutation of the chain before it, every address holds the
string it held and is allocated exactly when it was, so the strings of the
chain are a permutation of the strings before, and `size` is unchanged. -/
theorem q_sort_permutes (fuel : Nat) (h : Heap) (q : queue_t) (l : List Nat)
    (hr : Rep h q l) (hf : 2 * l.length < fuel) :
    ∃ h1 q1 l1, q_sort fuel h (some q) = some (h1, some q1) ∧ Rep h1 q1 l1 ∧
      l1.Perm l ∧ (l1.map (valOf h1)).Perm (l.map (valOf h)) ∧
      (∀ a, (h1 a).map (fun n => n.value) = (h a).map (fun n => n.value)) ∧
      (∀ a, a ∉ l → h1 a = h a) ∧ q1.size = q.size ∧ l1.length = l.length := by
  obtain ⟨h1, q1, hrun, hrep, hfr, hsz⟩ := q_sort_spec fuel h q l hr hf
  have hperm := msortP_perm (valOf h) fuel l
  refine ⟨h1, q1, _, hrun, hrep, hperm, ?_, fun a => (hfr a).2, fun a ha => (hfr a).1 ha,
    hsz, hperm.length_eq⟩
  rw [frame_map_valOf hfr]
  exact hperm.map _

/-- Claim C2 on the queue "banana", "apple", "cherry". -/
theorem q_sort_permutes_witness :
    ∃ h1 q1 l1, q_sort 7 fruitQueue.1 (some fruitQueue.2) = some (h1, some q1) ∧ Rep h1 q1 l1 ∧
      l1.Perm [1, 2, 3] ∧ (l1.map (valOf h1)).Perm ([1, 2, 3].map (valOf fruitQueue.1)) ∧
      (∀ a, (h1 a).map (fun n => n.value) = (fruitQueue.1 a).map (fun n => n.value)) ∧
      (∀ a, a ∉ [1, 2, 3] → h1 a = fruitQueue.1 a) ∧ q1.size = fruitQueue.2.size ∧
      l1.length = [1, 2, 3].length :=
  q_sort_permutes 7 fruitQueue.1 fruitQueue.2 [1, 2, 3] (by decide) (by decide)

/-! ## The invariant -/

theorem wf_of_rep {h : Heap} {q : queue_t} {l : List Nat} (hr : Rep h q l) :
    WellFormed h q := by
  have hemp := rep_empty_iff hr
  obtain ⟨hc, ht, hs, hmax⟩ := hr
  refine ⟨l, hc, hs, by rw [hs]; exact hmax, ?_, ?_, ?_⟩
  · rw [hemp.1, hemp.2.1]
  · rw [hemp.2.1, hemp.2.2]
  · intro h1
    refine ⟨ht, ?_⟩
    rcases List.eq_nil_or_concat l with hl | ⟨l0, t, hl⟩
    · subst hl; rw [hs] at h1; simp at h1
    · rw [List.concat_eq_append] at hl
      subst hl
      obtain ⟨m, _, hm2⟩ := isSeg_split (show IsSeg h q.head (l0 ++ [t]) none from hc)
      rw [isSeg_cons] at hm2
      obtain ⟨_, nt, hnt, hnil⟩ := hm2
      rw [isSeg_nil] at hnil
      have htl : q.tail = some t := by rw [ht]; simp
      rw [htl, getNext_some hnt, hnil]

theorem rep_of_wf {h : Heap} {q : queue_t} (hw : WellFormed h q) : ∃ l, Rep h q l := by
  obtain ⟨l, hc, hs, hmax, h0, hht, h1⟩ := hw
  refine ⟨l, hc, ?_, hs, by rw [← hs]; exact hmax⟩
  by_cases hz : q.size = 0
  · have hhead := h0.1 hz
    have htail := hht.1 hhead
    have hl : l = [] := by
      rw [hs] at hz
      exact List.length_eq_zero.1 (by omega)
    rw [htail, hl]; rfl
  · exact (h1 (by rw [hs] at hz ⊢; omega)).1

theorem rep_new (h : Heap) : Rep h { head := none, tail := none, size := 0 } [] :=
  ⟨rfl, rfl, rfl, by unfold INT_MAX; simp⟩

/-- Claim C3, as amended: the invariant `WellFormed` holds for the queue `q_new`
returns; `q_remove_head`, `q_reverse` and `q_sort` (with fuel for their loops)
keep it on every well-formed queue, and `q_insert_head` and `q_insert_tail`
keep it on every well-formed queue whose `size` is below `INT_MAX` (whatever
`malloc` returns, the address of a new element being one that is not
allocated). Each operation returns on such a queue. -/
theorem wellFormed_invariant :
    (∀ (h : Heap) (q : queue_t), q_new true = some q → WellFormed h q) ∧
    (∀ (h : Heap) (q : queue_t) (s : List Nat) (newh : Ptr) (valOk : Bool),
      WellFormed h q → (∀ a, newh = some a → h a = none) → q.size < INT_MAX →
      ∃ h1 q1 b, q_insert_head h (some q) s newh valOk = some (h1, some q1, b) ∧
        WellFormed h1 q1) ∧
    (∀ (h : Heap) (q : queue_t) (s : List Nat) (newt : Ptr) (valOk : Bool),
      WellFormed h q → (∀ a, newt = some a → h a = none) → q.size < INT_MAX →
      ∃ h1 q1 b, q_insert_tail h (some q) s newt valOk = some (h1, some q1, b) ∧
        WellFormed h1 q1) ∧
    (∀ (h : Heap) (q : queue_t) (sp : Option (List Nat)) (bufsize : Nat),
      WellFormed h q →
      ∃ h1 q1 sp1 b, q_remove_head h (some q) sp bufsize = some (h1, some q1, sp1, b) ∧
        WellFormed h1 q1) ∧
    (∀ (fuel : Nat) (h : Heap) (q : queue_t),
      WellFormed h q → q.size < (fuel : Int) →
      ∃ h1 q1, q_reverse fuel h (some q) = some (h1, some q1) ∧ WellFormed h1 q1) ∧
    (∀ (fuel : Nat) (h : Heap) (q : queue_t),
      WellFormed h q → 2 * q.size < (fuel : Int) →
      ∃ h1 q1, q_sort fuel h (some q) = some (h1, some q1) ∧ WellFormed h1 q1) := by
  refine ⟨?_, ?_, ?_, ?_, ?_, ?_⟩
  · intro h q hq
    simp only [q_new] at hq
    have hq2 : q = { head := none, tail := none, size := 0 } := by
      simpa using hq.symm
    rw [hq2]
    exact wf_of_rep (rep_new h)
  · intro h q s newh valOk hw hfresh hroom
    obtain ⟨l, hr⟩ := rep_of_wf hw
    cases newh with
    | none => exact ⟨h, q, false, rfl, hw⟩
    | some a =>
      cases valOk with
      | false => exact ⟨h, q, false, rfl, hw⟩
      | true =>
        obtain ⟨q1, hrun, hrep⟩ := q_insert_head_spec h q l s a hr (hfresh a rfl)
          (by rw [← hr.2.2.1]; exact hroom)
        exact ⟨_, q1, true, hrun, wf_of_rep hrep⟩
  · intro h q s newt valOk hw hfresh hroom
    obtain ⟨l, hr⟩ := rep_of_wf hw
    cases newt with
    | none => exact ⟨h, q, false, rfl, hw⟩
    | some a =>
      cases valOk with
      | false => exact ⟨h, q, false, rfl, hw⟩
      | true =>
        obtain ⟨h1, q1, hrun, hrep, _⟩ := q_insert_tail_spec h q l s a hr (hfresh a rfl)
          (by rw [← hr.2.2.1]; exact hroom)
        exact ⟨h1, q1, true, hrun, wf_of_rep hrep⟩
  · intro h q sp bufsize hw
    obtain ⟨l, hr⟩ := rep_of_wf hw
    cases l with
    | nil =>
      have hhead : q.head = none := (rep_empty_iff hr).2.1.2 rfl
      refine ⟨h, q, sp, false, ?_, hw⟩
      simp [q_remove_head, hhead]
    | cons a l =>
      obtain ⟨n, q1, _, hrun, hrep, _⟩ := q_remove_head_spec h q a l sp bufsize hr
      exact ⟨_, q1, _, true, hrun, wf_of_rep hrep⟩
  · intro fuel h q hw hf
    obtain ⟨l, hr⟩ := rep_of_wf hw
    by_cases h2 : 2 ≤ l.length
    · obtain ⟨h1, hrun, hrep, _⟩ := q_reverse_spec fuel h q l hr h2
        (by rw [hr.2.2.1] at hf; omega)
      exact ⟨h1, _, hrun, wf_of_rep hrep⟩
    · have hsz : q.size < 2 := by rw [hr.2.2.1]; omega
      refine ⟨h, q, ?_, hw⟩
      simp only [q_reverse, if_pos hsz]
  · intro fuel h q hw hf
    obtain ⟨l, hr⟩ := rep_of_wf hw
    obtain ⟨h1, q1, hrun, hrep, _⟩ := q_sort_spec fuel h q l hr
      (by rw [hr.2.2.1] at hf; omega)
    exact ⟨h1, q1, hrun, wf_of_rep hrep⟩

/-- Claim C3 on the queue "banana", "apple", "cherry": it is well formed, being
built by `q_insert_tail` from the queue of `q_new`; its `size`, 3, is below
`INT_MAX`, and `q_insert_head`, `q_insert_tail` and `q_sort` keep it well
formed. -/
theorem wellFormed_invariant_witness :
    WellFormed fruitQueue.1 fruitQueue.2 ∧ fruitQueue.2.size < INT_MAX ∧
    (∃ h1 q1 b, q_insert_head fruitQueue.1 (some fruitQueue.2) (bytes "kiwi") (some 9) true =
        some (h1, some q1, b) ∧ WellFormed h1 q1) ∧
    (∃ h1 q1 b, q_insert_tail fruitQueue.1 (some fruitQueue.2) (bytes "kiwi") (some 9) true =
        some (h1, some q1, b) ∧ WellFormed h1 q1) ∧
    ∃ h1 q1, q_sort 7 fruitQueue.1 (some fruitQueue.2) = some (h1, some q1) ∧
      WellFormed h1 q1 :=
  have hw : WellFormed fruitQueue.1 fruitQueue.2 :=
    wf_of_rep (show Rep fruitQueue.1 fruitQueue.2 [1, 2, 3] by decide)
  have hfresh : ∀ a, some 9 = some a → fruitQueue.1 a = none := fun a e => by
    rw [← Option.some.inj e]; decide
  ⟨hw, by decide,
    wellFormed_invariant.2.1 fruitQueue.1 fruitQueue.2 (bytes "kiwi") (some 9) true hw hfresh
      (by decide),
    wellFormed_invariant.2.2.1 fruitQueue.1 fruitQueue.2 (bytes "kiwi") (some 9) true hw hfresh
      (by decide),
    wellFormed_invariant.2.2.2.2.2 7 fruitQueue.1 fruitQueue.2 hw (by decide)⟩

/-! ## Sequences of insertions and removals -/

theorem valOf_of_map_eq {h h1 : Heap} {x : Nat}
    (hx : (h1 x).map (fun n => n.value) = (h x).map (fun n => n.value)) :
    valOf h1 x = valOf h x := by
  unfold valOf
  cases h1x : h1 x <;> cases hx0 : h x <;> simp [h1x, hx0] at hx ⊢
  exact hx

theorem not_mem_of_fresh {h : Heap} {p : Ptr} {l : List Nat} (hc : IsChain h p l) {a : Nat}
    (ha : h a = none) : a ∉ l := fun hm => by
  obtain ⟨n, hn⟩ := isSeg_alloc hc a hm
  rw [ha] at hn; exact absurd hn (by simp)

theorem insertTailList_spec : ∀ (xs : List (List Nat × Nat)) (h : Heap) (q : queue_t)
    (l : List Nat), Rep h q l → (∀ x ∈ xs, h x.2 = none) → (xs.map Prod.snd).Nodup →
    ((l.length + xs.length : Nat) : Int) ≤ INT_MAX → (∀ x ∈ xs, (x.1.length : Int) < INT_MAX) →
    ∃ h1 q1, insertTailList h (some q) xs = some (h1, some q1, List.replicate xs.length true) ∧
      Rep h1 q1 (l ++ xs.map Prod.snd) ∧
      (l ++ xs.map Prod.snd).map (valOf h1) = l.map (valOf h) ++ xs.map Prod.fst := by
  intro xs
  induction xs with
  | nil =>
    intro h q l hr _ _ _ _
    exact ⟨h, q, rfl, by simpa using hr, by simp⟩
  | cons x xs ih =>
    intro h q l hr hfresh hnd hlen hstr
    have hsx : (x.1.length : Int) < INT_MAX := hstr x (List.mem_cons_self _ _)
    have hstr1 : ∀ y ∈ xs, (y.1.length : Int) < INT_MAX :=
      fun y hy => hstr y (List.mem_cons_of_mem _ hy)
    have hax : h x.2 = none := hfresh x (List.mem_cons_self _ _)
    have hal : x.2 ∉ l := not_mem_of_fresh hr.1 hax
    simp only [List.map_cons, List.nodup_cons] at hnd
    simp only [List.length_cons] at hlen
    push_cast at hlen
    obtain ⟨h1, q1, hrun, hrep, hnew, hvals, hsame, _⟩ :=
      q_insert_tail_spec h q l x.1 x.2 hr hax (by omega)
    have hfresh1 : ∀ y ∈ xs, h1 y.2 = none := by
      intro y hy
      have hy0 : h y.2 = none := hfresh y (List.mem_cons_of_mem _ hy)
      have hne : y.2 ≠ x.2 := fun e => hnd.1 (by rw [← e]; exact List.mem_map_of_mem _ hy)
      have hnt : some y.2 ≠ q.tail := fun e => by
        have : y.2 ∈ l := List.mem_of_getLast?_eq_some (by rw [← hr.2.1, ← e])
        exact not_mem_of_fresh hr.1 hy0 this
      rw [hsame y.2 hne hnt]; exact hy0
    obtain ⟨h2, q2, hrun2, hrep2, hvals2⟩ := ih h1 q1 (l ++ [x.2]) hrep hfresh1 hnd.2
      (by simp only [List.length_append, List.length_singleton]; push_cast; omega) hstr1
    refine ⟨h2, q2, ?_, ?_, ?_⟩
    · simp only [insertTailList, hrun, hrun2, List.length_cons, List.replicate_succ]
    · simpa using hrep2
    · have hl1 : (l ++ [x.2]).map (valOf h1) = l.map (valOf h) ++ [x.1] := by
        rw [List.map_append]
        congr 1
        · exact List.map_congr_left (fun a ha =>
            valOf_of_map_eq (hvals a (fun e => hal (e ▸ ha))))
        · simp [valOf_some hnew, tailCopy_eq _ hsx]
      rw [hl1] at hvals2
      simpa using hvals2

theorem insertHeadList_spec : ∀ (xs : List (List Nat × Nat)) (h : Heap) (q : queue_t)
    (l : List Nat), Rep h q l → (∀ x ∈ xs, h x.2 = none) → (xs.map Prod.snd).Nodup →
    ((l.length + xs.length : Nat) : Int) ≤ INT_MAX → (∀ x ∈ xs, (x.1.length : Int) < INT_MAX) →
    ∃ h1 q1, insertHeadList h (some q) xs = some (h1, some q1, List.replicate xs.length true) ∧
      Rep h1 q1 ((xs.map Prod.snd).reverse ++ l) ∧
      ((xs.map Prod.snd).reverse ++ l).map (valOf h1) =
        (xs.map Prod.fst).reverse ++ l.map (valOf h) := by
  intro xs
  induction xs with
  | nil =>
    intro h q l hr _ _ _ _
    exact ⟨h, q, rfl, by simpa using hr, by simp⟩
  | cons x xs ih =>
    intro h q l hr hfresh hnd hlen hstr
    have hsx : (x.1.length : Int) < INT_MAX := hstr x (List.mem_cons_self _ _)
    have hstr1 : ∀ y ∈ xs, (y.1.length : Int) < INT_MAX :=
      fun y hy => hstr y (List.mem_cons_of_mem _ hy)
    have hax : h x.2 = none := hfresh x (List.mem_cons_self _ _)
    have hal : x.2 ∉ l := not_mem_of_fresh hr.1 hax
    simp only [List.map_cons, List.nodup_cons] at hnd
    simp only [List.length_cons] at hlen
    push_cast at hlen
    obtain ⟨q1, hrun, hrep⟩ := q_insert_head_spec h q l x.1 x.2 hr hax (by omega)
    have hfresh1 : ∀ y ∈ xs, store h x.2 { value := headCopy x.1, next := q.head } y.2 = none := by
      intro y hy
      have hne : y.2 ≠ x.2 := fun e => hnd.1 (by rw [← e]; exact List.mem_map_of_mem _ hy)
      rw [store_other _ _ hne]
      exact hfresh y (List.mem_cons_of_mem _ hy)
    obtain ⟨h2, q2, hrun2, hrep2, hvals2⟩ := ih _ q1 (x.2 :: l) hrep hfresh1 hnd.2
      (by simp only [List.length_cons]; push_cast; omega) hstr1
    refine ⟨h2, q2, ?_, ?_, ?_⟩
    · simp only [insertHeadList, hrun, hrun2, List.length_cons, List.replicate_succ]
    · simpa using hrep2
    · have hl1 : (x.2 :: l).map (valOf (store h x.2 { value := headCopy x.1, next := q.head })) =
          x.1 :: l.map (valOf h) := by
        rw [List.map_cons]
        congr 1
        · rw [valOf_some (store_same _ _ _)]
          dsimp only
          rw [headCopy_eq _ hsx]
        · exact List.map_congr_left (fun a ha => by
            unfold valOf
            rw [store_other _ _ (fun (e : a = x.2) => hal (e ▸ ha))])
      rw [hl1] at hvals2
      simpa using hvals2

theorem rep_nil_eq {h : Heap} {q : queue_t} (hr : Rep h q []) :
    q = { head := none, tail := none, size := 0 } := by
  obtain ⟨hc, ht, hs, _⟩ := hr
  rw [isChain_nil] at hc
  cases q
  simp at hc ht hs
  simp [hc, ht, hs]

theorem removeHeadN_spec : ∀ (l : List Nat) (h : Heap) (q : queue_t) (bufsize : Nat),
    Rep h q l → (∀ a ∈ l, (valOf h a).length < bufsize) →
    ∃ h1, removeHeadN l.length h (some q) bufsize =
        some (h1, some { head := none, tail := none, size := 0 },
          l.map (fun a => (some (valOf h a), true))) ∧
      (∀ x, x ∉ l → h1 x = h x) ∧ (∀ x ∈ l, h1 x = none) := by
  intro l
  induction l with
  | nil =>
    intro h q bufsize hr _
    refine ⟨h, ?_, fun _ _ => rfl, fun x hx => by simp at hx⟩
    rw [rep_nil_eq hr]
    rfl
  | cons a l ih =>
    intro h q bufsize hr hbuf
    have hnd := isChain_nodup hr.1
    have hal : a ∉ l := (List.nodup_cons.1 hnd).1
    obtain ⟨n, q1, hn, hrun, hrep, _⟩ := q_remove_head_spec h q a l (some []) bufsize hr
    have hva : valOf h a = n.value := valOf_some hn
    have hvl : ∀ x ∈ l, valOf (release h a) x = valOf h x := by
      intro x hx
      unfold valOf release
      rw [if_neg (fun (e : x = a) => hal (e ▸ hx))]
    obtain ⟨h1, hrun1, hout, hin⟩ := ih (release h a) q1 bufsize hrep
      (fun x hx => by rw [hvl x hx]; exact hbuf x (List.mem_cons_of_mem _ hx))
    refine ⟨h1, ?_, ?_, ?_⟩
    · simp only [List.length_cons, removeHeadN, hrun, hrun1, Option.map_some', List.map_cons]
      rw [strlcpy_full _ _ _ (by rw [← hva]; exact hbuf a (List.mem_cons_self _ _)), hva]
      have hmap : l.map (fun x => (some (valOf (release h a) x), true)) =
          l.map (fun x => (some (valOf h x), true)) :=
        List.map_congr_left (fun x hx => by rw [hvl x hx])
      rw [hmap]
    · intro x hx
      have hxa : x ≠ a := fun e => hx (by rw [e]; exact List.mem_cons_self _ _)
      rw [hout x (fun hm => hx (List.mem_cons_of_mem _ hm))]
      unfold release
      rw [if_neg hxa]
    · intro x hx
      by_cases hxl : x ∈ l
      · exact hin x hxl
      · have hxa : x = a := by
          rcases List.mem_cons.1 hx with e | e
          · exact e
          · exact absurd e hxl
        rw [hout x hxl, hxa]
        unfold release
        rw [if_pos rfl]

/-- Claim C4 (FIFO), as amended: from the empty queue of `q_new`, successful
calls of `q_insert_tail` with the strings of `xs`, in order, at most `INT_MAX`
of them and each one shorter than `INT_MAX` bytes, followed by as many calls
of `q_remove_head` with a buffer longer than each string: every insertion and
every removal returns `true`, the removals give the strings in the order of
insertion, and the queue is left empty. -/
theorem fifo_order (h0 : Heap) (xs : List (List Nat × Nat)) (bufsize : Nat)
    (hfresh : ∀ x ∈ xs, h0 x.2 = none) (hnd : (xs.map Prod.snd).Nodup)
    (hlen : (xs.length : Int) ≤ INT_MAX) (hstr : ∀ x ∈ xs, (x.1.length : Int) < INT_MAX)
    (hbuf : ∀ x ∈ xs, x.1.length < bufsize) :
    ∃ h1 q1 h2 q2,
      insertTailList h0 (q_new true) xs = some (h1, some q1, List.replicate xs.length true) ∧
      removeHeadN xs.length h1 (some q1) bufsize =
        some (h2, some q2, xs.map (fun x => (some x.1, true))) ∧
      q2 = { head := none, tail := none, size := 0 } ∧ q_size (some q2) = 0 := by
  obtain ⟨h1, q1, hrun, hrep, hvals⟩ := insertTailList_spec xs h0 _ [] (rep_new h0) hfresh hnd
    (by simpa using hlen) hstr
  simp only [List.nil_append, List.map_nil, List.map_map] at hrep hvals
  have hval : ∀ x ∈ xs, valOf h1 x.2 = x.1 := fun x hx => List.map_inj_left.1 hvals x hx
  obtain ⟨h2, hrem, _⟩ := removeHeadN_spec (xs.map Prod.snd) h1 q1 bufsize hrep
    (fun a ha => by
      obtain ⟨x, hx, rfl⟩ := List.mem_map.1 ha
      rw [hval x hx]; exact hbuf x hx)
  rw [List.length_map] at hrem
  refine ⟨h1, q1, h2, _, hrun, ?_, rfl, rfl⟩
  rw [hrem, List.map_map]
  congr 3
  exact List.map_congr_left (fun x hx => by simp [hval x hx])

/-- Claim C4 on "banana", "apple", "cherry" and a buffer of 16 bytes. -/
theorem fifo_order_witness :
    ∃ h1 q1 h2 q2,
      insertTailList emptyHeap (q_new true)
          [(bytes "banana", 1), (bytes "apple", 2), (bytes "cherry", 3)] =
        some (h1, some q1, [true, true, true]) ∧
      removeHeadN 3 h1 (some q1) 16 =
        some (h2, some q2, [(some (bytes "banana"), true), (some (bytes "apple"), true),
          (some (bytes "cherry"), true)]) ∧
      q2 = { head := none, tail := none, size := 0 } ∧ q_size (some q2) = 0 :=
  fifo_order emptyHeap [(bytes "banana", 1), (bytes "apple", 2), (bytes "cherry", 3)] 16
    (fun _ _ => rfl) (by decide) (by decide) (by decide) (by decide)

/-- Claim C5 (LIFO), as amended: from the empty queue of `q_new`, successful
calls of `q_insert_head` with the strings of `xs`, in order, at most `INT_MAX`
of them and each one shorter than `INT_MAX` bytes, followed by as many calls
of `q_remove_head` with a buffer longer than each string: every insertion and
every removal returns `true`, the removals give the strings in the reverse of
the order of insertion, and the queue is left empty. -/
theorem lifo_order (h0 : Heap) (xs : List (List Nat × Nat)) (bufsize : Nat)
    (hfresh : ∀ x ∈ xs, h0 x.2 = none) (hnd : (xs.map Prod.snd).Nodup)
    (hlen : (xs.length : Int) ≤ INT_MAX) (hstr : ∀ x ∈ xs, (x.1.length : Int) < INT_MAX)
    (hbuf : ∀ x ∈ xs, x.1.length < bufsize) :
    ∃ h1 q1 h2 q2,
      insertHeadList h0 (q_new true) xs = some (h1, some q1, List.replicate xs.length true) ∧
      removeHeadN xs.length h1 (some q1) bufsize =
        some (h2, some q2, xs.reverse.map (fun x => (some x.1, true))) ∧
      q2 = { head := none, tail := none, size := 0 } ∧ q_size (some q2) = 0 := by
  obtain ⟨h1, q1, hrun, hrep, hvals⟩ := insertHeadList_spec xs h0 _ [] (rep_new h0) hfresh hnd
    (by simpa using hlen) hstr
  simp only [List.append_nil, List.map_nil, ← List.map_reverse, List.map_map] at hrep hvals
  have hval : ∀ x ∈ xs.reverse, valOf h1 x.2 = x.1 :=
    fun x hx => List.map_inj_left.1 hvals x hx
  obtain ⟨h2, hrem, _⟩ := removeHeadN_spec (xs.reverse.map Prod.snd) h1 q1 bufsize hrep
    (fun a ha => by
      obtain ⟨x, hx, rfl⟩ := List.mem_map.1 ha
      rw [hval x hx]; exact hbuf x (List.mem_reverse.1 hx))
  rw [List.length_map, List.length_reverse] at hrem
  refine ⟨h1, q1, h2, _, hrun, ?_, rfl, rfl⟩
  rw [hrem, List.map_map]
  congr 3
  exact List.map_congr_left (fun x hx => by simp [hval x hx])

/-- Claim C5 on "banana", "apple", "cherry" and a buffer of 16 bytes. -/
theorem lifo_order_witness :
    ∃ h1 q1 h2 q2,
      insertHeadList emptyHeap (q_new true)
          [(bytes "banana", 1), (bytes "apple", 2), (bytes "cherry", 3)] =
        some (h1, some q1, [true, true, true]) ∧
      removeHeadN 3 h1 (some q1) 16 =
        some (h2, some q2, [(some (bytes "cherry"), true), (some (bytes "apple"), true),
          (some (bytes "banana"), true)]) ∧
      q2 = { head := none, tail := none, size := 0 } ∧ q_size (some q2) = 0 :=
  lifo_order emptyHeap [(bytes "banana", 1), (bytes "apple", 2), (bytes "cherry", 3)] 16
    (fun _ _ => rfl) (by decide) (by decide) (by decide) (by decide)

/-! ## The size as a count of calls -/

theorem insertsOk_false (op : Op) (ops : List Op) (bs : List Bool) :
    insertsOk (op :: ops) (false :: bs) = insertsOk ops bs := by
  cases op <;> rfl

theorem removesOk_false (op : Op) (ops : List Op) (bs : List Bool) :
    removesOk (op :: ops) (false :: bs) = removesOk ops bs := by
  cases op <;> rfl

theorem run_absent : ∀ (ops : List Op) (h : Heap),
    ∃ rs, run h none ops = some (h, none, rs) ∧ rs.length = ops.length ∧
      insertsOk ops rs = 0 ∧ removesOk ops rs = 0 := by
  intro ops
  induction ops with
  | nil => intro h; exact ⟨[], rfl, rfl, rfl, rfl⟩
  | cons op ops ih =>
    intro h
    obtain ⟨rs, hrun, hlen, hi, hr⟩ := ih h
    have hstep : step h none op = some (h, none, false) := by
      cases op <;> rfl
    refine ⟨false :: rs, ?_, by simp [hlen], ?_, ?_⟩
    · simp only [run, hstep, hrun]
    · rw [insertsOk_false]; exact hi
    · rw [removesOk_false]; exact hr

theorem run_spec : ∀ (ops : List Op) (h : Heap) (q : queue_t) (l : List Nat),
    Rep h q l → FreshRun h (some q) ops → RoomRun h (some q) ops →
    ∃ h1 q1 l1 rs, run h (some q) ops = some (h1, some q1, rs) ∧ Rep h1 q1 l1 ∧
      rs.length = ops.length ∧
      (l1.length : Int) = (l.length : Int) + (insertsOk ops rs : Int) - (removesOk ops rs : Int) := by
  intro ops
  induction ops with
  | nil =>
    intro h q l hr _ _
    exact ⟨h, q, l, [], rfl, hr, rfl, by simp [insertsOk, removesOk]⟩
  | cons op ops ih =>
    intro h q l hr hfresh hroom
    obtain ⟨hfop, hfrest⟩ := hfresh
    obtain ⟨hrop, hrrest⟩ := hroom
    -- what remains once the first call is known to return `b` in a represented state
    have fin : ∀ (h1 : Heap) (q1 : queue_t) (l1 : List Nat) (b : Bool) (di dr : Nat),
        step h (some q) op = some (h1, some q1, b) → Rep h1 q1 l1 →
        (∀ bs, insertsOk (op :: ops) (b :: bs) = insertsOk ops bs + di) →
        (∀ bs, removesOk (op :: ops) (b :: bs) = removesOk ops bs + dr) →
        (l1.length : Int) = (l.length : Int) + (di : Int) - (dr : Int) →
        ∃ h2 q2 l2 rs, run h (some q) (op :: ops) = some (h2, some q2, rs) ∧ Rep h2 q2 l2 ∧
          rs.length = (op :: ops).length ∧
          (l2.length : Int) = (l.length : Int) + (insertsOk (op :: ops) rs : Int)
            - (removesOk (op :: ops) rs : Int) := by
      intro h1 q1 l1 b di dr hstep hrep hi hd hl1
      rw [hstep] at hfrest hrrest
      obtain ⟨h2, q2, l2, rs, hrun, hrep2, hrs, hcount⟩ := ih h1 q1 l1 hrep hfrest hrrest
      refine ⟨h2, q2, l2, b :: rs, ?_, hrep2, by simp [hrs], ?_⟩
      · simp only [run, hstep, hrun]
      · rw [hi rs, hd rs, hcount, hl1]
        push_cast
        omega
    cases op with
    | insertHead s newh valOk =>
      cases newh with
      | none =>
        exact fin h q l false 0 0 rfl hr
          (fun bs => insertsOk_false _ _ _) (fun bs => removesOk_false _ _ _) (by simp)
      | some a =>
        cases valOk with
        | false =>
          exact fin h q l false 0 0 rfl hr
            (fun bs => insertsOk_false _ _ _) (fun bs => removesOk_false _ _ _) (by simp)
        | true =>
          have hrm : (l.length : Int) < INT_MAX := by rw [← hr.2.2.1]; exact hrop
          obtain ⟨q1, hrun, hrep⟩ := q_insert_head_spec h q l s a hr hfop hrm
          exact fin _ q1 (a :: l) true 1 0 hrun hrep
            (fun bs => rfl) (fun bs => rfl) (by simp)
    | insertTail s newt valOk =>
      cases newt with
      | none =>
        exact fin h q l false 0 0 rfl hr
          (fun bs => insertsOk_false _ _ _) (fun bs => removesOk_false _ _ _) (by simp)
      | some a =>
        cases valOk with
        | false =>
          exact fin h q l false 0 0 rfl hr
            (fun bs => insertsOk_false _ _ _) (fun bs => removesOk_false _ _ _) (by simp)
        | true =>
          have hrm : (l.length : Int) < INT_MAX := by rw [← hr.2.2.1]; exact hrop
          obtain ⟨h1, q1, hrun, hrep, _⟩ := q_insert_tail_spec h q l s a hr hfop hrm
          exact fin h1 q1 (l ++ [a]) true 1 0 hrun hrep
            (fun bs => rfl) (fun bs => rfl) (by simp)
    | removeHead sp bufsize =>
      cases l with
      | nil =>
        have hhead : q.head = none := (rep_empty_iff hr).2.1.2 rfl
        have hstep : step h (some q) (Op.removeHead sp bufsize) = some (h, some q, false) := by
          simp [step, q_remove_head, hhead]
        exact fin h q [] false 0 0 hstep hr
          (fun bs => insertsOk_false _ _ _) (fun bs => removesOk_false _ _ _) (by simp)
      | cons a l =>
        obtain ⟨n, q1, _, hrun, hrep, _⟩ := q_remove_head_spec h q a l sp bufsize hr
        have hstep : step h (some q) (Op.removeHead sp bufsize) =
            some (release h a, some q1, true) := by
          simp only [step, hrun]
        exact fin _ q1 l true 0 1 hstep hrep
          (fun bs => rfl) (fun bs => rfl) (by simp)

theorem q_size_rep {h : Heap} {q : queue_t} {l : List Nat} (hr : Rep h q l) :
    q_size (some q) = (l.length : Int) := by
  have hemp := rep_empty_iff hr
  unfold q_size
  by_cases hh : q.head = none
  · simp only [hh, if_true]
    rw [hemp.2.1.1 hh]; rfl
  · simp only [hh, if_false]
    exact hr.2.2.1

/-- Claim C6, as amended: for every sequence of calls of `q_insert_head`,
`q_insert_tail` and `q_remove_head` on the queue `q_new` returns (`malloc`
returning for each new element an address that is not allocated, or failing)
in which no insertion that succeeds is made at `size = INT_MAX`, the run
returns and `q_size` of the resulting queue is the number of insertions that
returned `true` minus the number of removals that returned `true`. -/
theorem q_size_counts (h0 : Heap) (ok : Bool) (ops : List Op)
    (hfresh : FreshRun h0 (q_new ok) ops) (hroom : RoomRun h0 (q_new ok) ops) :
    ∃ h1 q1 rs, run h0 (q_new ok) ops = some (h1, q1, rs) ∧ rs.length = ops.length ∧
      q_size q1 = (insertsOk ops rs : Int) - (removesOk ops rs : Int) := by
  cases ok with
  | false =>
    obtain ⟨rs, hrun, hrs, hi, hr⟩ := run_absent ops h0
    exact ⟨h0, none, rs, hrun, hrs, by rw [hi, hr]; rfl⟩
  | true =>
    obtain ⟨h1, q1, l1, rs, hrun, hrep, hrs, hcount⟩ :=
      run_spec ops h0 _ [] (rep_new h0) hfresh hroom
    refine ⟨h1, some q1, rs, hrun, hrs, ?_⟩
    rw [q_size_rep hrep, hcount]
    simp

/-- Claim C6 on a run of eight calls: three insertions and three removals
return `true`, and the size is 0. -/
theorem q_size_counts_witness :
    (∃ h1 q1 rs, run emptyHeap (q_new true) eightCalls = some (h1, q1, rs) ∧
      rs.length = eightCalls.length ∧
      q_size q1 = (insertsOk eightCalls rs : Int) - (removesOk eightCalls rs : Int)) ∧
    (run emptyHeap (q_new true) eightCalls).map (fun r => (r.2.2, q_size r.2.1)) =
      some ([true, true, false, true, true, true, true, false], 0) :=
  ⟨q_size_counts emptyHeap true eightCalls (by decide) (by decide), by decide⟩

/-! ## The reversal -/

/-- Claim C7: on a well-formed queue of two elements or more, `q_reverse` (with
fuel for its loop) makes the chain the reverse of the chain before, with the
same elements: every address holds the string it held and is allocated exactly
when it was, the old tail is the head, the old head is the tail and `size` is
unchanged. -/
theorem q_reverse_reverses (fuel : Nat) (h : Heap) (q : queue_t) (l : List Nat)
    (hr : Rep h q l) (h2 : 2 ≤ l.length) (hf : l.length < fuel) :
    ∃ h1 q1, q_reverse fuel h (some q) = some (h1, some q1) ∧ Rep h1 q1 l.reverse ∧
      (∀ a, (h1 a).map (fun n => n.value) = (h a).map (fun n => n.value)) ∧
      (∀ a, a ∉ l → h1 a = h a) ∧
      l.reverse.map (valOf h1) = (l.map (valOf h)).reverse ∧
      q1.head = q.tail ∧ q1.tail = q.head ∧ q1.size = q.size := by
  obtain ⟨h1, hrun, hrep, hfr⟩ := q_reverse_spec fuel h q l hr h2 hf
  refine ⟨h1, _, hrun, hrep, fun a => (hfr a).2, fun a ha => (hfr a).1 ha, ?_, rfl, rfl, rfl⟩
  rw [frame_map_valOf hfr, List.map_reverse]

/-- The scenario of claim C7: `insert_front` of "a", `insert_front` of "b" and
`q_reverse`, then `q_remove_head` gives "a" and then "b". -/
theorem q_reverse_reverses_witness :
    Rep abQueue.1 abQueue.2 [2, 1] ∧
    (∃ h1 q1, q_reverse 3 abQueue.1 (some abQueue.2) = some (h1, some q1) ∧
      Rep h1 q1 [2, 1].reverse ∧
      (∀ a, (h1 a).map (fun n => n.value) = (abQueue.1 a).map (fun n => n.value)) ∧
      (∀ a, a ∉ [2, 1] → h1 a = abQueue.1 a) ∧
      [2, 1].reverse.map (valOf h1) = ([2, 1].map (valOf abQueue.1)).reverse ∧
      q1.head = abQueue.2.tail ∧ q1.tail = abQueue.2.head ∧ q1.size = abQueue.2.size) ∧
    (q_reverse 3 abQueue.1 (some abQueue.2)).bind
        (fun r => (removeHeadN 2 r.1 r.2 8).map (fun t => t.2.2)) =
      some [(some (bytes "a"), true), (some (bytes "b"), true)] :=
  ⟨by decide, q_reverse_reverses 3 abQueue.1 abQueue.2 [2, 1] (by decide) (by decide)
    (by decide), by decide⟩

/-- Claim C8: `q_reverse` is an involution. On a well-formed queue of any
length, `q_reverse` twice (with fuel for its loop) gives back the heap and the
queue of the start: the same chain, head, tail and `size`. -/
theorem q_reverse_involution (fuel : Nat) (h : Heap) (q : queue_t) (l : List Nat)
    (hr : Rep h q l) (hf : l.length < fuel) :
    ∃ h1 q1, q_reverse fuel h (some q) = some (h1, some q1) ∧
      q_reverse fuel h1 (some q1) = some (h, some q) ∧ Rep h q l := by
  by_cases h2 : 2 ≤ l.length
  · obtain ⟨h1, hrun, hrep, hfr⟩ := q_reverse_spec fuel h q l hr h2 hf
    obtain ⟨h3, hrun3, hrep3, hfr3⟩ := q_reverse_spec fuel h1 _ l.reverse hrep
      (by rw [List.length_reverse]; exact h2) (by rw [List.length_reverse]; exact hf)
    rw [List.reverse_reverse] at hrep3
    have hfr13 : Frame l h h3 :=
      frame_trans hfr hfr3 (fun _ hx => hx) (fun _ hx => List.mem_reverse.1 hx)
    have hh : h3 = h := chain_frame_eq hr.1 hrep3.1 hfr13
    rw [hh] at hrun3
    exact ⟨h1, _, hrun, hrun3, hr⟩
  · have hsz : q.size < 2 := by rw [hr.2.2.1]; omega
    have hno : q_reverse fuel h (some q) = some (h, some q) := by
      simp only [q_reverse, if_pos hsz]
    exact ⟨h, q, hno, hno, hr⟩

/-- Claim C8 on the queue "banana", "apple", "cherry". -/
theorem q_reverse_involution_witness :
    ∃ h1 q1, q_reverse 4 fruitQueue.1 (some fruitQueue.2) = some (h1, some q1) ∧
      q_reverse 4 h1 (some q1) = some (fruitQueue.1, some fruitQueue.2) ∧
      Rep fruitQueue.1 fruitQueue.2 [1, 2, 3] :=
  q_reverse_involution 4 fruitQueue.1 fruitQueue.2 [1, 2, 3] (by decide) (by decide)

/-! ## Sorting what is sorted, and the calls without effect -/

theorem q_sort_sorted_values (fuel : Nat) (h : Heap) (q : queue_t) (l : List Nat)
    (hr : Rep h q l) (hf : 2 * l.length < fuel)
    (hs : List.Chain' SLe (l.map (valOf h))) :
    ∃ h1 q1 l1, q_sort fuel h (some q) = some (h1, some q1) ∧ Rep h1 q1 l1 ∧
      l1.map (valOf h1) = l.map (valOf h) := by
  obtain ⟨h1, q1, hrun, hrep, hfr, _⟩ := q_sort_spec fuel h q l hr hf
  have hperm := msortP_perm (valOf h) fuel l
  refine ⟨h1, q1, _, hrun, hrep, ?_⟩
  rw [frame_map_valOf hfr]
  have hsorted := msortP_sorted (valOf h) fuel l (by omega)
  refine List.eq_of_perm_of_sorted (r := SLe) (hperm.map _) ?_ ?_
  · exact List.pairwise_map.2 hsorted
  · exact List.chain'_iff_pairwise.1 hs

/-- Claim C9: `q_sort` is idempotent on the strings of the queue. On a
well-formed queue, the strings front to back after `q_sort` twice are those
after `q_sort` once; and when the strings are in ascending order of `strcmp`
before `q_sort`, they are the same, in the same order, after it. -/
theorem q_sort_idempotent (fuel : Nat) (h : Heap) (q : queue_t) (l : List Nat)
    (hr : Rep h q l) (hf : 2 * l.length < fuel) :
    (∃ h1 q1 l1 h2 q2 l2, q_sort fuel h (some q) = some (h1, some q1) ∧ Rep h1 q1 l1 ∧
      q_sort fuel h1 (some q1) = some (h2, some q2) ∧ Rep h2 q2 l2 ∧
      l2.map (valOf h2) = l1.map (valOf h1)) ∧
    (List.Chain' (fun a b => strcmp a b ≤ 0) (l.map (valOf h)) →
      ∃ h1 q1 l1, q_sort fuel h (some q) = some (h1, some q1) ∧ Rep h1 q1 l1 ∧
        l1.map (valOf h1) = l.map (valOf h)) := by
  refine ⟨?_, fun hs => q_sort_sorted_values fuel h q l hr hf hs⟩
  obtain ⟨h1, q1, hrun, hrep, hfr, _⟩ := q_sort_spec fuel h q l hr hf
  have hperm := msortP_perm (valOf h) fuel l
  have hsorted : List.Chain' SLe ((msortP (valOf h) fuel l).map (valOf h1)) := by
    apply List.Pairwise.chain'
    rw [frame_map_valOf hfr]
    exact List.pairwise_map.2 (msortP_sorted (valOf h) fuel l (by omega))
  obtain ⟨h2, q2, l2, hrun2, hrep2, hvals⟩ := q_sort_sorted_values fuel h1 q1 _ hrep
    (by rw [hperm.length_eq]; exact hf) hsorted
  exact ⟨h1, q1, _, h2, q2, l2, hrun, hrep, hrun2, hrep2, hvals⟩

/-- Claim C9 on the queue "banana", "apple", "cherry". -/
theorem q_sort_idempotent_witness :
    ((∃ h1 q1 l1 h2 q2 l2, q_sort 7 fruitQueue.1 (some fruitQueue.2) = some (h1, some q1) ∧
        Rep h1 q1 l1 ∧ q_sort 7 h1 (some q1) = some (h2, some q2) ∧ Rep h2 q2 l2 ∧
        l2.map (valOf h2) = l1.map (valOf h1)) ∧
      (List.Chain' (fun a b => strcmp a b ≤ 0) ([1, 2, 3].map (valOf fruitQueue.1)) →
        ∃ h1 q1 l1, q_sort 7 fruitQueue.1 (some fruitQueue.2) = some (h1, some q1) ∧
          Rep h1 q1 l1 ∧ l1.map (valOf h1) = [1, 2, 3].map (valOf fruitQueue.1))) ∧
    ((q_sort 7 fruitQueue.1 (some fruitQueue.2)).bind (fun r => q_sort 7 r.1 r.2)).map
        (fun r => queueValues 7 r.1 r.2) =
      some (some [bytes "apple", bytes "banana", bytes "cherry"]) :=
  ⟨q_sort_idempotent 7 fruitQueue.1 fruitQueue.2 [1, 2, 3] (by decide) (by decide), by decide⟩

/-- Claim C10: on an absent queue, and on a well-formed queue of no element or
of one, `q_sort` and `q_reverse` return, whatever the fuel, and leave the heap
and the queue as they are. -/
theorem q_sort_reverse_noop (fuel : Nat) (h : Heap) :
    q_sort fuel h none = some (h, none) ∧ q_reverse fuel h none = some (h, none) ∧
    ∀ (q : queue_t) (l : List Nat), Rep h q l → l.length ≤ 1 →
      q_sort fuel h (some q) = some (h, some q) ∧
      q_reverse fuel h (some q) = some (h, some q) := by
  refine ⟨rfl, rfl, ?_⟩
  intro q l hr hl
  have hsz : q.size < 2 := by rw [hr.2.2.1]; omega
  constructor
  · simp only [q_sort, if_pos hsz]
  · simp only [q_reverse, if_pos hsz]

/-- Claim C10 on the empty queue and on a queue of one element, without fuel. -/
theorem q_sort_reverse_noop_witness :
    (q_sort 0 emptyHeap (some { head := none, tail := none, size := 0 }) =
        some (emptyHeap, some { head := none, tail := none, size := 0 }) ∧
      q_reverse 0 emptyHeap (some { head := none, tail := none, size := 0 }) =
        some (emptyHeap, some { head := none, tail := none, size := 0 })) ∧
    (q_sort 0 (store emptyHeap 5 { value := bytes "a", next := none })
          (some { head := some 5, tail := some 5, size := 1 }) =
        some (store emptyHeap 5 { value := bytes "a", next := none },
          some { head := some 5, tail := some 5, size := 1 }) ∧
      q_reverse 0 (store emptyHeap 5 { value := bytes "a", next := none })
          (some { head := some 5, tail := some 5, size := 1 }) =
        some (store emptyHeap 5 { value := bytes "a", next := none },
          some { head := some 5, tail := some 5, size := 1 })) :=
  ⟨(q_sort_reverse_noop 0 emptyHeap).2.2 _ [] (by decide) (by decide),
    (q_sort_reverse_noop 0 (store emptyHeap 5 { value := bytes "a", next := none })).2.2 _ [5]
      (by decide) (by decide)⟩

/-! ## The removal -/

theorem removeFails_of_rep {h : Heap} {q : queue_t} {l : List Nat} (hr : Rep h q l) :
    RemoveFails (some q) ↔ l = [] := by
  have hemp := rep_empty_iff hr
  show (q.head = none ∨ q.size = 0) ↔ _
  rw [hemp.1, hemp.2.1]
  exact or_self_iff

/-- Claim C11: `q_remove_head` returns `false` exactly when the queue is
absent, its `head` is `NULL` or its `size` is 0, which for a well-formed queue
is when it is absent or has no element. When that holds it returns, with the
heap, the queue and the buffer of the caller as they were; when it does not
hold, a returned `bool` is `true`, and on a well-formed queue that has an
element the function returns `true`. -/
theorem q_remove_head_false (h : Heap) (sp : Option (List Nat)) (bufsize : Nat) :
    (∀ q : Option queue_t, RemoveFails q →
      q_remove_head h q sp bufsize = some (h, q, sp, false)) ∧
    (∀ (q : Option queue_t) (r : Heap × Option queue_t × Option (List Nat) × Bool),
      q_remove_head h q sp bufsize = some r → r.2.2.2 = false →
        RemoveFails q ∧ r = (h, q, sp, false)) ∧
    (∀ (q : queue_t) (l : List Nat), Rep h q l →
      (RemoveFails (some q) ↔ l = []) ∧
      (l ≠ [] → ∃ h1 q1 sp1, q_remove_head h (some q) sp bufsize = some (h1, q1, sp1, true))) := by
  have hfail : ∀ q : Option queue_t, RemoveFails q →
      q_remove_head h q sp bufsize = some (h, q, sp, false) := by
    intro q hq
    cases q with
    | none => rfl
    | some q =>
      cases hhead : q.head with
      | none => simp [q_remove_head, hhead]
      | some a =>
        have hz : q.size = 0 := by
          rcases hq with h1 | h1
          · rw [hhead] at h1; exact absurd h1 (by simp)
          · exact h1
        simp [q_remove_head, hhead, hz]
  refine ⟨hfail, ?_, ?_⟩
  · intro q r hrun hb
    by_cases hq : RemoveFails q
    · rw [hfail q hq] at hrun
      exact ⟨hq, (Option.some.inj hrun).symm⟩
    · exfalso
      cases q with
      | none => exact hq trivial
      | some q =>
        have hq2 : ¬ (q.head = none ∨ q.size = 0) := hq
        rw [not_or] at hq2
        cases hhead : q.head with
        | none => exact hq2.1 hhead
        | some a =>
          cases hn : h a with
          | none => simp [q_remove_head, hhead, hq2.2, hn] at hrun
          | some n =>
            simp only [q_remove_head, hhead, if_neg hq2.2, hn] at hrun
            have := Option.some.inj hrun
            rw [← this] at hb
            exact absurd hb (by simp)
  · intro q l hr
    refine ⟨removeFails_of_rep hr, fun hne => ?_⟩
    obtain ⟨a, t, rfl⟩ := List.exists_cons_of_ne_nil hne
    obtain ⟨n, q1, _, hrun, _⟩ := q_remove_head_spec h q a t sp bufsize hr
    exact ⟨_, _, _, hrun⟩

/-- The scenario of claim C11: `q_remove_head` on the queue `q_new` returns
gives `false`, leaves the state, and `q_size` is still 0. -/
theorem q_remove_head_false_witness :
    RemoveFails (q_new true) ∧
    q_remove_head emptyHeap (q_new true) (some []) 8 =
      some (emptyHeap, q_new true, some [], false) ∧
    q_size (q_new true) = 0 :=
  ⟨by decide, (q_remove_head_false emptyHeap (some []) 8).1 (q_new true) (by decide), by decide⟩

/-- Claim C12: on a well-formed queue whose chain is `a :: l`, `q_remove_head`
returns `true`; the element at `a` is released and nothing else in the heap
changes; the chain is `l`, so `head` is the old second element or `NULL`;
`size` is one less; `tail` is `NULL` exactly when the removed element was the
tail, which is when `l` is empty, and is unchanged otherwise. -/
theorem q_remove_head_chain (h : Heap) (q : queue_t) (a : Nat) (l : List Nat)
    (sp : Option (List Nat)) (bufsize : Nat) (hr : Rep h q (a :: l)) :
    ∃ n q1 sp1, h a = some n ∧
      q_remove_head h (some q) sp bufsize = some (release h a, some q1, sp1, true) ∧
      Rep (release h a) q1 l ∧ release h a a = none ∧ (∀ x, x ≠ a → release h a x = h x) ∧
      q1.head = n.next ∧ q1.head = l.head? ∧ q1.size = q.size - 1 ∧
      (some a = q.tail ↔ l = []) ∧
      q1.tail = (if some a = q.tail then none else q.tail) := by
  obtain ⟨n, q1, hn, hrun, hrep, hhead, htail⟩ := q_remove_head_spec h q a l sp bufsize hr
  have hnd := isChain_nodup hr.1
  have hal : a ∉ l := (List.nodup_cons.1 hnd).1
  have hiff : some a = q.tail ↔ l = [] := by
    rw [hr.2.1]
    constructor
    · intro e
      by_contra hne
      obtain ⟨b, t, rfl⟩ := List.exists_cons_of_ne_nil hne
      rw [List.getLast?_cons_cons] at e
      exact hal (List.mem_of_getLast?_eq_some e.symm)
    · intro e; rw [e]; rfl
  refine ⟨n, q1, _, hn, hrun, hrep, ?_, ?_, hhead, isChain_start hrep.1, ?_, hiff, ?_⟩
  · simp [release]
  · intro x hx; simp [release, hx]
  · rw [hrep.2.2.1, hr.2.2.1]; simp
  · rw [htail]
    by_cases hl : l = []
    · rw [if_pos hl, if_pos (hiff.2 hl)]
    · rw [if_neg hl, if_neg (fun e => hl (hiff.1 e))]

/-- Claim C12 on the queue "banana", "apple", "cherry". -/
theorem q_remove_head_chain_witness :
    ∃ n q1 sp1, fruitQueue.1 1 = some n ∧
      q_remove_head fruitQueue.1 (some fruitQueue.2) (some []) 16 =
        some (release fruitQueue.1 1, some q1, sp1, true) ∧
      Rep (release fruitQueue.1 1) q1 [2, 3] ∧ release fruitQueue.1 1 1 = none ∧
      (∀ x, x ≠ 1 → release fruitQueue.1 1 x = fruitQueue.1 x) ∧
      q1.head = n.next ∧ q1.head = [2, 3].head? ∧ q1.size = fruitQueue.2.size - 1 ∧
      (some 1 = fruitQueue.2.tail ↔ [2, 3] = []) ∧
      q1.tail = (if some 1 = fruitQueue.2.tail then none else fruitQueue.2.tail) :=
  q_remove_head_chain fruitQueue.1 fruitQueue.2 1 [2, 3] (some []) 16 (by decide)

theorem strlcpy_bytes (dst src : List Nat) (sz : Nat) (hsz : 1 ≤ sz) :
    snprintfBytes src sz = strlcpy dst src sz ++ [0] := by
  unfold snprintfBytes strlcpy
  rw [if_neg (by omega), if_neg (by omega)]

theorem strlcpy_take (dst src : List Nat) (sz : Nat) (hsz : 1 ≤ sz) :
    strlcpy dst src sz = src.take (min src.length (sz - 1)) := by
  unfold strlcpy
  rw [if_neg (by omega)]
  by_cases hle : src.length ≤ sz - 1
  · rw [Nat.min_eq_left hle, List.take_length, List.take_of_length_le hle]
  · rw [Nat.min_eq_right (by omega)]

/-- Claim C13: on a well-formed queue whose first string is `v`, with a buffer
of capacity `c ≥ 1`, `q_remove_head` returns `true`, removes the element and
leaves in the buffer the first `min (len v) (c - 1)` bytes of `v`, which the
bytes written follow with a terminator; the buffer has `v` in full exactly
when `len v ≤ c - 1`. Without a buffer the removal returns `true` as well. -/
theorem q_remove_head_copy (h : Heap) (q : queue_t) (a : Nat) (l : List Nat)
    (buf : List Nat) (c : Nat) (hr : Rep h q (a :: l)) (hc : 1 ≤ c) :
    (∃ q1, q_remove_head h (some q) (some buf) c =
        some (release h a, some q1,
          some ((valOf h a).take (min (valOf h a).length (c - 1))), true) ∧
      Rep (release h a) q1 l) ∧
    snprintfBytes (valOf h a) c = (valOf h a).take (min (valOf h a).length (c - 1)) ++ [0] ∧
    ((valOf h a).take (min (valOf h a).length (c - 1))).length = min (valOf h a).length (c - 1) ∧
    ((valOf h a).take (min (valOf h a).length (c - 1)) = valOf h a ↔
      (valOf h a).length ≤ c - 1) ∧
    (∀ c0, ∃ q1, q_remove_head h (some q) none c0 = some (release h a, some q1, none, true) ∧
      Rep (release h a) q1 l) := by
  obtain ⟨n, q1, hn, hrun, hrep, _⟩ := q_remove_head_spec h q a l (some buf) c hr
  have hv : valOf h a = n.value := valOf_some hn
  refine ⟨⟨q1, ?_, hrep⟩, ?_, ?_, ?_, ?_⟩
  · rw [hrun, hv, Option.map_some', strlcpy_take _ _ _ hc]
  · rw [strlcpy_bytes [] _ _ hc, strlcpy_take _ _ _ hc]
  · rw [List.length_take]; omega
  · constructor
    · intro e
      have := congrArg List.length e
      rw [List.length_take] at this
      omega
    · intro hle
      rw [Nat.min_eq_left hle, List.take_length]
  · intro c0
    obtain ⟨n0, q0, _, hrun0, hrep0, _⟩ := q_remove_head_spec h q a l none c0 hr
    exact ⟨q0, hrun0, hrep0⟩

/-- Claim C13 on the queue "banana", "apple", "cherry" with a buffer of 4
bytes: the buffer gets "ban", the call returns `true` and "banana" is removed. -/
theorem q_remove_head_copy_witness :
    ((∃ q1, q_remove_head fruitQueue.1 (some fruitQueue.2) (some []) 4 =
          some (release fruitQueue.1 1, some q1,
            some ((valOf fruitQueue.1 1).take (min (valOf fruitQueue.1 1).length (4 - 1))),
            true) ∧
        Rep (release fruitQueue.1 1) q1 [2, 3]) ∧
      snprintfBytes (valOf fruitQueue.1 1) 4 =
        (valOf fruitQueue.1 1).take (min (valOf fruitQueue.1 1).length (4 - 1)) ++ [0] ∧
      ((valOf fruitQueue.1 1).take (min (valOf fruitQueue.1 1).length (4 - 1))).length =
        min (valOf fruitQueue.1 1).length (4 - 1) ∧
      ((valOf fruitQueue.1 1).take (min (valOf fruitQueue.1 1).length (4 - 1)) =
          valOf fruitQueue.1 1 ↔ (valOf fruitQueue.1 1).length ≤ 4 - 1) ∧
      (∀ c0, ∃ q1, q_remove_head fruitQueue.1 (some fruitQueue.2) none c0 =
          some (release fruitQueue.1 1, some q1, none, true) ∧
        Rep (release fruitQueue.1 1) q1 [2, 3])) ∧
    (q_remove_head fruitQueue.1 (some fruitQueue.2) (some []) 4).map
        (fun r => (r.2.2.1, r.2.2.2, queueValues 4 r.1 r.2.1)) =
      some (some (bytes "ban"), true, some [bytes "apple", bytes "cherry"]) :=
  ⟨q_remove_head_copy fruitQueue.1 fruitQueue.2 1 [2, 3] [] 4 (by decide) (by decide),
    by decide⟩

/-! ## The insertions -/

/-- Claim C14: an insertion that fails leaves everything as it was.
`q_insert_head` and `q_insert_tail` return `false` exactly when the queue is
absent or one of the two calls of `malloc` fails; then they return the heap
and the queue they were given. `q_insert_head` always returns; `q_insert_tail`
returns when it fails, and returns `true` on a well-formed queue with room. -/
theorem insert_failure_atomic (h : Heap) (s : List Nat) :
    (∀ (q : Option queue_t) (newh : Ptr) (valOk : Bool),
      ∃ h1 q1 b, q_insert_head h q s newh valOk = some (h1, q1, b) ∧
        (b = false ↔ InsertFails q newh valOk) ∧ (b = false → h1 = h ∧ q1 = q)) ∧
    (∀ (q : Option queue_t) (newt : Ptr) (valOk : Bool), InsertFails q newt valOk →
      q_insert_tail h q s newt valOk = some (h, q, false)) ∧
    (∀ (q : Option queue_t) (newt : Ptr) (valOk : Bool) (r : Heap × Option queue_t × Bool),
      q_insert_tail h q s newt valOk = some r → r.2.2 = false →
        InsertFails q newt valOk ∧ r = (h, q, false)) ∧
    (∀ (q : queue_t) (l : List Nat) (a : Nat), Rep h q l → h a = none →
      (l.length : Int) < INT_MAX →
      ¬ InsertFails (some q) (some a) true ∧
      ∃ h1 q1, q_insert_tail h (some q) s (some a) true = some (h1, some q1, true)) := by
  have htail : ∀ (q : Option queue_t) (newt : Ptr) (valOk : Bool), InsertFails q newt valOk →
      q_insert_tail h q s newt valOk = some (h, q, false) := by
    intro q newt valOk hfail
    cases q with
    | none => rfl
    | some q =>
      cases newt with
      | none => rfl
      | some a =>
        cases valOk with
        | false => rfl
        | true =>
          rcases hfail with e | e | e
          · exact absurd e (by simp)
          · exact absurd e (by simp)
          · exact absurd e (by simp)
  refine ⟨?_, htail, ?_, ?_⟩
  · intro q newh valOk
    cases q with
    | none => exact ⟨h, none, false, rfl, by simp [InsertFails], fun _ => ⟨rfl, rfl⟩⟩
    | some q =>
      cases newh with
      | none => exact ⟨h, some q, false, rfl, by simp [InsertFails], fun _ => ⟨rfl, rfl⟩⟩
      | some a =>
        cases valOk with
        | false => exact ⟨h, some q, false, rfl, by simp [InsertFails], fun _ => ⟨rfl, rfl⟩⟩
        | true =>
          exact ⟨_, _, true, rfl, by simp [InsertFails], fun e => absurd e (by simp)⟩
  · intro q newt valOk r hrun hb
    by_cases hfail : InsertFails q newt valOk
    · rw [htail q newt valOk hfail] at hrun
      exact ⟨hfail, (Option.some.inj hrun).symm⟩
    · exfalso
      cases q with
      | none => exact hfail (Or.inl rfl)
      | some q =>
        cases newt with
        | none => exact hfail (Or.inr (Or.inl rfl))
        | some a =>
          cases valOk with
          | false => exact hfail (Or.inr (Or.inr rfl))
          | true =>
            simp only [q_insert_tail] at hrun
            split at hrun
            · rename_i hc; exact absurd hc (by simp)
            · split at hrun
              · have := Option.some.inj hrun
                rw [← this] at hb
                exact absurd hb (by simp)
              · split at hrun
                · exact absurd hrun (by simp)
                · have := Option.some.inj hrun
                  rw [← this] at hb
                  exact absurd hb (by simp)
  · intro q l a hr ha hroom
    refine ⟨by simp [InsertFails], ?_⟩
    obtain ⟨h1, q1, hrun, _⟩ := q_insert_tail_spec h q l s a hr ha hroom
    exact ⟨h1, q1, hrun⟩

/-- Claim C14 on the queue "banana", "apple", "cherry": a `malloc` that fails
for the string makes both insertions return `false` with the state as it was. -/
theorem insert_failure_atomic_witness :
    InsertFails (some fruitQueue.2) (some 9) false ∧
    (∃ h1 q1 b, q_insert_head fruitQueue.1 (some fruitQueue.2) (bytes "kiwi") (some 9) false =
        some (h1, q1, b) ∧
      (b = false ↔ InsertFails (some fruitQueue.2) (some 9) false) ∧
      (b = false → h1 = fruitQueue.1 ∧ q1 = some fruitQueue.2)) ∧
    q_insert_tail fruitQueue.1 (some fruitQueue.2) (bytes "kiwi") (some 9) false =
      some (fruitQueue.1, some fruitQueue.2, false) :=
  ⟨by decide,
    (insert_failure_atomic fruitQueue.1 (bytes "kiwi")).1 (some fruitQueue.2) (some 9) false,
    (insert_failure_atomic fruitQueue.1 (bytes "kiwi")).2.1 (some fruitQueue.2) (some 9) false
      (by decide)⟩

/-- Claim C15, as amended: on a well-formed queue with chain `l` and `size`
below `INT_MAX`, for a string `s` shorter than `INT_MAX` bytes, a
`q_insert_tail` that succeeds, with the new element at the address `a`, returns
`true` and gives the chain `l ++ [a]`: the element at `a` holds a copy of `s`,
the elements of `l` keep their strings and their order, only the `next` of the
old tail changes, `tail` is `a`, `head` is `a` when the queue was empty and
unchanged otherwise, and `size` is one more. -/
theorem q_insert_tail_chain (h : Heap) (q : queue_t) (l : List Nat) (s : List Nat) (a : Nat)
    (hr : Rep h q l) (ha : h a = none) (hroom : (l.length : Int) < INT_MAX)
    (hs : (s.length : Int) < INT_MAX) :
    ∃ h1 q1, q_insert_tail h (some q) s (some a) true = some (h1, some q1, true) ∧
      Rep h1 q1 (l ++ [a]) ∧ h1 a = some { value := s, next := none } ∧
      (l ++ [a]).map (valOf h1) = l.map (valOf h) ++ [s] ∧
      (∀ x, x ≠ a → (h1 x).map (fun n => n.value) = (h x).map (fun n => n.value)) ∧
      (∀ x, x ≠ a → some x ≠ q.tail → h1 x = h x) ∧
      q1.tail = some a ∧ q1.head = (if l = [] then some a else q.head) ∧
      q1.size = q.size + 1 := by
  obtain ⟨h1, q1, hrun, hrep, hnew, hvals, hsame, hhead⟩ :=
    q_insert_tail_spec h q l s a hr ha hroom
  rw [tailCopy_eq s hs] at hnew
  have hal : a ∉ l := not_mem_of_fresh hr.1 ha
  refine ⟨h1, q1, hrun, hrep, hnew, ?_, hvals, hsame, ?_, hhead, ?_⟩
  · rw [List.map_append]
    congr 1
    · exact List.map_congr_left (fun x hx =>
        valOf_of_map_eq (hvals x (fun (e : x = a) => hal (e ▸ hx))))
    · simp [valOf_some hnew]
  · rw [hrep.2.1]; simp
  · rw [hrep.2.2.1, hr.2.2.1]; simp

/-- Claim C15 on the queue "banana", "apple", "cherry" and the string "kiwi". -/
theorem q_insert_tail_chain_witness :
    (∃ h1 q1, q_insert_tail fruitQueue.1 (some fruitQueue.2) (bytes "kiwi") (some 9) true =
        some (h1, some q1, true) ∧
      Rep h1 q1 ([1, 2, 3] ++ [9]) ∧ h1 9 = some { value := bytes "kiwi", next := none } ∧
      ([1, 2, 3] ++ [9]).map (valOf h1) = [1, 2, 3].map (valOf fruitQueue.1) ++ [bytes "kiwi"] ∧
      (∀ x, x ≠ 9 →
        (h1 x).map (fun n => n.value) = (fruitQueue.1 x).map (fun n => n.value)) ∧
      (∀ x, x ≠ 9 → some x ≠ fruitQueue.2.tail → h1 x = fruitQueue.1 x) ∧
      q1.tail = some 9 ∧ q1.head = (if [1, 2, 3] = [] then some 9 else fruitQueue.2.head) ∧
      q1.size = fruitQueue.2.size + 1) ∧
    (q_insert_tail fruitQueue.1 (some fruitQueue.2) (bytes "kiwi") (some 9) true).map
        (fun r => (queueValues 9 r.1 r.2.1, q_size r.2.1)) =
      some (some [bytes "banana", bytes "apple", bytes "cherry", bytes "kiwi"], 4) :=
  ⟨q_insert_tail_chain fruitQueue.1 fruitQueue.2 [1, 2, 3] (bytes "kiwi") 9 (by decide)
    (by decide) (by decide) (by decide), by decide⟩

/-! ## The size and the teardown -/

/-- Claim C16: `q_size` returns 0 for an absent queue and for one whose `head`
is `NULL`, and the stored `size` otherwise; on a well-formed queue that is the
number of elements of the chain. The function reads the queue and returns an
`int`: it has no other result. -/
theorem q_size_value :
    q_size none = 0 ∧
    (∀ q : queue_t, q.head = none → q_size (some q) = 0) ∧
    (∀ q : queue_t, q.head ≠ none → q_size (some q) = q.size) ∧
    (∀ (h : Heap) (q : queue_t) (l : List Nat), Rep h q l →
      q_size (some q) = (l.length : Int)) := by
  refine ⟨rfl, ?_, ?_, fun h q l hr => q_size_rep hr⟩
  · intro q hq; simp [q_size, hq]
  · intro q hq; simp [q_size, hq]

/-- Claim C16 on the queue "banana", "apple", "cherry". -/
theorem q_size_value_witness :
    q_size (some fruitQueue.2) = (([1, 2, 3] : List Nat).length : Int) ∧
    q_size (some fruitQueue.2) = 3 :=
  ⟨q_size_value.2.2.2 fruitQueue.1 fruitQueue.2 [1, 2, 3] (by decide), by decide⟩

theorem freeLoop_spec : ∀ (l : List Nat) (h : Heap) (p : Ptr) (freed : List Freed),
    IsChain h p l →
    ∃ h1, freeLoop l.length h p freed = some (h1, none, freed ++ freesOf l) ∧
      (∀ x ∈ l, h1 x = none) ∧ (∀ x, x ∉ l → h1 x = h x) := by
  intro l
  induction l with
  | nil =>
    intro h p freed hc
    rw [isChain_nil] at hc
    subst hc
    exact ⟨h, by simp [freeLoop, freesOf], fun x hx => by simp at hx, fun _ _ => rfl⟩
  | cons a l ih =>
    intro h p freed hc
    have hnd := isChain_nodup hc
    have hal : a ∉ l := (List.nodup_cons.1 hnd).1
    rw [isChain_cons] at hc
    obtain ⟨hp, n, hn, hrest⟩ := hc
    subst hp
    have hrest1 : IsChain (release h a) n.next l :=
      isSeg_frame (fun x hx => by
        show (if x = a then none else h x) = h x
        rw [if_neg (fun (e : x = a) => hal (e ▸ hx))]) hrest
    obtain ⟨h1, hrun, hin, hout⟩ :=
      ih (release h a) n.next (freed ++ [Freed.value a, Freed.element a]) hrest1
    refine ⟨h1, ?_, ?_, ?_⟩
    · simp only [List.length_cons, freeLoop, getNext_some hn, getValue_some hn, hrun, freesOf]
      simp
    · intro x hx
      rcases List.mem_cons.1 hx with e | e
      · rw [e, hout a hal]; simp [release]
      · exact hin x e
    · intro x hx
      have hxa : x ≠ a := fun e => hx (by rw [e]; exact List.mem_cons_self _ _)
      rw [hout x (fun hm => hx (List.mem_cons_of_mem _ hm))]
      simp [release, hxa]

theorem count_freesOf (l : List Nat) (a : Nat) :
    (freesOf l).count (Freed.value a) = l.count a ∧
    (freesOf l).count (Freed.element a) = l.count a ∧
    (freesOf l).count Freed.queue = 0 := by
  induction l with
  | nil => simp [freesOf]
  | cons b l ih =>
    obtain ⟨h1, h2, h3⟩ := ih
    simp only [freesOf, List.count_cons, h1, h2, h3]
    by_cases hab : b = a
    · subst hab; simp
    · have hba : ¬ a = b := fun e => hab e.symm
      simp [hab, hba]

/-- Claim C17: `q_free` on an absent queue does nothing: the heap is as it was
and `free` is not called. On a well-formed queue with chain `l` its loop runs
`size = length l` times and never reads through a `NULL` head (it returns);
`head` is `NULL` when the loop ends. The calls of `free` are, for each element
of `l` front to back, one on its string and then one on the element, and then
one on the queue record; so each element of the chain and its string are freed
exactly once, nothing else is, and the queue record is freed once, at the end.
The elements of `l` are released from the heap and nothing else changes; with
an empty chain the heap is as it was and only the queue record is freed. -/
theorem q_free_complete (h : Heap) :
    q_free h none = some (h, []) ∧
    ∀ (q : queue_t) (l : List Nat), Rep h q l →
      ∃ h1, q.size.toNat = l.length ∧
        freeLoop q.size.toNat h q.head [] = some (h1, none, freesOf l) ∧
        q_free h (some q) = some (h1, freesOf l ++ [Freed.queue]) ∧
        (∀ a ∈ l, (freesOf l ++ [Freed.queue]).count (Freed.value a) = 1 ∧
          (freesOf l ++ [Freed.queue]).count (Freed.element a) = 1) ∧
        (∀ a, a ∉ l → (freesOf l ++ [Freed.queue]).count (Freed.value a) = 0 ∧
          (freesOf l ++ [Freed.queue]).count (Freed.element a) = 0) ∧
        (freesOf l ++ [Freed.queue]).count Freed.queue = 1 ∧
        (freesOf l ++ [Freed.queue]).getLast? = some Freed.queue ∧
        (∀ x ∈ l, h1 x = none) ∧ (∀ x, x ∉ l → h1 x = h x) ∧
        (l = [] → h1 = h ∧ freesOf l ++ [Freed.queue] = [Freed.queue]) := by
  refine ⟨rfl, ?_⟩
  intro q l hr
  obtain ⟨h1, hrun, hin, hout⟩ := freeLoop_spec l h q.head [] hr.1
  have hsz : q.size.toNat = l.length := by rw [hr.2.2.1]; simp
  have hnd := isChain_nodup hr.1
  rw [List.nil_append] at hrun
  refine ⟨h1, hsz, by rw [hsz]; exact hrun, ?_, ?_, ?_, ?_, ?_, hin, hout, ?_⟩
  · simp only [q_free, hsz, hrun]
  · intro a ha
    have hc := count_freesOf l a
    have h1c : l.count a = 1 := List.count_eq_one_of_mem hnd ha
    rw [List.count_append, List.count_append, hc.1, hc.2.1, h1c]
    simp
  · intro a ha
    have hc := count_freesOf l a
    have h0c : l.count a = 0 := List.count_eq_zero_of_not_mem ha
    rw [List.count_append, List.count_append, hc.1, hc.2.1, h0c]
    simp
  · rw [List.count_append, (count_freesOf l 0).2.2]
    simp
  · simp
  · intro hl
    refine ⟨?_, by rw [hl]; rfl⟩
    funext x
    exact hout x (by rw [hl]; simp)

/-- Claim C17 on the queue "banana", "apple", "cherry": the calls of `free`
are on the string and the element at 1, at 2 and at 3, and on the queue. -/
theorem q_free_complete_witness :
    (∃ h1, fruitQueue.2.size.toNat = ([1, 2, 3] : List Nat).length ∧
      freeLoop fruitQueue.2.size.toNat fruitQueue.1 fruitQueue.2.head [] =
        some (h1, none, freesOf [1, 2, 3]) ∧
      q_free fruitQueue.1 (some fruitQueue.2) = some (h1, freesOf [1, 2, 3] ++ [Freed.queue]) ∧
      (∀ a ∈ ([1, 2, 3] : List Nat),
        (freesOf [1, 2, 3] ++ [Freed.queue]).count (Freed.value a) = 1 ∧
        (freesOf [1, 2, 3] ++ [Freed.queue]).count (Freed.element a) = 1) ∧
      (∀ a, a ∉ ([1, 2, 3] : List Nat) →
        (freesOf [1, 2, 3] ++ [Freed.queue]).count (Freed.value a) = 0 ∧
        (freesOf [1, 2, 3] ++ [Freed.queue]).count (Freed.element a) = 0) ∧
      (freesOf [1, 2, 3] ++ [Freed.queue]).count Freed.queue = 1 ∧
      (freesOf [1, 2, 3] ++ [Freed.queue]).getLast? = some Freed.queue ∧
      (∀ x ∈ ([1, 2, 3] : List Nat), h1 x = none) ∧
      (∀ x, x ∉ ([1, 2, 3] : List Nat) → h1 x = fruitQueue.1 x) ∧
      (([1, 2, 3] : List Nat) = [] →
        h1 = fruitQueue.1 ∧ freesOf [1, 2, 3] ++ [Freed.queue] = [Freed.queue])) ∧
    (q_free fruitQueue.1 (some fruitQueue.2)).map (fun r => r.2) =
      some [Freed.value 1, Freed.element 1, Freed.value 2, Freed.element 2, Freed.value 3,
        Freed.element 3, Freed.queue] :=
  ⟨(q_free_complete fruitQueue.1).2 fruitQueue.2 [1, 2, 3] (by decide), by decide⟩

/-! ## Ties in the merge -/

theorem mergeP_sublists (v : Nat → List Nat) (l1 l2 : List Nat) :
    List.Sublist l1 (mergeP v l1 l2) ∧ List.Sublist l2 (mergeP v l1 l2) := by
  induction l1 generalizing l2 with
  | nil => rw [mergeP_nil_left]; exact ⟨List.nil_sublist _, List.Sublist.refl _⟩
  | cons a l1 ih1 =>
    induction l2 with
    | nil => rw [mergeP_nil_right]; exact ⟨List.Sublist.refl _, List.nil_sublist _⟩
    | cons b l2 ih2 =>
      rw [mergeP_cons_cons]
      split_ifs with hlt
      · exact ⟨List.cons_sublist_cons.2 (ih1 (b :: l2)).1, List.Sublist.cons a (ih1 (b :: l2)).2⟩
      · exact ⟨List.Sublist.cons b ih2.1, List.cons_sublist_cons.2 ih2.2⟩

theorem mergeP_tie_cross (v : Nat → List Nat) (x y : Nat) (hxy : v x = v y) :
    ∀ (l1 l2 : List Nat), l2.Pairwise (fun a b => SLe (v a) (v b)) → x ∈ l1 → y ∈ l2 →
      List.Sublist [y, x] (mergeP v l1 l2) := by
  intro l1
  induction l1 with
  | nil => intro l2 _ hx _; simp at hx
  | cons a l1 ih1 =>
    intro l2
    induction l2 with
    | nil => intro _ _ hy; simp at hy
    | cons b l2 ih2 =>
      intro hs hx hy
      have hb := List.pairwise_cons.1 hs
      rw [mergeP_cons_cons]
      split_ifs with hlt
      · -- the left element goes first: it is strictly below `b`, so it is not `x`
        have hxa : x ≠ a := by
          intro e
          have hby : SLe (v b) (v y) := by
            rcases List.mem_cons.1 hy with e1 | e1
            · rw [e1]; exact sle_refl _
            · exact hb.1 y e1
          rw [← hxy, e] at hby
          have := (strcmp_flip (v a) (v b)).1.1 hlt
          unfold SLe at hby
          omega
        have hx1 : x ∈ l1 := by
          rcases List.mem_cons.1 hx with e | e
          · exact absurd e hxa
          · exact e
        exact List.Sublist.cons a (ih1 (b :: l2) hs hx1 hy)
      · rcases List.mem_cons.1 hy with e | e
        · rw [e]
          refine List.cons_sublist_cons.2 (List.singleton_sublist.2 ?_)
          exact (mergeP_sublists v (a :: l1) l2).1.subset hx
        · exact List.Sublist.cons b (ih2 hb.2 hx e)

theorem msortP_tie (v : Nat → List Nat) (x y : Nat) (hxy : v x = v y) :
    ∀ (fuel : Nat) (l : List Nat), l.length ≤ fuel → List.Sublist [x, y] l →
      List.Sublist [y, x] (msortP v fuel l) := by
  intro fuel
  induction fuel with
  | zero =>
    intro l hf hsub
    have := hsub.length_le
    simp at this
    omega
  | succ f ih =>
    intro l hf hsub
    have hlen2 : 2 ≤ l.length := by
      have := hsub.length_le
      simpa using this
    rw [msortP, if_neg (by omega)]
    have hl1 : (l.take ((l.length + 1) / 2)).length ≤ f := by
      rw [List.length_take]; omega
    have hl2 : (l.drop ((l.length + 1) / 2)).length ≤ f := by
      rw [List.length_drop]; omega
    have hsub2 : List.Sublist [x, y]
        (l.take ((l.length + 1) / 2) ++ l.drop ((l.length + 1) / 2)) := by
      rw [List.take_append_drop]; exact hsub
    obtain ⟨p1, p2, hp, hp1, hp2⟩ := List.sublist_append_iff.1 hsub2
    have hms := mergeP_sublists v (msortP v f (l.take ((l.length + 1) / 2)))
      (msortP v f (l.drop ((l.length + 1) / 2)))
    match p1, hp, hp1 with
    | [], hp, _ =>
      -- both in the second half
      rw [List.nil_append] at hp
      rw [← hp] at hp2
      exact (ih _ hl2 hp2).trans hms.2
    | [x1], hp, hp1 =>
      -- one in each half
      have hp3 : x = x1 ∧ [y] = p2 := by simpa using hp
      rw [← hp3.1] at hp1
      rw [← hp3.2] at hp2
      have hx1 : x ∈ msortP v f (l.take ((l.length + 1) / 2)) :=
        (msortP_perm v f _).symm.subset (List.singleton_sublist.1 hp1)
      have hy1 : y ∈ msortP v f (l.drop ((l.length + 1) / 2)) :=
        (msortP_perm v f _).symm.subset (List.singleton_sublist.1 hp2)
      exact mergeP_tie_cross v x y hxy _ _ (msortP_sorted v f _ hl2) hx1 hy1
    | [x1, y1], hp, hp1 =>
      -- both in the first half
      have hp3 : x = x1 ∧ y = y1 ∧ [] = p2 := by simpa using hp
      rw [← hp3.1, ← hp3.2.1] at hp1
      exact (ih _ hl1 hp1).trans hms.1
    | _ :: _ :: _ :: _, hp, _ =>
      have := congrArg List.length hp
      simp at this

theorem mergeP_all_tie (v : Nat → List Nat) (l1 : List Nat) : ∀ (l2 : List Nat),
    (∀ a ∈ l1, ∀ b ∈ l2, ¬ strcmp (v a) (v b) < 0) → mergeP v l1 l2 = l2 ++ l1 := by
  cases l1 with
  | nil => intro l2 _; rw [mergeP_nil_left]; simp
  | cons a l1 =>
    intro l2
    induction l2 with
    | nil => intro _; rw [mergeP_nil_right]; simp
    | cons b l2 ih =>
      intro hall
      rw [mergeP_cons_cons,
        if_neg (hall a (List.mem_cons_self _ _) b (List.mem_cons_self _ _)),
        ih (fun x hx y hy => hall x hx y (List.mem_cons_of_mem _ hy))]
      simp

theorem msortP_all_equal (v : Nat → List Nat) : ∀ (fuel : Nat) (l : List Nat),
    l.length ≤ fuel → (∀ a ∈ l, ∀ b ∈ l, v a = v b) → msortP v fuel l = l.reverse := by
  intro fuel
  induction fuel with
  | zero =>
    intro l hf _
    have : l = [] := List.length_eq_zero.1 (Nat.le_zero.1 hf)
    subst this
    rfl
  | succ f ih =>
    intro l hf hall
    rw [msortP]
    split_ifs with hlt
    · match l, hlt with
      | [], _ => rfl
      | [a], _ => rfl
      | _ :: _ :: _, hlt => exact absurd hlt (by simp)
    · have hl1 : (l.take ((l.length + 1) / 2)).length ≤ f := by
        rw [List.length_take]; omega
      have hl2 : (l.drop ((l.length + 1) / 2)).length ≤ f := by
        rw [List.length_drop]; omega
      rw [ih _ hl1 (fun a ha b hb => hall a (List.mem_of_mem_take ha) b (List.mem_of_mem_take hb)),
        ih _ hl2 (fun a ha b hb => hall a (List.mem_of_mem_drop ha) b (List.mem_of_mem_drop hb)),
        mergeP_all_tie]
      · rw [← List.reverse_append, List.take_append_drop]
      · intro a ha b hb
        rw [hall a (List.mem_of_mem_take (List.mem_reverse.1 ha)) b
          (List.mem_of_mem_drop (List.mem_reverse.1 hb)), strcmp_self]
        omega

/-! ## The split of the sort -/

theorem splitStep_spec (fuel : Nat) (h : Heap) (head : Ptr) (l : List Nat)
    (hc : IsChain h head l) (h2 : 2 ≤ l.length) (hf : (l.length - 1) / 2 < fuel) :
    ∃ s ns, h s = some ns ∧ s ∈ l ∧
      splitStep fuel h head = some (store h s { ns with next := none }, ns.next) ∧
      IsChain (store h s { ns with next := none }) head (l.take ((l.length + 1) / 2)) ∧
      IsChain (store h s { ns with next := none }) ns.next (l.drop ((l.length + 1) / 2)) := by
  have hnd := isChain_nodup hc
  have hj : (l.length - 1) / 2 < l.length := by omega
  have hk : (l.length + 1) / 2 = (l.length - 1) / 2 + 1 := by omega
  match l, hc with
  | [], _ => simp at h2
  | [a], _ => simp at h2
  | a :: b :: l2, hc =>
    have hc0 := hc
    rw [isChain_cons] at hc
    obtain ⟨hp, n, hn, hrest⟩ := hc
    subst hp
    generalize hL : a :: b :: l2 = l at hc0 hnd hf hj hk h2 ⊢
    have hlen : l.length = (b :: l2).length + 1 := by rw [← hL]; simp
    have hjl : (l.length - 1) / 2 = (b :: l2).length / 2 := by rw [hlen]; simp
    obtain ⟨slow, hsplit, hslow⟩ := splitLoop_spec h fuel (b :: l2) l n.next (some a)
      hrest hc0 (by rw [← hjl]; exact hj) (by rw [← hjl]; exact hf)
    obtain ⟨s, htake, hdrop⟩ := take_drop_split l ((l.length - 1) / 2) hj
    rw [← hk] at htake hdrop
    rw [← hjl, hdrop, isChain_cons] at hslow
    obtain ⟨hs, ns, hns, hsrest⟩ := hslow
    subst hs
    have hlsplit : l = l.take ((l.length - 1) / 2) ++ s :: l.drop ((l.length + 1) / 2) := by
      rw [← hdrop, List.take_append_drop]
    have hnd2 : (l.take ((l.length - 1) / 2) ++ s :: l.drop ((l.length + 1) / 2)).Nodup := by
      rw [← hlsplit]; exact hnd
    have hnd3 := List.nodup_append.1 hnd2
    have hs1 : s ∉ l.take ((l.length - 1) / 2) := fun hm => hnd3.2.2 hm (List.mem_cons_self _ _)
    have hs2 : s ∉ l.drop ((l.length + 1) / 2) := (List.nodup_cons.1 hnd3.2.1).1
    have hfr1 := frame_store_next hns none
    have hseg : IsSeg h (some a)
        (l.take ((l.length - 1) / 2) ++ s :: l.drop ((l.length + 1) / 2)) none := by
      rw [← hlsplit]; exact hc0
    obtain ⟨m, hm1, hm2⟩ := isSeg_split hseg
    have hms : m = some s := ((isSeg_cons h m none s _).1 hm2).1
    subst hms
    refine ⟨s, ns, hns, by rw [hlsplit]; simp, ?_, ?_, ?_⟩
    · simp only [splitStep, getNext_some hn, hsplit, getNext_some hns, setNext_some hns]
    · rw [htake]
      refine isSeg_append (frame_seg hfr1 (fun x hx hm => hs1 ?_) hm1) ?_
      · rw [List.mem_singleton.1 hm] at hx; exact hx
      · rw [isSeg_cons]; exact ⟨rfl, _, store_same _ _ _, rfl⟩
    · exact frame_seg hfr1
        (fun x hx hm => hs2 (by rw [List.mem_singleton.1 hm] at hx; exact hx)) hsrest

theorem mergeSortList_succ (fuel : Nat) (h : Heap) (head : Ptr) (hn : Nat)
    (hget : getNext h head = some (some hn)) :
    mergeSortList (fuel + 1) h head =
      match splitStep fuel h head with
      | none => none
      | some (h1, fast) =>
        match mergeSortList fuel h1 head with
        | none => none
        | some (h2, left) =>
          match mergeSortList fuel h2 fast with
          | none => none
          | some (h3, right) => merge fuel h3 left right := by
  cases head with
  | none => simp [getNext] at hget
  | some a =>
    simp only [mergeSortList, splitStep, hget]
    cases splitLoop fuel h (some hn) (some a) with
    | none => rfl
    | some slow =>
      dsimp only
      cases getNext h slow with
      | none => rfl
      | some fast =>
        dsimp only
        cases setNext h slow none with
        | none => rfl
        | some h1 => rfl

/-- Claim C18: the split of `mergeSortList` on a chain of `n ≥ 2` elements
returns and cuts the chain in two: the first sub-chain, from `head`, has the
first `(n + 1) / 2` elements and the second, from `fast`, the other `n / 2`, in
their order, so that the two put together are the chain. Both have an element
and fewer than `n`; the two recursive calls return heads that are not `NULL`,
`merge` is called on them and returns, and that is what `mergeSortList`
returns. -/
theorem split_halves (fuel : Nat) (h : Heap) (head : Ptr) (l : List Nat)
    (hc : IsChain h head l) (h2 : 2 ≤ l.length) (hf : 2 * l.length ≤ fuel) :
    ∃ h1 fast l1 l2, splitStep fuel h head = some (h1, fast) ∧
      IsChain h1 head l1 ∧ IsChain h1 fast l2 ∧
      l1 = l.take ((l.length + 1) / 2) ∧ l2 = l.drop ((l.length + 1) / 2) ∧ l1 ++ l2 = l ∧
      l1.length = (l.length + 1) / 2 ∧ l2.length = l.length / 2 ∧
      0 < l1.length ∧ l1.length < l.length ∧ 0 < l2.length ∧ l2.length < l.length ∧
      (∀ x, (h1 x).map (fun n => n.value) = (h x).map (fun n => n.value)) ∧
      ∃ h2 left h3 right h4 p,
        mergeSortList fuel h1 head = some (h2, some left) ∧
        mergeSortList fuel h2 fast = some (h3, some right) ∧
        merge fuel h3 (some left) (some right) = some (h4, p) ∧
        mergeSortList (fuel + 1) h head = some (h4, p) := by
  obtain ⟨s, ns, hns, hsl, hrun, hleft, hright⟩ := splitStep_spec fuel h head l hc h2 (by omega)
  have hfr1 := frame_store_next hns none
  have hnd := isChain_nodup hc
  have hlen1 : (l.take ((l.length + 1) / 2)).length = (l.length + 1) / 2 := by
    rw [List.length_take]; omega
  have hlen2 : (l.drop ((l.length + 1) / 2)).length = l.length / 2 := by
    rw [List.length_drop]; omega
  have hndtd : (l.take ((l.length + 1) / 2) ++ l.drop ((l.length + 1) / 2)).Nodup := by
    rw [List.take_append_drop]; exact hnd
  have hdisj := (List.nodup_append.1 hndtd).2.2
  -- the two recursive calls
  obtain ⟨g2, left, hrun2, hch2, hfr2⟩ := mergeSortList_spec
    (valOf (store h s { ns with next := none })) fuel _ _ head hleft (fun _ => rfl)
    (by rw [hlen1]; omega)
  have hright2 : IsChain g2 ns.next (l.drop ((l.length + 1) / 2)) :=
    frame_seg hfr2 (fun x hx hm => hdisj hm hx) hright
  obtain ⟨g3, right, hrun3, hch3, hfr3⟩ := mergeSortList_spec
    (valOf (store h s { ns with next := none })) fuel _ _ ns.next hright2
    (fun x => frame_valOf hfr2 x) (by rw [hlen2]; omega)
  have hp1 := msortP_perm (valOf (store h s { ns with next := none })) fuel
    (l.take ((l.length + 1) / 2))
  have hp2 := msortP_perm (valOf (store h s { ns with next := none })) fuel
    (l.drop ((l.length + 1) / 2))
  have hch2b := frame_seg hfr3 (fun x hx hm => hdisj (hp1.subset hx) hm) hch2
  have hne1 : msortP (valOf (store h s { ns with next := none })) fuel
      (l.take ((l.length + 1) / 2)) ≠ [] := by
    intro he
    have := hp1.length_eq
    rw [he, hlen1] at this
    simp at this
    omega
  have hne2 : msortP (valOf (store h s { ns with next := none })) fuel
      (l.drop ((l.length + 1) / 2)) ≠ [] := by
    intro he
    have := hp2.length_eq
    rw [he, hlen2] at this
    simp at this
    omega
  obtain ⟨a1, t1, ht1⟩ := List.exists_cons_of_ne_nil hne1
  obtain ⟨b1, t2, ht2⟩ := List.exists_cons_of_ne_nil hne2
  rw [ht1] at hch2b
  rw [ht2] at hch3
  have hleftp : left = some a1 := ((isChain_cons _ _ _ _).1 hch2b).1
  have hrightp : right = some b1 := ((isChain_cons _ _ _ _).1 hch3).1
  have hpall : (a1 :: t1 ++ b1 :: t2).Perm l := by
    have := hp1.append hp2
    rwa [List.take_append_drop, ht1, ht2] at this
  obtain ⟨g4, p, hrun4, _, _⟩ := merge_spec (valOf (store h s { ns with next := none })) fuel
    a1 b1 t1 t2 g3 left right hch2b hch3 (hpall.nodup_iff.2 hnd)
    (fun x => by rw [frame_valOf hfr3, frame_valOf hfr2])
    (by rw [← List.length_append, hpall.length_eq]; omega)
  have hget : ∃ b, getNext h head = some (some b) := by
    match l, hc, h2 with
    | a :: b :: l2, hc, _ =>
      rw [isChain_cons] at hc
      obtain ⟨hp, n, hn, hrest⟩ := hc
      have hnb : n.next = some b := ((isChain_cons h _ b l2).1 hrest).1
      exact ⟨b, by rw [hp, getNext_some hn, hnb]⟩
  obtain ⟨b, hgetb⟩ := hget
  rw [hleftp] at hrun2 hrun4
  rw [hrightp] at hrun3 hrun4
  refine ⟨_, ns.next, _, _, hrun, hleft, hright, rfl, rfl, List.take_append_drop _ _, hlen1,
    hlen2, by rw [hlen1]; omega, by rw [hlen1]; omega, by rw [hlen2]; omega,
    by rw [hlen2]; omega, fun x => (hfr1 x).2, g2, a1, g3, b1, g4, p, hrun2, hrun3, hrun4, ?_⟩
  rw [mergeSortList_succ fuel h head b hgetb]
  simp only [hrun, hrun2, hrun3]
  exact hrun4

/-- Claim C18 on the chain of "banana", "apple", "cherry": the halves are the
first two elements and the third. -/
theorem split_halves_witness :
    (∃ h1 fast l1 l2, splitStep 6 fruitQueue.1 fruitQueue.2.head = some (h1, fast) ∧
      IsChain h1 fruitQueue.2.head l1 ∧ IsChain h1 fast l2 ∧
      l1 = [1, 2, 3].take (([1, 2, 3].length + 1) / 2) ∧
      l2 = [1, 2, 3].drop (([1, 2, 3].length + 1) / 2) ∧ l1 ++ l2 = [1, 2, 3] ∧
      l1.length = ([1, 2, 3].length + 1) / 2 ∧ l2.length = [1, 2, 3].length / 2 ∧
      0 < l1.length ∧ l1.length < [1, 2, 3].length ∧ 0 < l2.length ∧
      l2.length < [1, 2, 3].length ∧
      (∀ x, (h1 x).map (fun n => n.value) = (fruitQueue.1 x).map (fun n => n.value)) ∧
      ∃ h2 left h3 right h4 p,
        mergeSortList 6 h1 fruitQueue.2.head = some (h2, some left) ∧
        mergeSortList 6 h2 fast = some (h3, some right) ∧
        merge 6 h3 (some left) (some right) = some (h4, p) ∧
        mergeSortList (6 + 1) fruitQueue.1 fruitQueue.2.head = some (h4, p)) ∧
    (splitStep 6 fruitQueue.1 fruitQueue.2.head).map
        (fun r => (chainOf 6 r.1 fruitQueue.2.head, chainOf 6 r.1 r.2)) =
      some (some [1, 2], some [3]) :=
  ⟨split_halves 6 fruitQueue.1 fruitQueue.2.head [1, 2, 3] (by decide) (by decide) (by decide),
    by decide⟩

/-! ## The sort and equal strings -/

theorem q_sort_tie_spec (fuel : Nat) (h : Heap) (q : queue_t) (l : List Nat)
    (hr : Rep h q l) (hf : 2 * l.length < fuel) :
    ∃ h1 q1 l1, q_sort fuel h (some q) = some (h1, some q1) ∧ Rep h1 q1 l1 ∧
      l1.Perm l ∧ (∀ x, valOf h1 x = valOf h x) ∧
      (∀ x y, valOf h x = valOf h y → Before l x y → Before l1 y x) ∧
      ((∀ x ∈ l, ∀ y ∈ l, valOf h x = valOf h y) → l1 = l.reverse) := by
  obtain ⟨h1, q1, hrun, hrep, hfr, _⟩ := q_sort_spec fuel h q l hr hf
  refine ⟨h1, q1, _, hrun, hrep, msortP_perm _ _ _, fun x => frame_valOf hfr x, ?_, ?_⟩
  · intro x y hxy hb
    exact msortP_tie (valOf h) x y hxy fuel l (by omega) hb
  · intro hall
    exact msortP_all_equal (valOf h) fuel l (by omega) hall

theorem before_ne {l : List Nat} (hnd : l.Nodup) {x y : Nat} (hb : Before l x y) : x ≠ y := by
  have := List.Sublist.nodup hb hnd
  intro e
  rw [e] at this
  simp at this

theorem before_asymm : ∀ {l : List Nat}, l.Nodup → ∀ {x y : Nat}, Before l x y →
    Before l y x → False := by
  intro l
  induction l with
  | nil =>
    intro _ x y hb _
    have := List.Sublist.length_le hb
    simp at this
  | cons a t ih =>
    intro hnd x y hxy hyx
    have hat := List.nodup_cons.1 hnd
    rcases List.sublist_cons_iff.1 hxy with h1 | ⟨r1, hr1, hs1⟩
    · rcases List.sublist_cons_iff.1 hyx with h2 | ⟨r2, hr2, _⟩
      · exact ih hat.2 h1 h2
      · have hya : y = a := by
          have := congrArg List.head? hr2
          simpa using this
        exact hat.1 (hya ▸ h1.subset (by simp))
    · have hxa : x = a ∧ [y] = r1 := by simpa using hr1
      rw [← hxa.2] at hs1
      have hyt : y ∈ t := List.singleton_sublist.1 hs1
      rcases List.sublist_cons_iff.1 hyx with h2 | ⟨r2, hr2, _⟩
      · exact hat.1 (hxa.1 ▸ h2.subset (by simp))
      · have hya : y = a := by
          have := congrArg List.head? hr2
          simpa using this
        exact hat.1 (hya ▸ hyt)

/-- Claim C19: `q_sort` is not stable. The queue with "a" at the address 1 and
then "a" at the address 2 is well formed, its two elements are distinct and
hold equal strings, the first precedes the second, and after `q_sort` the
chain is 2, 1: the second precedes the first. -/
theorem q_sort_not_stable :
    Rep tieQueue.1 tieQueue.2 [1, 2] ∧ (1 : Nat) ≠ 2 ∧
    valOf tieQueue.1 1 = valOf tieQueue.1 2 ∧ Before [1, 2] 1 2 ∧
    (q_sort 5 tieQueue.1 (some tieQueue.2)).bind (fun r => queueChain 5 r.1 r.2) =
      some [2, 1] ∧
    ∃ h1 q1, q_sort 5 tieQueue.1 (some tieQueue.2) = some (h1, some q1) ∧
      Rep h1 q1 [2, 1] ∧ Before [2, 1] 2 1 ∧ ¬ Before [2, 1] 1 2 := by
  have hr : Rep tieQueue.1 tieQueue.2 [1, 2] := by decide
  refine ⟨hr, by decide, by decide, by decide, by decide, ?_⟩
  obtain ⟨h1, q1, l1, hrun, hrep, _, _, _, hrev⟩ :=
    q_sort_tie_spec 5 tieQueue.1 tieQueue.2 [1, 2] hr (by decide)
  have hl1 : l1 = [2, 1] := hrev (by decide)
  rw [hl1] at hrep
  exact ⟨h1, q1, hrun, hrep, by decide, by decide⟩

/-- Claim C20: the rule of `q_sort` on ties. On a well-formed queue with chain
`l`, `q_sort` returns a well-formed queue with a chain `l1`, a permutation of
`l` with the same strings, in which two elements that hold equal strings are in
the order opposite to the one they had: when `x` precedes `y` in `l` (they are
then distinct), `y` precedes `x` in `l1`. When all the strings are equal, `l1`
is the reverse of `l`, the chain `q_reverse` gives. -/
theorem q_sort_tie_order (fuel : Nat) (h : Heap) (q : queue_t) (l : List Nat)
    (hr : Rep h q l) (hf : 2 * l.length < fuel) :
    ∃ h1 q1 l1, q_sort fuel h (some q) = some (h1, some q1) ∧ Rep h1 q1 l1 ∧
      l1.Perm l ∧ (∀ x, valOf h1 x = valOf h x) ∧
      (∀ x y, valOf h x = valOf h y → Before l x y →
        x ≠ y ∧ Before l1 y x ∧ ¬ Before l1 x y) ∧
      ((∀ x ∈ l, ∀ y ∈ l, valOf h x = valOf h y) →
        l1 = l.reverse ∧
        ∃ h2 q2, q_reverse fuel h (some q) = some (h2, some q2) ∧ Rep h2 q2 l.reverse) := by
  obtain ⟨h1, q1, l1, hrun, hrep, hperm, hvals, htie, hrev⟩ :=
    q_sort_tie_spec fuel h q l hr hf
  have hnd := isChain_nodup hr.1
  have hnd1 := isChain_nodup hrep.1
  refine ⟨h1, q1, l1, hrun, hrep, hperm, hvals, ?_, ?_⟩
  · intro x y hxy hb
    have hne := before_ne hnd hb
    have hb1 := htie x y hxy hb
    refine ⟨hne, hb1, ?_⟩
    exact fun hb2 => before_asymm hnd1 hb2 hb1
  · intro hall
    refine ⟨hrev hall, ?_⟩
    by_cases h2 : 2 ≤ l.length
    · obtain ⟨g, hrun2, hrep2, _⟩ := q_reverse_spec fuel h q l hr h2 (by omega)
      exact ⟨g, _, hrun2, hrep2⟩
    · have hsz : q.size < 2 := by rw [hr.2.2.1]; omega
      refine ⟨h, q, by simp only [q_reverse, if_pos hsz], ?_⟩
      have hl : l.reverse = l := by
        match l, h2 with
        | [], _ => rfl
        | [a], _ => rfl
        | _ :: _ :: _, h2 => exact absurd (by simp) h2
      rw [hl]; exact hr

/-- Claim C20 on the queue "b", "a", "b", "a", "a" at the addresses 1 to 5:
after `q_sort` the chain is 5, 4, 2, 3, 1. -/
theorem q_sort_tie_order_witness :
    (∃ h1 q1 l1, q_sort 11 babaaQueue.1 (some babaaQueue.2) = some (h1, some q1) ∧
      Rep h1 q1 l1 ∧ l1.Perm [1, 2, 3, 4, 5] ∧ (∀ x, valOf h1 x = valOf babaaQueue.1 x) ∧
      (∀ x y, valOf babaaQueue.1 x = valOf babaaQueue.1 y → Before [1, 2, 3, 4, 5] x y →
        x ≠ y ∧ Before l1 y x ∧ ¬ Before l1 x y) ∧
      ((∀ x ∈ [1, 2, 3, 4, 5], ∀ y ∈ [1, 2, 3, 4, 5],
          valOf babaaQueue.1 x = valOf babaaQueue.1 y) →
        l1 = [1, 2, 3, 4, 5].reverse ∧
        ∃ h2 q2, q_reverse 11 babaaQueue.1 (some babaaQueue.2) = some (h2, some q2) ∧
          Rep h2 q2 [1, 2, 3, 4, 5].reverse)) ∧
    (q_sort 11 babaaQueue.1 (some babaaQueue.2)).bind (fun r => queueChain 11 r.1 r.2) =
      some [5, 4, 2, 3, 1] :=
  ⟨q_sort_tie_order 11 babaaQueue.1 babaaQueue.2 [1, 2, 3, 4, 5] (by decide) (by decide),
    by decide⟩

/-! ## Beyond the range of `int` -/

theorem fullHeap_chain : ∀ (m k : Nat), k + m = 2147483647 →
    IsChain fullHeap (if m = 0 then none else some k) (List.range' k m) := by
  intro m
  induction m with
  | zero => intro k _; exact rfl
  | succ m ih =>
    intro k hk
    rw [List.range'_succ, isChain_cons, if_neg (Nat.succ_ne_zero m)]
    have hlt : k < 2147483647 := by omega
    refine ⟨rfl, { value := [], next := if k + 1 < 2147483647 then some (k + 1) else none },
      ?_, ?_⟩
    · show (if k < 2147483647 then _ else _) = _
      rw [if_pos hlt]
    · have hnext : (if k + 1 < 2147483647 then some (k + 1) else none) =
          (if m = 0 then none else some (k + 1)) := by
        by_cases hm : m = 0
        · rw [if_pos hm, if_neg (by omega)]
        · rw [if_neg hm, if_pos (by omega)]
      show IsChain fullHeap (if k + 1 < 2147483647 then some (k + 1) else none) _
      rw [hnext]
      exact ih (k + 1) (by omega)

theorem rep_full : Rep fullHeap fullQueue (List.range' 0 2147483647) := by
  refine ⟨?_, ?_, ?_, ?_⟩
  · have := fullHeap_chain 2147483647 0 (Nat.zero_add _)
    rw [if_neg (by decide)] at this
    exact this
  · rw [List.getLast?_range', if_neg (by decide)]
    rfl
  · rw [List.length_range']
    rfl
  · rw [List.length_range']
    exact Int.le_refl _

theorem not_wf_of_neg {h : Heap} {q : queue_t} (hq : q.size < 0) : ¬ WellFormed h q := by
  rintro ⟨l, _, hs, _⟩
  rw [hs] at hq
  exact absurd hq (by omega)

theorem fullHeap_fresh : fullHeap 2147483647 = none := by
  show (if 2147483647 < 2147483647 then _ else _) = _
  rw [if_neg (by decide)]

theorem fullHeap_tail : fullHeap 2147483646 = some { value := [], next := none } := by
  show (if 2147483646 < 2147483647 then _ else _) = _
  rw [if_pos (by decide), if_neg (by decide)]

theorem fullQueue_insert_tail (s : List Nat) :
    q_insert_tail fullHeap (some fullQueue) s (some 2147483647) true =
      some (store (store fullHeap 2147483647 { value := tailCopy s, next := none }) 2147483646
          { value := [], next := some 2147483647 },
        some { head := some 0, tail := some 2147483647, size := -2147483648 }, true) := by
  have h1 : store fullHeap 2147483647 { value := tailCopy s, next := none } 2147483646 =
      some { value := [], next := none } := by
    rw [store_other _ _ (by decide)]; exact fullHeap_tail
  have hsz : ¬ fullQueue.size = 0 := by decide
  have hw : toInt32 (fullQueue.size + 1) = -2147483648 := by decide
  unfold tailCopy at h1
  simp only [q_insert_tail, Bool.not_true, Bool.false_eq_true, if_false, if_neg hsz]
  rw [show fullQueue.tail = some 2147483646 from rfl, setNext_some h1, hw]
  rfl

/-- The claim C3 fails at a queue of `INT_MAX` elements. `fullQueue` is well
formed, with `size = INT_MAX`, and the address `INT_MAX` is not allocated;
`q_insert_head` and `q_insert_tail` of a new element there return `true` with
`size = -2147483648`, and the queue they leave is not well formed. -/
theorem wellFormed_invariant_overflow :
    WellFormed fullHeap fullQueue ∧ fullQueue.size = INT_MAX ∧
    fullHeap 2147483647 = none ∧
    (∃ h1 q1, q_insert_head fullHeap (some fullQueue) [] (some 2147483647) true =
        some (h1, some q1, true) ∧ q1.size = -2147483648 ∧ ¬ WellFormed h1 q1) ∧
    (∃ h1 q1, q_insert_tail fullHeap (some fullQueue) [] (some 2147483647) true =
        some (h1, some q1, true) ∧ q1.size = -2147483648 ∧ ¬ WellFormed h1 q1) := by
  refine ⟨wf_of_rep rep_full, rfl, fullHeap_fresh, ?_, ?_⟩
  · refine ⟨_, { head := some 2147483647, tail := some 2147483646, size := -2147483648 },
      rfl, rfl, not_wf_of_neg (by decide)⟩
  · exact ⟨_, _, fullQueue_insert_tail [], rfl, not_wf_of_neg (by decide)⟩

theorem longString_length : longString.length = 4294967299 := List.length_replicate _ _

theorem longString_take (k : Nat) (hk : k ≤ 4294967299) :
    longString.take k = List.replicate k 120 := by
  unfold longString
  rw [List.take_replicate, Nat.min_eq_left hk]

theorem replicate_ne_longString (k : Nat) (hk : k < 4294967299) :
    List.replicate k 120 ≠ longString := by
  intro e
  have := congrArg List.length e
  rw [longString_length, List.length_replicate] at this
  omega

theorem tailCopy_longString : tailCopy longString = List.replicate 4 120 := by
  unfold tailCopy strncpy
  rw [longString_length]
  have h4 : toSizeT (toInt32 (((4294967299 : Nat) : Int) + 1)) = 4 := by decide
  rw [h4]
  exact longString_take 4 (by decide)

theorem headCopy_longString : headCopy longString = List.replicate 3 120 := by
  unfold headCopy strlcpy
  rw [longString_length]
  have h4 : toSizeT (toInt32 (((4294967299 : Nat) : Int) + 1)) = 4 := by decide
  rw [h4, if_neg (by decide)]
  exact longString_take 3 (by decide)

theorem q_insert_tail_new (h : Heap) (s : List Nat) (a : Nat) :
    q_insert_tail h (q_new true) s (some a) true =
      some (store h a { value := tailCopy s, next := none },
        some { head := some a, tail := some a, size := 1 }, true) := rfl

theorem q_insert_head_new (h : Heap) (s : List Nat) (a : Nat) :
    q_insert_head h (q_new true) s (some a) true =
      some (store h a { value := headCopy s, next := none },
        some { head := some a, tail := some a, size := 1 }, true) := rfl

/-- The claim C15 fails for a string of `2 ^ 32 + 3` bytes and at a queue of
`INT_MAX` elements. `q_insert_tail` of `longString` in the empty queue returns
`true` and the new element holds 4 bytes, not a copy of the string;
`q_insert_tail` in `fullQueue`, well formed with `INT_MAX` elements, returns
`true` with `size = -2147483648`, which is not `size + 1`. -/
theorem q_insert_tail_chain_overflow :
    (Rep emptyHeap { head := none, tail := none, size := 0 } [] ∧
      q_insert_tail emptyHeap (some { head := none, tail := none, size := 0 }) longString
          (some 1) true =
        some (store emptyHeap 1 { value := List.replicate 4 120, next := none },
          some { head := some 1, tail := some 1, size := 1 }, true) ∧
      List.replicate 4 120 ≠ longString) ∧
    (Rep fullHeap fullQueue (List.range' 0 2147483647) ∧ fullHeap 2147483647 = none ∧
      ∃ h1 q1, q_insert_tail fullHeap (some fullQueue) [] (some 2147483647) true =
          some (h1, some q1, true) ∧
        q1.size = -2147483648 ∧ q1.size ≠ fullQueue.size + 1) := by
  refine ⟨⟨rep_new _, ?_, replicate_ne_longString 4 (by decide)⟩, rep_full, fullHeap_fresh,
    _, _, fullQueue_insert_tail [], rfl, by decide⟩
  have := q_insert_tail_new emptyHeap longString 1
  rw [tailCopy_longString] at this
  exact this

theorem toInt32_succ (x : Int) : toInt32 (toInt32 x + 1) = toInt32 (x + 1) := by
  unfold toInt32
  omega

theorem q_remove_head_fails (h : Heap) (q : queue_t) (sp : Option (List Nat)) (bufsize : Nat)
    (hq : q.size = 0) : q_remove_head h (some q) sp bufsize = some (h, some q, sp, false) := by
  cases hhead : q.head with
  | none => simp [q_remove_head, hhead]
  | some a => simp [q_remove_head, hhead, hq]

theorem insertTailList_wrap : ∀ (xs : List (List Nat × Nat)) (h : Heap) (q : queue_t)
    (k t : Nat) (n : list_ele_t), 1 ≤ k → k + xs.length ≤ 4294967296 →
    q.size = toInt32 (k : Int) → q.tail = some t → h t = some n →
    (∀ x ∈ xs, h x.2 = none) → (xs.map Prod.snd).Nodup →
    ∃ h1 q1, insertTailList h (some q) xs = some (h1, some q1, List.replicate xs.length true) ∧
      q1.size = toInt32 ((k + xs.length : Nat) : Int) ∧ q1.head = q.head := by
  intro xs
  induction xs with
  | nil =>
    intro h q k t n _ _ hs _ _ _ _
    exact ⟨h, q, rfl, by simpa using hs, rfl⟩
  | cons x xs ih =>
    intro h q k t n hk hlen hs ht hn hfresh hnd
    simp only [List.length_cons] at hlen
    simp only [List.map_cons, List.nodup_cons] at hnd
    have hax : h x.2 = none := hfresh x (List.mem_cons_self _ _)
    have hta : t ≠ x.2 := fun e => by rw [e, hax] at hn; exact absurd hn (by simp)
    have hsz : ¬ q.size = 0 := by
      rw [hs]; unfold toInt32; omega
    have h1t : store h x.2 { value := tailCopy x.1, next := none } t = some n := by
      rw [store_other _ _ hta]; exact hn
    unfold tailCopy at h1t
    have hstep : q_insert_tail h (some q) x.1 (some x.2) true =
        some (store (store h x.2 { value := tailCopy x.1, next := none }) t
            { n with next := some x.2 },
          some { head := q.head, tail := some x.2, size := toInt32 (q.size + 1) }, true) := by
      simp only [q_insert_tail, Bool.not_true, Bool.false_eq_true, if_false, if_neg hsz, ht,
        setNext_some h1t]
      rfl
    obtain ⟨h2, q2, hrun, hsize, hhead⟩ := ih
      (store (store h x.2 { value := tailCopy x.1, next := none }) t { n with next := some x.2 })
      { head := q.head, tail := some x.2, size := toInt32 (q.size + 1) } (k + 1) x.2
      { value := tailCopy x.1, next := none } (by omega) (by omega)
      (by show toInt32 (q.size + 1) = _; rw [hs, toInt32_succ]; push_cast; rfl) rfl
      (by rw [store_other _ _ (fun e => hta e.symm), store_same])
      (fun y hy => by
        have hy0 : h y.2 = none := hfresh y (List.mem_cons_of_mem _ hy)
        have hya : y.2 ≠ x.2 := fun e => hnd.1 (by rw [← e]; exact List.mem_map_of_mem _ hy)
        have hyt : y.2 ≠ t := fun e => by rw [e, hn] at hy0; exact absurd hy0 (by simp)
        rw [store_other _ _ hyt, store_other _ _ hya]; exact hy0)
      hnd.2
    refine ⟨h2, q2, ?_, ?_, hhead⟩
    · simp only [insertTailList, hstep, hrun, List.length_cons, List.replicate_succ]
    · rw [hsize]
      congr 1
      simp only [List.length_cons]
      push_cast
      omega

theorem insertHeadList_wrap : ∀ (xs : List (List Nat × Nat)) (h : Heap) (q : queue_t)
    (k : Int), q.size = toInt32 k →
    ∃ h1 q1, insertHeadList h (some q) xs = some (h1, some q1, List.replicate xs.length true) ∧
      q1.size = toInt32 (k + (xs.length : Int)) ∧
      (q.head ≠ none ∨ xs ≠ [] → q1.head ≠ none) := by
  intro xs
  induction xs with
  | nil =>
    intro h q k hs
    refine ⟨h, q, rfl, by simpa using hs, ?_⟩
    intro hq
    rcases hq with hq | hq
    · exact hq
    · exact absurd rfl hq
  | cons x xs ih =>
    intro h q k hs
    have hstep : q_insert_head h (some q) x.1 (some x.2) true =
        some (store h x.2 { value := headCopy x.1, next := q.head },
          some { head := some x.2, tail := if q.size = 0 then some x.2 else q.tail,
                 size := toInt32 (q.size + 1) }, true) := rfl
    obtain ⟨h2, q2, hrun, hsize, hhead⟩ := ih (store h x.2 { value := headCopy x.1, next := q.head })
      { head := some x.2, tail := if q.size = 0 then some x.2 else q.tail,
        size := toInt32 (q.size + 1) } (k + 1)
      (by show toInt32 (q.size + 1) = _; rw [hs, toInt32_succ])
    refine ⟨h2, q2, ?_, ?_, fun _ => hhead (Or.inl (by simp))⟩
    · simp only [insertHeadList, hstep, hrun, List.length_cons, List.replicate_succ]
    · rw [hsize]
      congr 1
      simp only [List.length_cons]
      push_cast
      omega

theorem emptyStrings_length (n : Nat) : (emptyStrings n).length = n := by
  unfold emptyStrings
  rw [List.length_map, List.length_range']

theorem emptyStrings_snd (n : Nat) : (emptyStrings n).map Prod.snd = List.range' 0 n := by
  unfold emptyStrings
  rw [List.map_map]
  exact List.map_id _

theorem emptyStrings_nodup (n : Nat) : ((emptyStrings n).map Prod.snd).Nodup := by
  rw [emptyStrings_snd]
  exact List.nodup_range' 0 n

theorem insertTailList_emptyStrings (n : Nat) (hn : n + 1 ≤ 4294967296) :
    ∃ h1 q1, insertTailList emptyHeap (q_new true) (emptyStrings (n + 1)) =
        some (h1, some q1, List.replicate (n + 1) true) ∧
      q1.size = toInt32 ((n + 1 : Nat) : Int) ∧ q1.head = some 0 := by
  have hsplit : emptyStrings (n + 1) =
      ([], 0) :: (List.range' 1 n).map (fun i => (([] : List Nat), i)) := by
    unfold emptyStrings
    rw [List.range'_succ]
    rfl
  have hlen : ((List.range' 1 n).map (fun i => (([] : List Nat), i))).length = n := by
    rw [List.length_map, List.length_range']
  have hsnd : ((List.range' 1 n).map (fun i => (([] : List Nat), i))).map Prod.snd =
      List.range' 1 n := by
    rw [List.map_map]; exact List.map_id _
  obtain ⟨h1, q1, hrun, hsize, hhead⟩ := insertTailList_wrap
    ((List.range' 1 n).map (fun i => (([] : List Nat), i)))
    (store emptyHeap 0 { value := tailCopy [], next := none })
    { head := some 0, tail := some 0, size := 1 } 1 0 { value := tailCopy [], next := none }
    (Nat.le_refl 1) (by rw [hlen]; omega) (by decide) rfl (store_same _ _ _)
    (fun y hy => by
      have hmem : y.2 ∈ List.range' 1 n := by
        rw [← hsnd]; exact List.mem_map_of_mem _ hy
      have hy1 : 1 ≤ y.2 := (List.mem_range'_1.1 hmem).1
      rw [store_other _ _ (by omega)]
      rfl)
    (by rw [hsnd]; exact List.nodup_range' 1 n)
  rw [hlen] at hrun hsize
  refine ⟨h1, q1, ?_, ?_, hhead⟩
  · rw [hsplit]
    simp only [insertTailList, q_insert_tail_new, hrun, List.replicate_succ]
  · rw [hsize, Nat.add_comm]

theorem run_insertHeadOps : ∀ (xs : List (List Nat × Nat)) (h : Heap) (q : Option queue_t),
    run h q (insertHeadOps xs) = insertHeadList h q xs := by
  intro xs
  induction xs with
  | nil => intro h q; rfl
  | cons x xs ih =>
    intro h q
    show (match q_insert_head h q x.1 (some x.2) true with
      | none => none
      | some (h1, q1, b) =>
        match run h1 q1 (insertHeadOps xs) with
        | none => none
        | some (h2, q2, bs) => some (h2, q2, b :: bs)) = _
    simp only [ih, insertHeadList]

theorem counts_insertHeadOps : ∀ (xs : List (List Nat × Nat)),
    insertsOk (insertHeadOps xs) (List.replicate xs.length true) = xs.length ∧
    removesOk (insertHeadOps xs) (List.replicate xs.length true) = 0 := by
  intro xs
  induction xs with
  | nil => exact ⟨rfl, rfl⟩
  | cons x xs ih =>
    constructor
    · show insertsOk (insertHeadOps xs) (List.replicate xs.length true) + 1 = _
      rw [ih.1]; rfl
    · show removesOk (insertHeadOps xs) (List.replicate xs.length true) = 0
      exact ih.2

theorem freshRun_insertHeadOps : ∀ (xs : List (List Nat × Nat)) (h : Heap) (q : queue_t),
    (∀ x ∈ xs, h x.2 = none) → (xs.map Prod.snd).Nodup →
    FreshRun h (some q) (insertHeadOps xs) := by
  intro xs
  induction xs with
  | nil => intro _ _ _ _; exact trivial
  | cons x xs ih =>
    intro h q hfresh hnd
    simp only [List.map_cons, List.nodup_cons] at hnd
    show h x.2 = none ∧ FreshRun (store h x.2 { value := headCopy x.1, next := q.head })
      (some { head := some x.2, tail := if q.size = 0 then some x.2 else q.tail,
              size := toInt32 (q.size + 1) }) (insertHeadOps xs)
    refine ⟨hfresh x (List.mem_cons_self _ _), ih _ _ (fun y hy => ?_) hnd.2⟩
    have hya : y.2 ≠ x.2 := fun e => hnd.1 (by rw [← e]; exact List.mem_map_of_mem _ hy)
    rw [store_other _ _ hya]
    exact hfresh y (List.mem_cons_of_mem _ hy)

/-- The claim C4 fails for a string of `2 ^ 32 + 3` bytes and for `2 ^ 32`
strings. `q_insert_tail` of `longString` in the empty queue returns `true`, and
`q_remove_head` with a buffer of `2 ^ 32 + 4` bytes, longer than the string,
returns `true` with 4 bytes in the buffer, not the string. After `2 ^ 32` calls
of `q_insert_tail` that return `true`, `q_remove_head` returns `false`. -/
theorem fifo_order_overflow :
    (insertTailList emptyHeap (q_new true) [(longString, 1)] =
        some (store emptyHeap 1 { value := List.replicate 4 120, next := none },
          some { head := some 1, tail := some 1, size := 1 }, [true]) ∧
      longString.length < 4294967300 ∧
      removeHeadN 1 (store emptyHeap 1 { value := List.replicate 4 120, next := none })
          (some { head := some 1, tail := some 1, size := 1 }) 4294967300 =
        some (release (store emptyHeap 1 { value := List.replicate 4 120, next := none }) 1,
          some { head := none, tail := none, size := 0 },
          [(some (List.replicate 4 120), true)]) ∧
      List.replicate 4 120 ≠ longString) ∧
    (∃ h1 q1, insertTailList emptyHeap (q_new true) (emptyStrings 4294967296) =
        some (h1, some q1, List.replicate 4294967296 true) ∧
      (∀ x ∈ emptyStrings 4294967296, x.1.length < 1) ∧
      q_remove_head h1 (some q1) (some []) 1 = some (h1, some q1, some [], false)) := by
  refine ⟨⟨?_, ?_, rfl, replicate_ne_longString 4 (by decide)⟩, ?_⟩
  · have := q_insert_tail_new emptyHeap longString 1
    rw [tailCopy_longString] at this
    simp only [insertTailList, this]
  · rw [longString_length]; decide
  · obtain ⟨h1, q1, hrun, hsize, _⟩ := insertTailList_emptyStrings 4294967295 (by decide)
    refine ⟨h1, q1, hrun, ?_, q_remove_head_fails h1 q1 _ _ ?_⟩
    · intro x hx
      unfold emptyStrings at hx
      obtain ⟨i, _, rfl⟩ := List.mem_map.1 hx
      exact Nat.zero_lt_one
    · rw [hsize]; decide

/-- The claim C5 fails for a string of `2 ^ 32 + 3` bytes and for `2 ^ 32`
strings. `q_insert_head` of `longString` in the empty queue returns `true`, and
`q_remove_head` with a buffer of `2 ^ 32 + 4` bytes, longer than the string,
returns `true` with "xxx" in the buffer, not the string. After `2 ^ 32` calls
of `q_insert_head` that return `true`, `q_remove_head` returns `false`. -/
theorem lifo_order_overflow :
    (insertHeadList emptyHeap (q_new true) [(longString, 1)] =
        some (store emptyHeap 1 { value := bytes "xxx", next := none },
          some { head := some 1, tail := some 1, size := 1 }, [true]) ∧
      longString.length < 4294967300 ∧
      removeHeadN 1 (store emptyHeap 1 { value := bytes "xxx", next := none })
          (some { head := some 1, tail := some 1, size := 1 }) 4294967300 =
        some (release (store emptyHeap 1 { value := bytes "xxx", next := none }) 1,
          some { head := none, tail := none, size := 0 }, [(some (bytes "xxx"), true)]) ∧
      bytes "xxx" ≠ longString) ∧
    (∃ h1 q1, insertHeadList emptyHeap (q_new true) (emptyStrings 4294967296) =
        some (h1, some q1, List.replicate 4294967296 true) ∧
      (∀ x ∈ emptyStrings 4294967296, x.1.length < 1) ∧
      q_remove_head h1 (some q1) (some []) 1 = some (h1, some q1, some [], false)) := by
  have hx3 : bytes "xxx" = List.replicate 3 120 := by decide
  refine ⟨⟨?_, ?_, rfl, by rw [hx3]; exact replicate_ne_longString 3 (by decide)⟩, ?_⟩
  · have := q_insert_head_new emptyHeap longString 1
    rw [headCopy_longString, ← hx3] at this
    simp only [insertHeadList, this]
  · rw [longString_length]; decide
  · obtain ⟨h1, q1, hrun, hsize, _⟩ := insertHeadList_wrap (emptyStrings 4294967296) emptyHeap
      { head := none, tail := none, size := 0 } 0 (by decide)
    rw [emptyStrings_length] at hrun hsize
    refine ⟨h1, q1, hrun, ?_, q_remove_head_fails h1 q1 _ _ ?_⟩
    · intro x hx
      unfold emptyStrings at hx
      obtain ⟨i, _, rfl⟩ := List.mem_map.1 hx
      exact Nat.zero_lt_one
    · rw [hsize]; decide

/-- The claim C6 fails for `2 ^ 31` insertions. The calls of `q_insert_head`
with the addresses `0` to `2 ^ 31 - 1`, none of them allocated before, all
return `true`; no removal is made; and `q_size` is then `-2147483648`, not
`2147483648`. -/
theorem q_size_counts_overflow :
    FreshRun emptyHeap (q_new true) (insertHeadOps (emptyStrings 2147483648)) ∧
    ∃ h1 q1, run emptyHeap (q_new true) (insertHeadOps (emptyStrings 2147483648)) =
        some (h1, some q1, List.replicate 2147483648 true) ∧
      insertsOk (insertHeadOps (emptyStrings 2147483648)) (List.replicate 2147483648 true) =
        2147483648 ∧
      removesOk (insertHeadOps (emptyStrings 2147483648)) (List.replicate 2147483648 true) =
        0 ∧
      q_size (some q1) = -2147483648 := by
  refine ⟨freshRun_insertHeadOps _ _ _ (fun _ _ => rfl) (emptyStrings_nodup _), ?_⟩
  obtain ⟨h1, q1, hrun, hsize, hhead⟩ := insertHeadList_wrap (emptyStrings 2147483648)
    emptyHeap { head := none, tail := none, size := 0 } 0 (by decide)
  have hc := counts_insertHeadOps (emptyStrings 2147483648)
  rw [emptyStrings_length] at hrun hsize hc
  have hne : emptyStrings 2147483648 ≠ [] := by
    intro e
    have := congrArg List.length e
    rw [emptyStrings_length] at this
    exact absurd this (by decide)
  refine ⟨h1, q1, ?_, hc.1, hc.2, ?_⟩
  · rw [run_insertHeadOps]; exact hrun
  · have hq : q1.head ≠ none := hhead (Or.inr hne)
    simp only [q_size, hq, if_false]
    rw [hsize]; decide

end QueueC
